import Mathlib

/-!
# netLayer/pipedeadline.go : PipeDeadline and EasyDeadline

A shallow embedding of `src/netLayer/pipedeadline.go`.

The Go runtime objects the file manipulates are made explicit in a `World`:

* channels of type `chan struct{}` are identities (`ChanId`) with a closed flag;
  a nil channel is `none`;
* timers created by `time.AfterFunc` are identities (`TimerId`) with a status;
  the callback closure `func() { close(d.cancel) }` captures the receiver `d`,
  which is recorded as the timer's `owner`;
* `PipeDeadline` values live at locations of type `α` (the pointer receiver `d`).

Every method body runs under `d.mu`, so a method call is one atomic transition.
The expiry of a timer is split in two transitions, as in the runtime: the timer
expires (`Timer.Stop` fails from then on) and, later, its callback runs.

A second layer, `Sys`, makes the mutex explicit: a call of `Set` that blocks in
the receive of line 68 holds `d.mu` across transitions, and the callback of the
timer runs without the mutex. Its worlds are those of the first layer.
-/

namespace netLayer

/-- An instant (`time.Time`), in nanoseconds relative to the zero instant. -/
abbrev Time := Int

/-- A length of time (`time.Duration`, a 64-bit count of nanoseconds). -/
abbrev Duration := Int

/-- The identity of a channel created by `make(chan struct{})`. -/
abbrev ChanId := Nat

/-- The identity of a timer created by `time.AfterFunc`. -/
abbrev TimerId := Nat

/-- The method `t.IsZero()` of `time.Time`. -/
def Time.IsZero (t : Time) : Bool := t == 0

/-- The largest `time.Duration`: `1<<63 - 1` nanoseconds, about 292 years. -/
def maxDuration : Duration := 2 ^ 63 - 1

/-- The smallest `time.Duration`: `-1 << 63` nanoseconds. -/
def minDuration : Duration := -(2 ^ 63)

/-- The function `time.Until(t)`, that is `t.Sub(time.Now())`, read at clock
value `now`: the difference `t - now`, or the largest (smallest) duration when
the difference is above (below) the range of `time.Duration`. -/
def Until (t : Time) (now : Time) : Duration :=
  if t - now > maxDuration then maxDuration
  else if t - now < minDuration then minDuration
  else t - now

/-- The instant at which a timer armed by `Set(t)` at clock value `now` is due:
`time.Until(t)` after `now`. -/
def dueAt (t : Time) (now : Time) : Time := now + Until t now

/-- Ways in which a goroutine fails to complete. -/
inductive Fault
  | closeOfNilChannel
  | closeOfClosedChannel
  | deadlock
  deriving DecidableEq, Repr

/-- The life cycle of a runtime timer created by `time.AfterFunc`. -/
inductive TimerStatus
  | pending
  | stopped
  | running
  | done
  deriving DecidableEq, Repr

/-- A runtime timer: `owner` is the receiver captured by the callback closure. -/
structure Timer (α : Type) where
  owner : α
  armedAt : Time
  dur : Duration
  status : TimerStatus

/-- The instant from which the runtime lets the timer expire: `dur` after the
timer was armed. -/
def Timer.when {α : Type} (tm : Timer α) : Time := tm.armedAt + tm.dur

/-- The struct `PipeDeadline` (lines 47-51); `mu` is held during every method
and is free in every state between two transitions. -/
structure PipeDeadline where
  timer : Option TimerId
  cancel : Option ChanId
  deriving DecidableEq, Repr

/-- The state of the program: clock, channel heap, timer heap and the
`PipeDeadline` stored at each location. -/
structure World (α : Type) where
  now : Time
  closed : ChanId → Bool
  nextChan : ChanId
  timers : TimerId → Option (Timer α)
  nextTimer : TimerId
  dl : α → PipeDeadline

set_option linter.unusedSectionVars false

variable {α : Type} [DecidableEq α]

/-- The world before anything is allocated: every location holds the zero value
of `PipeDeadline`. -/
def World.boot (t0 : Time) : World α where
  now := t0
  closed := fun _ => false
  nextChan := 0
  timers := fun _ => none
  nextTimer := 0
  dl := fun _ => { timer := none, cancel := none }

/-- Assignment `d.cancel = c`. -/
def World.setCancel (w : World α) (d : α) (c : Option ChanId) : World α :=
  { w with dl := Function.update w.dl d { w.dl d with cancel := c } }

/-- Assignment `d.timer = i`. -/
def World.setTimer (w : World α) (d : α) (i : Option TimerId) : World α :=
  { w with dl := Function.update w.dl d { w.dl d with timer := i } }

/-- The builtin `make(chan struct{})`: a fresh open channel. -/
def makeChan (w : World α) : ChanId × World α :=
  (w.nextChan,
    { w with closed := Function.update w.closed w.nextChan false,
             nextChan := w.nextChan + 1 })

/-- The builtin `close(c)`: panics on a nil or closed channel. -/
def closeChan (c : Option ChanId) (w : World α) : Except Fault (World α) :=
  match c with
  | none => .error .closeOfNilChannel
  | some c =>
    if w.closed c then .error .closeOfClosedChannel
    else .ok { w with closed := Function.update w.closed c true }

/-- The function `isClosedChan` (lines 105-112): a non-blocking receive, which
succeeds exactly on a closed channel (a nil channel is never ready). -/
def isClosedChan (c : Option ChanId) (w : World α) : Bool :=
  match c with
  | none => false
  | some c => w.closed c

/-- The method `(*time.Timer).Stop`: true exactly when the call stops a timer
that was still pending. -/
def stopTimer (i : TimerId) (w : World α) : Bool × World α :=
  match w.timers i with
  | some tm =>
    if tm.status = .pending then
      (true, { w with timers := Function.update w.timers i (some { tm with status := .stopped }) })
    else (false, w)
  | none => (false, w)

/-- The function `time.AfterFunc(dur, func() { close(d.cancel) })`. -/
def afterFunc (dur : Duration) (d : α) (w : World α) : TimerId × World α :=
  (w.nextTimer,
    { w with timers := Function.update w.timers w.nextTimer
               (some { owner := d, armedAt := w.now, dur := dur, status := .pending }),
             nextTimer := w.nextTimer + 1 })

/-- The runtime lets timer `i` expire: it leaves the timer heap and its callback
goroutine is started. Enabled on a pending timer whose instant has come. -/
def expire (i : TimerId) (w : World α) : Option (World α) :=
  match w.timers i with
  | some tm =>
    if tm.status = .pending ∧ tm.when ≤ w.now then
      some { w with timers := Function.update w.timers i (some { tm with status := .running }) }
    else none
  | none => none

/-- The callback of timer `i` runs: `close(d.cancel)` (line 87) with `d` the
captured receiver, whose `cancel` field is read when the callback runs. -/
def runCallback (i : TimerId) (w : World α) : Except Fault (World α) :=
  match w.timers i with
  | some tm =>
    match closeChan (w.dl tm.owner).cancel w with
    | .ok w1 =>
      .ok { w1 with timers := Function.update w1.timers i (some { tm with status := .done }) }
    | .error e => .error e
  | none => .ok w

/-- The receive `<-d.cancel` of line 68, executed after `Stop` failed on timer
`i`. It returns at once on a closed channel. On an open channel the goroutine
blocks; the callback of `i`, if in flight, then runs and closes the channel.
With no callback in flight nothing can close the channel. -/
def recvCancel (i : TimerId) (c : Option ChanId) (w : World α) : Except Fault (World α) :=
  if isClosedChan c w then .ok w
  else
    match w.timers i with
    | some tm =>
      if tm.status = .running then
        match runCallback i w with
        | .ok w1 => if isClosedChan c w1 then .ok w1 else .error .deadlock
        | .error e => .error e
      else .error .deadlock
    | none => .error .deadlock

/-- Lines 67-70 of `Set`: stop the stored timer, wait for its callback when
stopping fails, and clear the timer field. -/
def cancelTimer (d : α) (w : World α) : Except Fault (World α) :=
  match (w.dl d).timer with
  | none => .ok (w.setTimer d none)
  | some i =>
    match stopTimer i w with
    | (true, w1) => .ok (w1.setTimer d none)
    | (false, w1) =>
      match recvCancel i (w1.dl d).cancel w1 with
      | .ok w2 => .ok (w2.setTimer d none)
      | .error e => .error e

/-- The statement `if closed { d.cancel = make(chan struct{}) }`. -/
def renewIf (closed : Bool) (d : α) (w : World α) : World α :=
  if closed then
    let r := makeChan w
    r.2.setCancel d (some r.1)
  else w

/-- Lines 72-95 of `Set`, after the old timer is cancelled. -/
def install (d : α) (t : Time) (w : World α) : Except Fault (World α) :=
  let closed := isClosedChan (w.dl d).cancel w
  if t.IsZero then
    .ok (renewIf closed d w)
  else if Until t w.now > 0 then
    let w1 := renewIf closed d w
    let r := afterFunc (Until t w.now) d w1
    .ok (r.2.setTimer d (some r.1))
  else if !closed then
    closeChan (w.dl d).cancel w
  else .ok w

/-- The method `(*PipeDeadline).Set` (lines 63-96). -/
def PipeDeadline.Set (d : α) (t : Time) (w : World α) : Except Fault (World α) :=
  match cancelTimer d w with
  | .ok w1 => install d t w1
  | .error e => .error e

/-- The method `(*PipeDeadline).Wait` (lines 99-103). -/
def PipeDeadline.Wait (d : α) (w : World α) : Option ChanId × World α :=
  ((w.dl d).cancel, w)

/-- The initialisation `d.cancel = make(chan struct{})` of a `PipeDeadline`
(lines 17, 18 and 54). -/
def PipeDeadline.init (d : α) (w : World α) : World α :=
  let r := makeChan w
  r.2.setCancel d (some r.1)

/-- The transitions of the program. -/
inductive Event (α : Type)
  | init (d : α)
  | set (d : α) (t : Time)
  | wait (d : α)
  | advance (dt : Nat)
  | expire (i : TimerId)
  | callback (i : TimerId)

/-- One transition; `none` when the event is not enabled or does not complete.
A location is initialised once, while it holds the zero value, and `Set` is
called on initialised locations only (`cancel` must be non-nil). -/
def exec (e : Event α) (w : World α) : Option (World α) :=
  match e with
  | .init d =>
    if w.dl d = { timer := none, cancel := none } then some (PipeDeadline.init d w) else none
  | .set d t =>
    if (w.dl d).cancel = none then none
    else
      match PipeDeadline.Set d t w with
      | .ok w1 => some w1
      | .error _ => none
  | .wait d => some (PipeDeadline.Wait d w).2
  | .advance dt => some { w with now := w.now + dt }
  | .expire i => expire i w
  | .callback i =>
    match w.timers i with
    | some tm =>
      if tm.status = .running then
        match runCallback i w with
        | .ok w1 => some w1
        | .error _ => none
      else none
    | none => none

/-- Run a history of events from `w`; the most recent event is the head. -/
def replay (w : World α) : List (Event α) → Option (World α)
  | [] => some w
  | e :: h => (replay w h).bind (exec e)

/-- The states the program can be in: those a history of events leads to from
the empty world, the clock starting at or after the zero instant. -/
def Reachable (w : World α) : Prop :=
  ∃ (t0 : Time) (h : List (Event α)), 0 ≤ t0 ∧ replay (World.boot t0) h = some w

/-- The timer `i` fires: it expires and its callback runs, in one go. -/
def fire (i : TimerId) (w : World α) : Option (World α) :=
  match expire i w with
  | some w1 =>
    match runCallback i w1 with
    | .ok w2 => some w2
    | .error _ => none
  | none => none

/-- No timer owned by `d` can still close a channel: none is pending and none
has its callback in flight. -/
def Idle (w : World α) (d : α) : Prop :=
  ∀ i tm, w.timers i = some tm → tm.owner = d → tm.status ≠ .pending ∧ tm.status ≠ .running

/-- The history `h` contains no call of `Set` on `d`. -/
def SetFree (d : α) (h : List (Event α)) : Prop := ∀ t, Event.set d t ∉ h

/-- From world `w1` on, the signal `c` of location `d` is fired by timer `i` at
`t` and not before: while no `Set` is called on `d` and the callback of `i` has
not run, `Wait()` returns `c` and `c` is unfired; `i` cannot fire while the clock
is before `t`; once the clock has reached `t`, `i` fires (or, already expired,
runs its callback) without fault, after which `c` is fired, no timer of `d` is
live and `i` cannot fire again. -/
def FiresAt (d : α) (t : Time) (c : ChanId) (i : TimerId) (w1 : World α) : Prop :=
  ∀ (h : List (Event α)) (w2 : World α), SetFree d h → Event.callback i ∉ h →
    replay w1 h = some w2 →
      (PipeDeadline.Wait d w2).1 = some c ∧ w2.closed c = false ∧
      (w2.now < t → fire i w2 = none ∧ exec (.callback i) w2 = none) ∧
      (t ≤ w2.now → ∃ w3, (fire i w2 = some w3 ∨ exec (.callback i) w2 = some w3) ∧
        (PipeDeadline.Wait d w3).1 = some c ∧ w3.closed c = true ∧ Idle w3 d ∧
        fire i w3 = none ∧ exec (.callback i) w3 = none)

/-- An initialised location in a world with no timer: `d.cancel` was made at
clock value 100. -/
def demo : World Unit := PipeDeadline.init () (World.boot 100)

/-- An instant more than the largest `time.Duration` after clock value 100. -/
def farFuture : Time := 2 ^ 64

/-- The world reached when a deadline set for clock value 105 expires at 110 and
the callback of its timer has not run yet: timer 0 is expired, channel 0 is
still open. -/
def racy : World Unit :=
  match replay (World.boot 100) [.expire 0, .advance 10, .set () 105, .init ()] with
  | some w => w
  | none => World.boot 100

/-- Location `d` is initialised: its `cancel` field is non-nil. -/
def Ready (w : World α) (d : α) : Prop := (w.dl d).cancel ≠ none

/-- The well-formedness of a world: the clock does not read an instant before
the zero instant of `time.Time`; channels and timers referenced are allocated;
only allocated channels are closed; no channel is shared by two locations; the
timer stored in a location is owned by it and was not stopped; a timer that can
still close a channel is the one stored in its owner, whose channel is open; a
timer expires only once its instant has come. -/
structure Inv (w : World α) : Prop where
  clock : 0 ≤ w.now
  closed_lt : ∀ c, w.closed c = true → c < w.nextChan
  chan_lt : ∀ d c, (w.dl d).cancel = some c → c < w.nextChan
  chan_inj : ∀ d d' c, (w.dl d).cancel = some c → (w.dl d').cancel = some c → d = d'
  timer_lt : ∀ i tm, w.timers i = some tm → i < w.nextTimer
  stored : ∀ d i, (w.dl d).timer = some i →
    ∃ tm, w.timers i = some tm ∧ tm.owner = d ∧ tm.status ≠ .stopped ∧
      (tm.status = .done → isClosedChan (w.dl d).cancel w = true)
  live : ∀ i tm, w.timers i = some tm → (tm.status = .pending ∨ tm.status = .running) →
    (w.dl tm.owner).timer = some i ∧ ∃ c, (w.dl tm.owner).cancel = some c ∧ w.closed c = false
  expired_le : ∀ i tm, w.timers i = some tm → (tm.status = .running ∨ tm.status = .done) →
    tm.when ≤ w.now

/-- What the cancellation step guarantees. -/
structure CancelPost (d : α) (w w1 : World α) : Prop where
  inv : Inv w1
  timer_none : (w1.dl d).timer = none
  cancel_eq : ∀ d', (w1.dl d').cancel = (w.dl d').cancel
  timer_other : ∀ d', d' ≠ d → (w1.dl d').timer = (w.dl d').timer
  now_eq : w1.now = w.now
  nextChan_eq : w1.nextChan = w.nextChan
  nextTimer_eq : w1.nextTimer = w.nextTimer
  closed_mono : ∀ c, w.closed c = true → w1.closed c = true
  closed_other : ∀ c, (w.dl d).cancel ≠ some c → w1.closed c = w.closed c
  closed_of_pending : ∀ i tm, (w.dl d).timer = some i → w.timers i = some tm →
    tm.status = .pending → w1.closed = w.closed
  closed_of_none : (w.dl d).timer = none → w1.closed = w.closed
  rendezvous : ∀ i tm, (w.dl d).timer = some i → w.timers i = some tm →
    tm.status ≠ .pending → isClosedChan (w.dl d).cancel w1 = true
  timers_other : ∀ i, (w.dl d).timer ≠ some i → w1.timers i = w.timers i
  timers_old : ∀ i tm, (w.dl d).timer = some i → w.timers i = some tm →
    ∃ s, (s = .stopped ∨ s = .done) ∧ (s = .stopped ↔ tm.status = .pending) ∧
      w1.timers i = some { tm with status := s }

/-- What lines 72-95 guarantee when run on a location with no stored timer and
channel `c0`. -/
structure InstallPost (d : α) (t : Time) (c0 : ChanId) (w1 w2 : World α) : Prop where
  inv : Inv w2
  now_eq : w2.now = w1.now
  dl_other : ∀ d', d' ≠ d → w2.dl d' = w1.dl d'
  closed_other : ∀ c, c ≠ c0 → w2.closed c = w1.closed c
  closed_mono : ∀ c, w1.closed c = true → w2.closed c = true
  timers_old : ∀ i, i ≠ w1.nextTimer → w2.timers i = w1.timers i
  zero : t = 0 → (w2.dl d).timer = none ∧ w2.timers = w1.timers ∧ w2.nextTimer = w1.nextTimer
  future : w1.now < t → t ≠ 0 → (w2.dl d).timer = some w1.nextTimer ∧
    w2.timers w1.nextTimer =
      some { owner := d, armedAt := w1.now, dur := Until t w1.now, status := .pending } ∧
    w2.nextTimer = w1.nextTimer + 1
  past : t ≠ 0 → t ≤ w1.now → (w2.dl d).timer = none ∧ (w2.dl d).cancel = some c0 ∧
    w2.closed c0 = true ∧ w2.timers = w1.timers ∧ w2.nextTimer = w1.nextTimer ∧
    w2.nextChan = w1.nextChan
  renew : (t = 0 ∨ w1.now < t) → w1.closed c0 = true →
    (w2.dl d).cancel = some w1.nextChan ∧ w2.closed w1.nextChan = false ∧
    w2.nextChan = w1.nextChan + 1
  keep : (t = 0 ∨ w1.now < t) → w1.closed c0 = false →
    (w2.dl d).cancel = some c0 ∧ w2.closed = w1.closed ∧ w2.nextChan = w1.nextChan

/-- The expiry most recently passed to `Set` on location `d` in the history
`h` (most recent event first), if `Set` was called on `d` at all. -/
def lastSet (d : α) : List (Event α) → Option Time
  | [] => none
  | .set d1 t :: h => if d1 = d then some t else lastSet d h
  | _ :: h => lastSet d h

/-- The clock reading after the history `h` (most recent event first), started
at `t0`. -/
def clockOf (t0 : Time) : List (Event α) → Time
  | [] => t0
  | .advance dt :: h => clockOf t0 h + dt
  | _ :: h => clockOf t0 h

/-- The expiry most recently passed to `Set` on location `d` in the history `h`,
with the clock reading at that call. -/
def lastSetAt (d : α) (t0 : Time) : List (Event α) → Option (Time × Time)
  | [] => none
  | .set d1 t :: h => if d1 = d then some (t, clockOf t0 h) else lastSetAt d t0 h
  | _ :: h => lastSetAt d t0 h

/-- How the fields of `d` relate to the expiry `t` most recently set on `d`, at
clock reading `n`: with no expiry set, or the zero expiry, no timer is stored and
the signal is unfired; with a non-zero expiry, the stored timer, if any, is due
at `t` or the largest duration after `n`, whichever comes first, and with no
timer stored the signal is fired and `t` was not after `n`. -/
def Tracks (d : α) (t0 : Time) (h : List (Event α)) (w : World α) : Prop :=
  (lastSetAt d t0 h = none →
    (w.dl d).timer = none ∧ isClosedChan (w.dl d).cancel w = false) ∧
  (∀ t n, lastSetAt d t0 h = some (t, n) →
    (w.dl d).cancel ≠ none ∧ n ≤ w.now ∧
    (t = 0 → (w.dl d).timer = none ∧ isClosedChan (w.dl d).cancel w = false) ∧
    (t ≠ 0 →
      (∀ i tm, (w.dl d).timer = some i → w.timers i = some tm →
        tm.when = min t (n + maxDuration)) ∧
      ((w.dl d).timer = none → isClosedChan (w.dl d).cancel w = true ∧ t ≤ n)))

/-- The history in which a deadline is set for clock value 105 and the clock
then advances to 110 while the timer has not fired yet. -/
def overdue : List (Event Unit) := [.advance 10, .set () 105, .init ()]

/-- The world reached by the history `overdue`. -/
def demoOverdue : World Unit :=
  match replay (World.boot 100) overdue with
  | some w => w
  | none => World.boot 100

/-- The world reached by the history `overdue` followed by the expiry of timer 0
and its callback: the signal is fired. -/
def demoFired : World Unit :=
  match replay (World.boot 100) (.callback 0 :: .expire 0 :: overdue) with
  | some w => w
  | none => World.boot 100

/-- The world reached from `demo` by `Set(100)`, an expiry that is not after the
clock: signal 0 is fired and no timer is stored. -/
def spent : World Unit :=
  match replay (World.boot 100) [.set () 100, .init ()] with
  | some w => w
  | none => World.boot 100

/-- The world reached from `spent` by `Set(zero)`: signal 1 replaces signal 0. -/
def spentNext : World Unit :=
  match exec (.set () 0) spent with
  | some w => w
  | none => World.boot 100

/-- The world reached from `demo` by `Set(105)`: timer 0 is armed. -/
def armedDemo : World Unit :=
  match replay (World.boot 100) [.set () 105, .init ()] with
  | some w => w
  | none => World.boot 100

/-! ## EasyDeadline -/

/-- The two fields of the struct `EasyDeadline` (lines 11-14), as the locations
of the two `PipeDeadline` values it holds. -/
inductive Field
  | readDeadline
  | writeDeadline
  deriving DecidableEq, Repr

/-- The struct `EasyDeadline` (lines 11-14). -/
structure EasyDeadline where
  readDeadline : PipeDeadline
  writeDeadline : PipeDeadline
  deriving DecidableEq, Repr

/-- The value of the `EasyDeadline` in a world whose locations are its fields. -/
def World.ed (w : World Field) : EasyDeadline :=
  { readDeadline := w.dl .readDeadline, writeDeadline := w.dl .writeDeadline }

/-- A Go value of type `error`; `none` is nil. -/
abbrev GoError := Option String

/-- The method `InitEasyDeadline` (lines 16-19). -/
def EasyDeadline.InitEasyDeadline (w : World Field) : World Field :=
  PipeDeadline.init .writeDeadline (PipeDeadline.init .readDeadline w)

/-- The method `ReadTimeoutChan` (lines 22-24). -/
def EasyDeadline.ReadTimeoutChan (w : World Field) : Option ChanId × World Field :=
  PipeDeadline.Wait .readDeadline w

/-- The method `WriteTimeoutChan` (lines 27-29). -/
def EasyDeadline.WriteTimeoutChan (w : World Field) : Option ChanId × World Field :=
  PipeDeadline.Wait .writeDeadline w

/-- The method `SetWriteDeadline` (lines 31-34). -/
def EasyDeadline.SetWriteDeadline (t : Time) (w : World Field) :
    Except Fault (GoError × World Field) :=
  match PipeDeadline.Set .writeDeadline t w with
  | .ok w1 => .ok (none, w1)
  | .error e => .error e

/-- The method `SetReadDeadline` (lines 35-38). -/
def EasyDeadline.SetReadDeadline (t : Time) (w : World Field) :
    Except Fault (GoError × World Field) :=
  match PipeDeadline.Set .readDeadline t w with
  | .ok w1 => .ok (none, w1)
  | .error e => .error e

/-- The method `SetDeadline` (lines 39-43). -/
def EasyDeadline.SetDeadline (t : Time) (w : World Field) :
    Except Fault (GoError × World Field) :=
  match PipeDeadline.Set .readDeadline t w with
  | .ok w1 =>
    match PipeDeadline.Set .writeDeadline t w1 with
    | .ok w2 => .ok (none, w2)
    | .error e => .error e
  | .error e => .error e

/-- The specification of `SetDeadline`: `SetReadDeadline(t)` followed by
`SetWriteDeadline(t)`, returning what the latter returns. -/
def EasyDeadline.setBothSpec (t : Time) (w : World Field) :
    Except Fault (GoError × World Field) :=
  match EasyDeadline.SetReadDeadline t w with
  | .ok r => EasyDeadline.SetWriteDeadline t r.2
  | .error e => .error e

/-- The function `MakePipeDeadline` (lines 53-55): the `PipeDeadline` value it
returns, and the world in which its channel is allocated. -/
def MakePipeDeadline (w : World α) : PipeDeadline × World α :=
  let r := makeChan w
  ({ timer := none, cancel := some r.1 }, r.2)

/-- An `EasyDeadline` initialised at clock value 100. -/
def demoEd : World Field := EasyDeadline.InitEasyDeadline (World.boot 100)

/-! ## The mutex made explicit -/

/-- The program with `d.mu` made explicit. `parked d = some (i, t)` means that a
call `Set(t)` on `d` holds `d.mu` and is blocked in the receive of line 68, after
`Stop` failed on timer `i`. Between two transitions `d.mu` is held exactly then:
every other method body runs from `Lock` to `Unlock` within one transition. -/
structure Sys (α : Type) where
  world : World α
  parked : α → Option (TimerId × Time)

/-- The mutex `d.mu` is held. -/
def Sys.locked (s : Sys α) (d : α) : Bool := (s.parked d).isSome

/-- A call of `Set(t)` on `d` completes from world `w1`: lines 70-95, then the
deferred `Unlock`. -/
def Sys.finishSet (s : Sys α) (d : α) (t : Time) (w1 : World α) : Except Fault (Sys α) :=
  match install d t (w1.setTimer d none) with
  | .ok w2 => .ok { world := w2, parked := Function.update s.parked d none }
  | .error e => .error e

/-- A caller enters `Set(t)` on `d`: `d.mu.Lock()` (line 64), which succeeds when
the mutex is free, then line 67. The call runs to completion, unless `Stop` fails
on the stored timer and the channel is still open: it then blocks in the receive
of line 68, holding the mutex. -/
def Sys.callSet (s : Sys α) (d : α) (t : Time) : Option (Except Fault (Sys α)) :=
  if s.locked d then none
  else
    match (s.world.dl d).timer with
    | none => some (s.finishSet d t s.world)
    | some i =>
      match stopTimer i s.world with
      | (true, w1) => some (s.finishSet d t w1)
      | (false, w1) =>
        if isClosedChan (w1.dl d).cancel w1 then some (s.finishSet d t w1)
        else some (.ok { world := w1, parked := Function.update s.parked d (some (i, t)) })

/-- The receive of line 68 returns, once the channel is closed, and the blocked
call of `Set` completes. -/
def Sys.resumeSet (s : Sys α) (d : α) : Option (Except Fault (Sys α)) :=
  match s.parked d with
  | none => none
  | some (_, t) =>
    if isClosedChan (s.world.dl d).cancel s.world then some (s.finishSet d t s.world)
    else none

/-- The callback goroutine of the expired timer `i` runs its body (line 87),
`close(d.cancel)`. The body contains no `Lock`: the step neither looks at nor
changes the mutex. -/
def Sys.timerCallback (s : Sys α) (i : TimerId) : Option (Except Fault (Sys α)) :=
  match s.world.timers i with
  | some tm =>
    if tm.status = .running then
      match runCallback i s.world with
      | .ok w1 => some (.ok { s with world := w1 })
      | .error e => some (.error e)
    else none
  | none => none

/-- The transitions of the program with the mutex explicit. -/
inductive SysEvent (α : Type)
  | init (d : α)
  | callSet (d : α) (t : Time)
  | resumeSet (d : α)
  | wait (d : α)
  | advance (dt : Nat)
  | expire (i : TimerId)
  | callback (i : TimerId)

/-- One transition: `none` when the event is not enabled, `some (.error _)` when
it panics. `Set` is called on initialised locations only, and `Wait` takes the
mutex. -/
def sysExec (e : SysEvent α) (s : Sys α) : Option (Except Fault (Sys α)) :=
  match e with
  | .init d => (exec (.init d) s.world).map fun w => .ok { s with world := w }
  | .callSet d t => if (s.world.dl d).cancel = none then none else s.callSet d t
  | .resumeSet d => s.resumeSet d
  | .wait d =>
    if s.locked d then none else some (.ok { s with world := (PipeDeadline.Wait d s.world).2 })
  | .advance dt => (exec (.advance dt) s.world).map fun w => .ok { s with world := w }
  | .expire i => (exec (.expire i) s.world).map fun w => .ok { s with world := w }
  | .callback i => s.timerCallback i

/-- Run a history of events from `s`; the most recent event is the head. -/
def sysReplay (s : Sys α) : List (SysEvent α) → Option (Sys α)
  | [] => some s
  | e :: h =>
    (sysReplay s h).bind fun s1 =>
      match sysExec e s1 with
      | some (.ok s2) => some s2
      | _ => none

/-- The empty world, no mutex held. -/
def Sys.boot (t0 : Time) : Sys α :=
  { world := World.boot t0, parked := fun _ => none }

/-- The states the program with the mutex explicit can be in. -/
def SysReachable (s : Sys α) : Prop :=
  ∃ (t0 : Time) (h : List (SysEvent α)), 0 ≤ t0 ∧ sysReplay (Sys.boot t0) h = some s

/-- The invariant of the program with the mutex explicit: the world is reachable
in the program with atomic `Set`, and a blocked call of `Set` waits for the timer
stored in its location, which is no longer pending. -/
def SysInv (s : Sys α) : Prop :=
  Reachable s.world ∧
    ∀ d i t, s.parked d = some (i, t) →
      (s.world.dl d).timer = some i ∧ ∃ tm, s.world.timers i = some tm ∧ tm.status ≠ .pending

/-- The state `racy` with no mutex held, reached by the history below. -/
def racySys : Sys Unit := { world := racy, parked := fun _ => none }

/-- The history that leads to `racySys`. -/
def racyHistory : List (SysEvent Unit) :=
  [.expire 0, .advance 10, .callSet () 105, .init ()]

/-! ## Durations -/

/-- The sign of `time.Until(t)` is that of `t - now`. -/
theorem Until_pos_iff (t now : Time) : Until t now > 0 ↔ now < t := by
  unfold Until maxDuration minDuration
  split_ifs with h1 h2
  · constructor
    · intro _
      linarith
    · intro _
      norm_num
  · constructor
    · intro h
      norm_num at h
    · intro h
      linarith
  · constructor <;> intro h <;> linarith

/-- Within the range of `time.Duration`, `time.Until(t)` is `t - now`. -/
theorem Until_eq_sub (t now : Time) (h1 : minDuration ≤ t - now) (h2 : t - now ≤ maxDuration) :
    Until t now = t - now := by
  unfold Until
  rw [if_neg (not_lt.mpr h2), if_neg (not_lt.mpr h1)]

/-- A timer armed for a future `t` is due after `now`, not after `t`, and at
most the largest duration after `now`. -/
theorem dueAt_bounds (t now : Time) (h : now < t) :
    now < dueAt t now ∧ dueAt t now ≤ t ∧ dueAt t now ≤ now + maxDuration := by
  have hpos := (Until_pos_iff t now).mpr h
  unfold dueAt
  refine ⟨by linarith, ?_, ?_⟩
  · unfold Until at hpos ⊢
    unfold minDuration at hpos ⊢
    split_ifs with h1 h2
    · linarith
    · rw [if_neg h1, if_pos h2] at hpos
      norm_num at hpos
    · linarith
  · unfold Until
    unfold minDuration
    split_ifs with h1 h2
    · linarith
    · have : (-(2 : Int) ^ 63) ≤ maxDuration := by unfold maxDuration; norm_num
      linarith
    · linarith

/-- A timer armed for a future `t` at most the largest duration ahead is due at
`t`. -/
theorem dueAt_eq (t now : Time) (h : now < t) (h2 : t - now ≤ maxDuration) :
    dueAt t now = t := by
  unfold dueAt
  rw [Until_eq_sub t now (by unfold minDuration; linarith) h2]
  ring

/-! ## Projections of the elementary updates -/

@[simp] theorem setTimer_dl_same (w : World α) (d : α) (x : Option TimerId) :
    (w.setTimer d x).dl d = { w.dl d with timer := x } := by
  simp [World.setTimer]

theorem setTimer_dl_other (w : World α) (d d' : α) (x : Option TimerId) (h : d' ≠ d) :
    (w.setTimer d x).dl d' = w.dl d' := by
  simp [World.setTimer, Function.update_noteq h]

@[simp] theorem setTimer_cancel (w : World α) (d d' : α) (x : Option TimerId) :
    ((w.setTimer d x).dl d').cancel = (w.dl d').cancel := by
  by_cases h : d' = d
  · subst h; simp
  · rw [setTimer_dl_other w d d' x h]

@[simp] theorem setTimer_closed (w : World α) (d : α) (x : Option TimerId) :
    (w.setTimer d x).closed = w.closed := rfl

@[simp] theorem setTimer_timers (w : World α) (d : α) (x : Option TimerId) :
    (w.setTimer d x).timers = w.timers := rfl

@[simp] theorem setTimer_now (w : World α) (d : α) (x : Option TimerId) :
    (w.setTimer d x).now = w.now := rfl

@[simp] theorem setTimer_nextChan (w : World α) (d : α) (x : Option TimerId) :
    (w.setTimer d x).nextChan = w.nextChan := rfl

@[simp] theorem setTimer_nextTimer (w : World α) (d : α) (x : Option TimerId) :
    (w.setTimer d x).nextTimer = w.nextTimer := rfl

@[simp] theorem setCancel_dl_same (w : World α) (d : α) (x : Option ChanId) :
    (w.setCancel d x).dl d = { w.dl d with cancel := x } := by
  simp [World.setCancel]

theorem setCancel_dl_other (w : World α) (d d' : α) (x : Option ChanId) (h : d' ≠ d) :
    (w.setCancel d x).dl d' = w.dl d' := by
  simp [World.setCancel, Function.update_noteq h]

@[simp] theorem setCancel_timer (w : World α) (d d' : α) (x : Option ChanId) :
    ((w.setCancel d x).dl d').timer = (w.dl d').timer := by
  by_cases h : d' = d
  · subst h; simp
  · rw [setCancel_dl_other w d d' x h]

@[simp] theorem setCancel_closed (w : World α) (d : α) (x : Option ChanId) :
    (w.setCancel d x).closed = w.closed := rfl

@[simp] theorem setCancel_timers (w : World α) (d : α) (x : Option ChanId) :
    (w.setCancel d x).timers = w.timers := rfl

@[simp] theorem setCancel_now (w : World α) (d : α) (x : Option ChanId) :
    (w.setCancel d x).now = w.now := rfl

@[simp] theorem setCancel_nextChan (w : World α) (d : α) (x : Option ChanId) :
    (w.setCancel d x).nextChan = w.nextChan := rfl

@[simp] theorem setCancel_nextTimer (w : World α) (d : α) (x : Option ChanId) :
    (w.setCancel d x).nextTimer = w.nextTimer := rfl

theorem isClosedChan_setTimer (w : World α) (d : α) (x : Option TimerId) (c : Option ChanId) :
    isClosedChan c (w.setTimer d x) = isClosedChan c w := by
  cases c <;> rfl

/-- The empty world is well formed. -/
theorem inv_boot (t0 : Time) (h0 : 0 ≤ t0) : Inv (World.boot t0 : World α) where
  clock := h0
  closed_lt := by intro c h; simp [World.boot] at h
  chan_lt := by intro d c h; simp [World.boot] at h
  chan_inj := by intro d d' c h; simp [World.boot] at h
  timer_lt := by intro i tm h; simp [World.boot] at h
  stored := by intro d i h; simp [World.boot] at h
  live := by intro i tm h; simp [World.boot] at h
  expired_le := by intro i tm h; simp [World.boot] at h

/-- Clearing the timer field of a location whose stored timer, if any, can no
longer close a channel keeps the world well formed. -/
theorem inv_clearTimer {w : World α} (hw : Inv w) (d : α)
    (hd : ∀ i tm, (w.dl d).timer = some i → w.timers i = some tm →
      tm.status ≠ .pending ∧ tm.status ≠ .running) :
    Inv (w.setTimer d none) where
  clock := hw.clock
  closed_lt := hw.closed_lt
  chan_lt := by
    intro d' c h
    simp only [setTimer_cancel] at h
    exact hw.chan_lt d' c h
  chan_inj := by
    intro d1 d2 c h1 h2
    simp only [setTimer_cancel] at h1 h2
    exact hw.chan_inj d1 d2 c h1 h2
  timer_lt := by
    intro i tm h
    exact hw.timer_lt i tm h
  stored := by
    intro d' i h
    by_cases hdd : d' = d
    · subst hdd; simp at h
    · rw [setTimer_dl_other w d d' none hdd] at h ⊢
      obtain ⟨tm, h1, h2, h3, h4⟩ := hw.stored d' i h
      exact ⟨tm, h1, h2, h3, fun hs => by rw [isClosedChan_setTimer]; exact h4 hs⟩
  live := by
    intro i tm h hs
    simp only [setTimer_timers] at h
    obtain ⟨h1, h2⟩ := hw.live i tm h hs
    have hne : tm.owner ≠ d := by
      intro he
      rw [he] at h1
      have := hd i tm h1 h
      rcases hs with hs | hs
      · exact this.1 hs
      · exact this.2 hs
    rw [setTimer_dl_other w d tm.owner none hne]
    exact ⟨h1, by simpa using h2⟩
  expired_le := hw.expired_le

/-- Stopping the pending timer stored in `d` and clearing the field keeps the
world well formed. -/
theorem inv_stop {w : World α} (hw : Inv w) (d : α) (i : TimerId) (tm : Timer α)
    (hi : (w.dl d).timer = some i) (htm : w.timers i = some tm) :
    Inv (World.setTimer
      { w with timers := Function.update w.timers i (some { tm with status := .stopped }) }
      d none) where
  clock := hw.clock
  closed_lt := hw.closed_lt
  chan_lt := by
    intro d' c h
    simp only [setTimer_cancel] at h
    exact hw.chan_lt d' c h
  chan_inj := by
    intro d1 d2 c h1 h2
    simp only [setTimer_cancel] at h1 h2
    exact hw.chan_inj d1 d2 c h1 h2
  timer_lt := by
    intro j tj h
    simp only [setTimer_timers, Function.update_apply] at h
    split_ifs at h with hj
    · subst hj; exact hw.timer_lt _ tm htm
    · exact hw.timer_lt j tj h
  stored := by
    intro d' j h
    by_cases hdd : d' = d
    · subst hdd; simp at h
    · rw [setTimer_dl_other _ d d' none hdd] at h ⊢
      obtain ⟨tj, h1, h2, h3, h4⟩ := hw.stored d' j h
      obtain ⟨ti, g1, g2, -, -⟩ := hw.stored d i hi
      have hji : j ≠ i := by
        intro he
        subst he
        rw [h1] at g1
        cases g1
        exact hdd (h2.symm.trans g2)
      refine ⟨tj, ?_, h2, h3, ?_⟩
      · simp [Function.update_noteq hji, h1]
      · intro hs
        have := h4 hs
        cases hc : (w.dl d').cancel <;> simp_all [isClosedChan]
  live := by
    intro j tj h hs
    simp only [setTimer_timers, Function.update_apply] at h
    split_ifs at h with hj
    · cases h
      simp at hs
    · obtain ⟨h1, h2⟩ := hw.live j tj h hs
      have hne : tj.owner ≠ d := by
        intro he
        rw [he, hi] at h1
        exact hj (Option.some.inj h1).symm
      rw [setTimer_dl_other _ d tj.owner none hne]
      exact ⟨h1, h2⟩
  expired_le := by
    intro j tj h hs
    simp only [setTimer_timers, Function.update_apply] at h
    split_ifs at h with hj
    · cases h
      simp at hs
    · exact hw.expired_le j tj h hs

/-- The expiry of a pending timer keeps the world well formed. -/
theorem inv_expire {w : World α} (hw : Inv w) (i : TimerId) (tm : Timer α)
    (htm : w.timers i = some tm) (hp : tm.status = .pending) (hle : tm.when ≤ w.now) :
    Inv { w with timers := Function.update w.timers i (some { tm with status := .running }) } where
  clock := hw.clock
  closed_lt := hw.closed_lt
  chan_lt := hw.chan_lt
  chan_inj := hw.chan_inj
  timer_lt := by
    intro j tj h
    simp only [Function.update_apply] at h
    split_ifs at h with hj
    · subst hj; exact hw.timer_lt _ tm htm
    · exact hw.timer_lt j tj h
  stored := by
    intro d j h
    obtain ⟨tj, h1, h2, h3, h4⟩ := hw.stored d j h
    by_cases hj : j = i
    · subst hj
      rw [htm] at h1
      cases h1
      exact ⟨{ tm with status := .running }, by simp, h2, by simp, by simp⟩
    · refine ⟨tj, by simp [Function.update_noteq hj, h1], h2, h3, ?_⟩
      intro hs
      have := h4 hs
      cases hc : (w.dl d).cancel <;> simp_all [isClosedChan]
  live := by
    intro j tj h hs
    simp only [Function.update_apply] at h
    split_ifs at h with hj
    · subst hj
      cases h
      exact hw.live j tm htm (Or.inl hp)
    · exact hw.live j tj h hs
  expired_le := by
    intro j tj h hs
    simp only [Function.update_apply] at h
    split_ifs at h with hj
    · cases h
      exact hle
    · exact hw.expired_le j tj h hs

/-- The callback of a running timer closes the open channel of its owner. -/
theorem runCallback_running {w : World α} (hw : Inv w) (i : TimerId) (tm : Timer α)
    (htm : w.timers i = some tm) (hr : tm.status = .running) :
    ∃ c, (w.dl tm.owner).cancel = some c ∧ w.closed c = false ∧
      runCallback i w = .ok
        { w with closed := Function.update w.closed c true,
                 timers := Function.update w.timers i (some { tm with status := .done }) } := by
  obtain ⟨-, c, hc, ho⟩ := hw.live i tm htm (Or.inr hr)
  refine ⟨c, hc, ho, ?_⟩
  simp [runCallback, htm, hc, closeChan, ho]

/-- Closing the open channel of a location whose stored timer, if any, is
thereby done keeps the world well formed. -/
theorem inv_callback {w : World α} (hw : Inv w) (i : TimerId) (tm : Timer α) (c : ChanId)
    (htm : w.timers i = some tm) (hr : tm.status = .running)
    (hc : (w.dl tm.owner).cancel = some c) :
    Inv { w with closed := Function.update w.closed c true,
                 timers := Function.update w.timers i (some { tm with status := .done }) } where
  clock := hw.clock
  closed_lt := by
    intro c' h
    simp only [Function.update_apply] at h
    split_ifs at h with hcc
    · rw [hcc]; exact hw.chan_lt _ c hc
    · exact hw.closed_lt c' h
  chan_lt := hw.chan_lt
  chan_inj := hw.chan_inj
  timer_lt := by
    intro j tj h
    simp only [Function.update_apply] at h
    split_ifs at h with hj
    · subst hj; exact hw.timer_lt _ tm htm
    · exact hw.timer_lt j tj h
  stored := by
    intro d j h
    obtain ⟨tj, h1, h2, h3, h4⟩ := hw.stored d j h
    by_cases hj : j = i
    · subst hj
      rw [htm] at h1
      cases h1
      refine ⟨{ tm with status := .done }, by simp, h2, by simp, ?_⟩
      intro _
      subst h2
      simp [isClosedChan, hc]
    · refine ⟨tj, by simp [Function.update_noteq hj, h1], h2, h3, ?_⟩
      intro hs
      have := h4 hs
      cases hc' : (w.dl d).cancel with
      | none => simp [hc', isClosedChan] at this
      | some c' =>
        simp only [hc', isClosedChan] at this
        simp only [isClosedChan, Function.update_apply]
        split_ifs <;> simp [this]
  live := by
    intro j tj h hs
    simp only [Function.update_apply] at h
    split_ifs at h with hj
    · cases h
      simp at hs
    · obtain ⟨h1, c', h2, h3⟩ := hw.live j tj h hs
      refine ⟨h1, c', h2, ?_⟩
      have hne : c' ≠ c := by
        intro he
        subst he
        have ho := hw.chan_inj _ _ _ h2 hc
        rw [ho] at h1
        obtain ⟨g1, -⟩ := hw.live i tm htm (Or.inr hr)
        rw [g1] at h1
        exact hj (Option.some.inj h1).symm
      simp [Function.update_noteq hne, h3]
  expired_le := by
    intro j tj h hs
    simp only [Function.update_apply] at h
    split_ifs at h with hj
    · cases h
      exact hw.expired_le i tm htm (Or.inl hr)
    · exact hw.expired_le j tj h hs

/-- Giving a fresh channel to a location that stores no timer keeps the world
well formed. -/
theorem inv_fresh {w : World α} (hw : Inv w) (d : α) (hd : (w.dl d).timer = none) :
    Inv ((makeChan w).2.setCancel d (some (makeChan w).1)) where
  clock := hw.clock
  closed_lt := by
    intro c h
    simp only [makeChan, setCancel_closed, Function.update_apply, setCancel_nextChan] at h ⊢
    split_ifs at h with hcc
    exact Nat.lt_succ_of_lt (hw.closed_lt c h)
  chan_lt := by
    intro d' c h
    by_cases hdd : d' = d
    · subst hdd
      simp [makeChan] at h
      simp [makeChan, ← h]
    · rw [setCancel_dl_other _ d d' _ hdd] at h
      have := hw.chan_lt d' c h
      simp only [makeChan, setCancel_nextChan]
      exact Nat.lt_succ_of_lt this
  chan_inj := by
    intro d1 d2 c h1 h2
    by_cases e1 : d1 = d <;> by_cases e2 : d2 = d
    · rw [e1, e2]
    · subst e1
      rw [setCancel_dl_other _ _ d2 _ e2] at h2
      have := hw.chan_lt d2 c h2
      simp [makeChan] at h1 h2
      rw [h1] at this
      exact absurd this (Nat.lt_irrefl _)
    · subst e2
      rw [setCancel_dl_other _ _ d1 _ e1] at h1
      have := hw.chan_lt d1 c h1
      simp [makeChan] at h1 h2
      rw [h2] at this
      exact absurd this (Nat.lt_irrefl _)
    · rw [setCancel_dl_other _ _ d1 _ e1] at h1
      rw [setCancel_dl_other _ _ d2 _ e2] at h2
      exact hw.chan_inj d1 d2 c h1 h2
  timer_lt := by
    intro i tm h
    exact hw.timer_lt i tm h
  stored := by
    intro d' i h
    simp only [setCancel_timer] at h
    have hdd : d' ≠ d := by
      intro he
      rw [he] at h
      simp [makeChan, hd] at h
    obtain ⟨tm, h1, h2, h3, h4⟩ := hw.stored d' i h
    refine ⟨tm, h1, h2, h3, ?_⟩
    intro hs
    have := h4 hs
    rw [setCancel_dl_other _ _ d' _ hdd]
    cases hc : (w.dl d').cancel with
    | none => simp [hc, isClosedChan] at this
    | some c =>
      have hlt := hw.chan_lt d' c hc
      simp only [hc, isClosedChan] at this
      have hne : c ≠ w.nextChan := Nat.ne_of_lt hlt
      simp [makeChan, hc, isClosedChan, Function.update_noteq hne, this]
  live := by
    intro i tm h hs
    obtain ⟨h1, c, h2, h3⟩ := hw.live i tm h hs
    have hdd : tm.owner ≠ d := by
      intro he
      rw [he, hd] at h1
      cases h1
    rw [setCancel_dl_other _ _ tm.owner _ hdd]
    refine ⟨h1, c, h2, ?_⟩
    have hlt := hw.chan_lt _ c h2
    have hne : c ≠ w.nextChan := Nat.ne_of_lt hlt
    simp [makeChan, Function.update_noteq hne, h3]
  expired_le := hw.expired_le

/-- Arming a timer for a location that stores no timer and whose channel is open
keeps the world well formed. -/
theorem inv_arm {w : World α} (hw : Inv w) (d : α) (dur : Duration) (c : ChanId)
    (hd : (w.dl d).timer = none) (hc : (w.dl d).cancel = some c) (ho : w.closed c = false) :
    Inv ((afterFunc dur d w).2.setTimer d (some (afterFunc dur d w).1)) where
  clock := hw.clock
  closed_lt := hw.closed_lt
  chan_lt := by
    intro d' c' h
    simp only [setTimer_cancel] at h
    exact hw.chan_lt d' c' h
  chan_inj := by
    intro d1 d2 c' h1 h2
    simp only [setTimer_cancel] at h1 h2
    exact hw.chan_inj d1 d2 c' h1 h2
  timer_lt := by
    intro j tj h
    simp only [afterFunc, setTimer_timers, Function.update_apply, setTimer_nextTimer] at h ⊢
    split_ifs at h with hj
    · rw [hj]; exact Nat.lt_succ_self _
    · exact Nat.lt_succ_of_lt (hw.timer_lt j tj h)
  stored := by
    intro d' j h
    by_cases hdd : d' = d
    · subst hdd
      simp only [setTimer_dl_same, afterFunc] at h
      cases h
      refine ⟨{ owner := d', armedAt := w.now, dur := dur, status := .pending }, ?_, rfl, ?_, ?_⟩
      · simp [afterFunc]
      · simp
      · simp
    · rw [setTimer_dl_other _ _ d' _ hdd] at h ⊢
      obtain ⟨tj, h1, h2, h3, h4⟩ := hw.stored d' j h
      have hlt := hw.timer_lt j tj h1
      have hne : j ≠ w.nextTimer := Nat.ne_of_lt hlt
      refine ⟨tj, by simp [afterFunc, Function.update_noteq hne, h1], h2, h3, ?_⟩
      intro hs
      have := h4 hs
      cases hc' : (w.dl d').cancel <;> simp_all [isClosedChan, afterFunc]
  live := by
    intro j tj h hs
    simp only [afterFunc, setTimer_timers, Function.update_apply] at h
    split_ifs at h with hj
    · cases h
      subst hj
      simp only [setTimer_dl_same]
      exact ⟨rfl, c, hc, ho⟩
    · obtain ⟨h1, h2⟩ := hw.live j tj h hs
      have hne : tj.owner ≠ d := by
        intro he
        rw [he, hd] at h1
        cases h1
      rw [setTimer_dl_other _ _ tj.owner _ hne]
      exact ⟨h1, h2⟩
  expired_le := by
    intro j tj h hs
    simp only [afterFunc, setTimer_timers, Function.update_apply] at h
    split_ifs at h with hj
    · cases h
      simp at hs
    · exact hw.expired_le j tj h hs

/-- Closing the channel of a location that stores no timer keeps the world well
formed. -/
theorem inv_close {w : World α} (hw : Inv w) (d : α) (c : ChanId)
    (hd : (w.dl d).timer = none) (hc : (w.dl d).cancel = some c) :
    Inv { w with closed := Function.update w.closed c true } where
  clock := hw.clock
  closed_lt := by
    intro c' h
    simp only [Function.update_apply] at h
    split_ifs at h with hcc
    · rw [hcc]; exact hw.chan_lt _ c hc
    · exact hw.closed_lt c' h
  chan_lt := hw.chan_lt
  chan_inj := hw.chan_inj
  timer_lt := hw.timer_lt
  stored := by
    intro d' j h
    obtain ⟨tj, h1, h2, h3, h4⟩ := hw.stored d' j h
    refine ⟨tj, h1, h2, h3, ?_⟩
    intro hs
    have := h4 hs
    cases hc' : (w.dl d').cancel with
    | none => simp [hc', isClosedChan] at this
    | some c' =>
      simp only [hc', isClosedChan] at this
      simp only [isClosedChan, Function.update_apply]
      split_ifs <;> simp [this]
  live := by
    intro j tj h hs
    obtain ⟨h1, c', h2, h3⟩ := hw.live j tj h hs
    refine ⟨h1, c', h2, ?_⟩
    have hne : c' ≠ c := by
      intro he
      subst he
      have ho := hw.chan_inj _ _ _ h2 hc
      rw [ho, hd] at h1
      cases h1
    simp [Function.update_noteq hne, h3]
  expired_le := hw.expired_le

/-- Advancing the clock keeps the world well formed. -/
theorem inv_advance {w : World α} (hw : Inv w) (t : Time) (ht : 0 ≤ t) (hle : w.now ≤ t) :
    Inv { w with now := t } where
  clock := ht
  closed_lt := hw.closed_lt
  chan_lt := hw.chan_lt
  chan_inj := hw.chan_inj
  timer_lt := hw.timer_lt
  stored := hw.stored
  live := hw.live
  expired_le := by
    intro j tj h hs
    exact le_trans (hw.expired_le j tj h hs) hle

/-! ## The cancellation step of `Set` (lines 67-70) -/

/-- The four ways the cancellation step runs in a well-formed world: no timer
stored; the stored timer is pending and `Stop` succeeds; its callback is in
flight and the receive waits for it; its callback is done and the receive
returns at once. -/
theorem cancelTimer_cases {w : World α} (hw : Inv w) (d : α) :
    ((w.dl d).timer = none ∧ cancelTimer d w = .ok (w.setTimer d none)) ∨
    (∃ i tm, (w.dl d).timer = some i ∧ w.timers i = some tm ∧ tm.owner = d ∧
      ((tm.status = .pending ∧ isClosedChan (w.dl d).cancel w = false ∧
          cancelTimer d w = .ok (World.setTimer
            { w with timers := Function.update w.timers i (some { tm with status := .stopped }) }
            d none)) ∨
       (tm.status = .running ∧ ∃ c, (w.dl d).cancel = some c ∧ w.closed c = false ∧
          cancelTimer d w = .ok (World.setTimer
            { w with closed := Function.update w.closed c true,
                     timers := Function.update w.timers i (some { tm with status := .done }) }
            d none)) ∨
       (tm.status = .done ∧ isClosedChan (w.dl d).cancel w = true ∧
          cancelTimer d w = .ok (w.setTimer d none)))) := by
  cases h : (w.dl d).timer with
  | none => left; simp [cancelTimer, h]
  | some i =>
    right
    obtain ⟨tm, h1, h2, h3, h4⟩ := hw.stored d i h
    refine ⟨i, tm, rfl, h1, h2, ?_⟩
    cases hs : tm.status with
    | pending =>
      left
      obtain ⟨-, c, g1, g2⟩ := hw.live i tm h1 (Or.inl hs)
      rw [h2] at g1
      refine ⟨rfl, by simp [isClosedChan, g1, g2], ?_⟩
      simp [cancelTimer, h, stopTimer, h1, hs]
    | stopped => exact absurd hs h3
    | running =>
      right; left
      obtain ⟨c, g1, g2, g3⟩ := runCallback_running hw i tm h1 hs
      rw [h2] at g1
      refine ⟨rfl, c, g1, g2, ?_⟩
      simp [cancelTimer, h, stopTimer, h1, hs, recvCancel, isClosedChan, g1, g2, g3]
    | done =>
      right; right
      have hc := h4 hs
      refine ⟨rfl, hc, ?_⟩
      simp [cancelTimer, h, stopTimer, h1, hs, recvCancel, hc]

/-- The cancellation step completes in every well-formed world. -/
theorem cancelTimer_post {w : World α} (hw : Inv w) (d : α) :
    ∃ w1, cancelTimer d w = .ok w1 ∧ CancelPost d w w1 := by
  rcases cancelTimer_cases hw d with ⟨h0, he⟩ | ⟨i, tm, hi, htm, ho, hcase⟩
  · refine ⟨_, he, ?_⟩
    have hinv : Inv (w.setTimer d none) := by
      apply inv_clearTimer hw
      intro i tm h
      rw [h0] at h
      cases h
    refine ⟨hinv, by simp, by simp, ?_, rfl, rfl, rfl, ?_, ?_, ?_, ?_, ?_, ?_, ?_⟩
    · intro d' hd'; rw [setTimer_dl_other _ _ _ _ hd']
    · intro c h; exact h
    · intro c _; rfl
    · intro i tm _ _ _; rfl
    · intro _; rfl
    · intro i tm h; rw [h0] at h; cases h
    · intro i _; rfl
    · intro i tm h; rw [h0] at h; cases h
  · rcases hcase with ⟨hs, hopen, he⟩ | ⟨hs, c, hc, hopen, he⟩ | ⟨hs, hclosed, he⟩
    · refine ⟨_, he, ?_⟩
      refine ⟨inv_stop hw d i tm hi htm, by simp, by simp, ?_, rfl, rfl, rfl, ?_, ?_, ?_, ?_, ?_,
        ?_, ?_⟩
      · intro d' hd'; rw [setTimer_dl_other _ _ _ _ hd']
      · intro c h; exact h
      · intro c _; rfl
      · intro _ _ _ _ _; rfl
      · intro _; rfl
      · intro j tj hj htj hne
        rw [hi] at hj
        cases hj
        rw [htm] at htj
        cases htj
        exact absurd hs hne
      · intro j hj
        have : j ≠ i := fun e => hj (e ▸ hi)
        simp [Function.update_noteq this]
      · intro j tj hj htj
        rw [hi] at hj
        cases hj
        rw [htm] at htj
        cases htj
        exact ⟨.stopped, Or.inl rfl, by simp [hs], by simp⟩
    · refine ⟨_, he, ?_⟩
      have hco : (w.dl tm.owner).cancel = some c := by rw [ho]; exact hc
      refine ⟨?_, by simp, by simp, ?_, rfl, rfl, rfl, ?_, ?_, ?_, ?_, ?_, ?_, ?_⟩
      · apply inv_clearTimer (inv_callback hw i tm c htm hs hco)
        intro j tj hj htj
        simp only [hi] at hj
        cases hj
        simp at htj
        subst htj
        simp
      · intro d' hd'; rw [setTimer_dl_other _ _ _ _ hd']
      · intro c' h
        simp only [setTimer_closed, Function.update_apply]
        split_ifs <;> simp [h]
      · intro c' hc'
        have : c' ≠ c := fun e => hc' (e ▸ hc)
        simp [Function.update_noteq this]
      · intro j tj hj htj hp
        rw [hi] at hj
        cases hj
        rw [htm] at htj
        cases htj
        rw [hs] at hp
        cases hp
      · intro h; rw [hi] at h; cases h
      · intro j tj _ _ _
        simp [isClosedChan, hc]
      · intro j hj
        have : j ≠ i := fun e => hj (e ▸ hi)
        simp [Function.update_noteq this]
      · intro j tj hj htj
        rw [hi] at hj
        cases hj
        rw [htm] at htj
        cases htj
        exact ⟨.done, Or.inr rfl, by simp [hs], by simp⟩
    · refine ⟨_, he, ?_⟩
      refine ⟨?_, by simp, by simp, ?_, rfl, rfl, rfl, ?_, ?_, ?_, ?_, ?_, ?_, ?_⟩
      · apply inv_clearTimer hw
        intro j tj hj htj
        rw [hi] at hj
        cases hj
        rw [htm] at htj
        cases htj
        simp [hs]
      · intro d' hd'; rw [setTimer_dl_other _ _ _ _ hd']
      · intro c h; exact h
      · intro c _; rfl
      · intro _ _ _ _ _; rfl
      · intro _; rfl
      · intro j tj _ _ _
        rw [isClosedChan_setTimer]
        exact hclosed
      · intro j _; rfl
      · intro j tj hj htj
        rw [hi] at hj
        cases hj
        rw [htm] at htj
        cases htj
        refine ⟨.done, Or.inr rfl, by simp [hs], ?_⟩
        simp only [setTimer_timers, htm]
        congr 1
        cases tm
        simp_all

/-! ## The installation step of `Set` (lines 72-95) -/

theorem renewIf_true (d : α) (w : World α) :
    renewIf true d w = (makeChan w).2.setCancel d (some (makeChan w).1) := rfl

theorem renewIf_false (d : α) (w : World α) : renewIf false d w = w := rfl

/-- Lines 72-95 complete in every well-formed world in which `d` stores no timer
and is initialised. -/
theorem install_post {w1 : World α} (hw : Inv w1) (d : α) (t : Time) (c0 : ChanId)
    (hd : (w1.dl d).timer = none) (hc : (w1.dl d).cancel = some c0) :
    ∃ w2, install d t w1 = .ok w2 ∧ InstallPost d t c0 w1 w2 := by
  have hfresh : w1.closed w1.nextChan = false := by
    cases h : w1.closed w1.nextChan with
    | false => rfl
    | true => exact absurd (hw.closed_lt _ h) (Nat.lt_irrefl _)
  have hc0lt : c0 < w1.nextChan := hw.chan_lt d c0 hc
  have hc0ne : c0 ≠ w1.nextChan := Nat.ne_of_lt hc0lt
  by_cases ht : t = 0
  · -- no deadline
    subst ht
    cases hcl : w1.closed c0 with
    | true =>
      refine ⟨(makeChan w1).2.setCancel d (some (makeChan w1).1), ?_, ?_⟩
      · simp [install, Time.IsZero, isClosedChan, hc, hcl, renewIf_true]
      · refine ⟨inv_fresh hw d hd, rfl, ?_, ?_, ?_, ?_, ?_, ?_, ?_, ?_, ?_⟩
        · intro d' hd'; rw [setCancel_dl_other _ _ _ _ hd']; rfl
        · intro c _
          simp only [makeChan, setCancel_closed, Function.update_apply]
          split_ifs with h
          · rw [h, hfresh]
          · rfl
        · intro c h
          have : c ≠ w1.nextChan := Nat.ne_of_lt (hw.closed_lt c h)
          simp [makeChan, Function.update_noteq this, h]
        · intro i _; rfl
        · intro _; exact ⟨by simp [makeChan, hd], rfl, rfl⟩
        · intro _ h; exact absurd rfl h
        · intro h; exact absurd rfl h
        · intro _ _; exact ⟨by simp [makeChan], by simp [makeChan], rfl⟩
        · intro _ h; simp [h] at hcl
    | false =>
      refine ⟨w1, ?_, ?_⟩
      · simp [install, Time.IsZero, isClosedChan, hc, hcl, renewIf_false]
      · refine ⟨hw, rfl, fun _ _ => rfl, fun _ _ => rfl, fun _ h => h, fun _ _ => rfl, ?_, ?_, ?_,
          ?_, ?_⟩
        · intro _; exact ⟨hd, rfl, rfl⟩
        · intro _ h; exact absurd rfl h
        · intro h; exact absurd rfl h
        · intro _ h; simp [h] at hcl
        · intro _ _; exact ⟨hc, rfl, rfl⟩
  · by_cases hf : w1.now < t
    · -- deadline in the future
      have hdur : Until t w1.now > 0 := (Until_pos_iff t w1.now).mpr hf
      cases hcl : w1.closed c0 with
      | true =>
        have hinv := inv_fresh hw d hd
        have harm := inv_arm hinv d (Until t w1.now) w1.nextChan
          (by simp [makeChan, hd]) (by simp [makeChan]) (by simp [makeChan])
        refine ⟨_, ?_, ⟨harm, rfl, ?_, ?_, ?_, ?_, ?_, ?_, ?_, ?_, ?_⟩⟩
        · simp [install, Time.IsZero, ht, hdur, isClosedChan, hc, hcl, renewIf_true]
        · intro d' hd'
          rw [setTimer_dl_other _ _ _ _ hd']
          simp only [afterFunc]
          rw [setCancel_dl_other _ _ _ _ hd']; rfl
        · intro c _
          simp only [makeChan, afterFunc, setTimer_closed, setCancel_closed, Function.update_apply]
          split_ifs with h
          · rw [h, hfresh]
          · rfl
        · intro c h
          have : c ≠ w1.nextChan := Nat.ne_of_lt (hw.closed_lt c h)
          simp [makeChan, afterFunc, Function.update_noteq this, h]
        · intro i hi
          simp [afterFunc, makeChan, Function.update_noteq hi]
        · intro h; exact absurd h ht
        · intro _ _
          exact ⟨by simp [afterFunc, makeChan], by simp [afterFunc, makeChan],
            by simp [afterFunc, makeChan]⟩
        · intro _ h; exact absurd hf (not_lt.mpr h)
        · intro _ _
          exact ⟨by simp [afterFunc, makeChan], by simp [afterFunc, makeChan],
            by simp [afterFunc, makeChan]⟩
        · intro _ h; simp [h] at hcl
      | false =>
        have harm := inv_arm hw d (Until t w1.now) c0 hd hc hcl
        refine ⟨_, ?_, ⟨harm, rfl, ?_, ?_, ?_, ?_, ?_, ?_, ?_, ?_, ?_⟩⟩
        · simp [install, Time.IsZero, ht, hdur, isClosedChan, hc, hcl, renewIf_false]
        · intro d' hd'
          rw [setTimer_dl_other _ _ _ _ hd']
          rfl
        · intro c _; rfl
        · intro c h; exact h
        · intro i hi
          simp [afterFunc, Function.update_noteq hi]
        · intro h; exact absurd h ht
        · intro _ _
          exact ⟨by simp [afterFunc], by simp [afterFunc], by simp [afterFunc]⟩
        · intro _ h; exact absurd hf (not_lt.mpr h)
        · intro _ h; simp [h] at hcl
        · intro _ _
          exact ⟨by simp [afterFunc, hc], rfl, rfl⟩
    · -- deadline now or in the past
      have hle : t ≤ w1.now := not_lt.mp hf
      have hdur : ¬ Until t w1.now > 0 := fun h => hf ((Until_pos_iff t w1.now).mp h)
      have hno : ¬ (t = 0 ∨ w1.now < t) := by
        rintro (h | h)
        · exact ht h
        · exact hf h
      cases hcl : w1.closed c0 with
      | true =>
        refine ⟨w1, ?_, ?_⟩
        · simp [install, Time.IsZero, ht, hdur, isClosedChan, hc, hcl]
        · refine ⟨hw, rfl, fun _ _ => rfl, fun _ _ => rfl, fun _ h => h, fun _ _ => rfl, ?_, ?_, ?_,
            ?_, ?_⟩
          · intro h; exact absurd h ht
          · intro h; exact absurd h hf
          · intro _ _; exact ⟨hd, hc, hcl, rfl, rfl, rfl⟩
          · intro h; exact absurd h hno
          · intro h; exact absurd h hno
      | false =>
        refine ⟨{ w1 with closed := Function.update w1.closed c0 true }, ?_, ?_⟩
        · simp [install, Time.IsZero, ht, hdur, isClosedChan, hc, hcl, closeChan]
        · refine ⟨inv_close hw d c0 hd hc, rfl, fun _ _ => rfl, ?_, ?_, fun _ _ => rfl, ?_, ?_, ?_,
            ?_, ?_⟩
          · intro c h; simp [Function.update_noteq h]
          · intro c h
            simp only [Function.update_apply]
            split_ifs <;> simp [h]
          · intro h; exact absurd h ht
          · intro h; exact absurd h hf
          · intro _ _; exact ⟨hd, hc, by simp, rfl, rfl, rfl⟩
          · intro h; exact absurd h hno
          · intro h; exact absurd h hno

/-- The method `Set` completes on every initialised location of a well-formed
world: the cancellation step gives `w1`, the installation step gives `w2`. -/
theorem Set_post {w : World α} (hw : Inv w) (d : α) (t : Time) (c0 : ChanId)
    (hc : (w.dl d).cancel = some c0) :
    ∃ w1 w2, cancelTimer d w = .ok w1 ∧ CancelPost d w w1 ∧
      PipeDeadline.Set d t w = .ok w2 ∧ InstallPost d t c0 w1 w2 := by
  obtain ⟨w1, h1, p1⟩ := cancelTimer_post hw d
  have hc1 : (w1.dl d).cancel = some c0 := by rw [p1.cancel_eq]; exact hc
  obtain ⟨w2, h2, p2⟩ := install_post p1.inv d t c0 p1.timer_none hc1
  refine ⟨w1, w2, h1, p1, ?_, p2⟩
  simp [PipeDeadline.Set, h1, h2]

/-! ## Every transition keeps the world well formed -/

theorem exec_inv {w w1 : World α} (hw : Inv w) (e : Event α) (h : exec e w = some w1) :
    Inv w1 := by
  cases e with
  | init d =>
    simp only [exec] at h
    split_ifs at h with hz
    cases h
    exact inv_fresh hw d (by rw [hz])
  | set d t =>
    simp only [exec] at h
    split_ifs at h with hz
    cases hc : (w.dl d).cancel with
    | none => exact absurd hc hz
    | some c0 =>
      obtain ⟨w1', w2, -, -, h2, p2⟩ := Set_post hw d t c0 hc
      rw [h2] at h
      cases h
      exact p2.inv
  | wait d =>
    simp only [exec, PipeDeadline.Wait] at h
    cases h
    exact hw
  | advance dt =>
    simp only [exec] at h
    cases h
    exact inv_advance hw _ (by have := hw.clock; positivity) (by simp)
  | expire i =>
    simp only [exec, expire] at h
    cases htm : w.timers i with
    | none => simp [htm] at h
    | some tm =>
      simp only [htm] at h
      split_ifs at h with hp
      cases h
      exact inv_expire hw i tm htm hp.1 hp.2
  | callback i =>
    simp only [exec] at h
    cases htm : w.timers i with
    | none => simp [htm] at h
    | some tm =>
      simp only [htm] at h
      split_ifs at h with hr
      obtain ⟨c, g1, g2, g3⟩ := runCallback_running hw i tm htm hr
      rw [g3] at h
      cases h
      exact inv_callback hw i tm c htm hr g1

theorem replay_inv {w w1 : World α} (hw : Inv w) (h : List (Event α))
    (hr : replay w h = some w1) : Inv w1 := by
  induction h generalizing w1 with
  | nil =>
    simp only [replay] at hr
    cases hr
    exact hw
  | cons e h ih =>
    simp only [replay] at hr
    cases hm : replay w h with
    | none => simp [hm] at hr
    | some wm =>
      rw [hm] at hr
      exact exec_inv (ih hm) e hr

/-- Every reachable world is well formed. -/
theorem Reachable.inv {w : World α} (hw : Reachable w) : Inv w := by
  obtain ⟨t0, h, h0, hr⟩ := hw
  exact replay_inv (inv_boot t0 h0) h hr

/-- A transition leads from a reachable world to a reachable world. -/
theorem Reachable.step {w w1 : World α} (hw : Reachable w) (e : Event α)
    (h : exec e w = some w1) : Reachable w1 := by
  obtain ⟨t0, hs, h0, hr⟩ := hw
  exact ⟨t0, e :: hs, h0, by simp [replay, hr, h]⟩

/-! ## What a transition leaves alone -/

theorem PipeDeadline.eq_of_fields {p q : PipeDeadline} (h1 : p.timer = q.timer)
    (h2 : p.cancel = q.cancel) : p = q := by
  cases p; cases q; simp_all

/-- A call of `Set` on location `d1` leaves every other location `d`, its
channel and its stored timer untouched. -/
theorem Set_frame {w w2 : World α} (hw : Inv w) (d1 : α) (t : Time)
    (h : PipeDeadline.Set d1 t w = .ok w2) (hr : (w.dl d1).cancel ≠ none)
    (d : α) (c : ChanId) (hc : (w.dl d).cancel = some c) (hne : d1 ≠ d) :
    w2.dl d = w.dl d ∧ w2.closed c = w.closed c ∧
      ∀ i, (w.dl d).timer = some i → w2.timers i = w.timers i := by
  cases hc1 : (w.dl d1).cancel with
  | none => exact absurd hc1 hr
  | some c1 =>
    obtain ⟨w1, w2', -, p1, h2, p2⟩ := Set_post hw d1 t c1 hc1
    rw [h2] at h
    cases h
    have hcc : c ≠ c1 := by
      intro he
      subst he
      exact hne (hw.chan_inj _ _ _ hc1 hc)
    refine ⟨?_, ?_, ?_⟩
    · rw [p2.dl_other d (Ne.symm hne)]
      exact PipeDeadline.eq_of_fields (p1.timer_other d (Ne.symm hne)) (p1.cancel_eq d)
    · rw [p2.closed_other c hcc]
      apply p1.closed_other
      rw [hc1]
      intro he
      exact hcc (Option.some.inj he).symm
    · intro i hi
      obtain ⟨tm, g1, g2, -, -⟩ := hw.stored d i hi
      have hlt := hw.timer_lt i tm g1
      rw [p2.timers_old i (by rw [p1.nextTimer_eq]; exact Nat.ne_of_lt hlt)]
      apply p1.timers_other
      intro he
      obtain ⟨tm', g1', g2', -, -⟩ := hw.stored d1 i he
      rw [g1] at g1'
      cases g1'
      exact hne (g2'.symm.trans g2)

/-- A transition other than `Set` on `d` leaves the fields of an initialised
location `d` alone; it closes the channel of `d` only when it is the callback of
the timer stored in `d`, and touches that timer only when it is its expiry or
its callback. -/
theorem exec_frame {w w1 : World α} (hw : Inv w) (e : Event α) (h : exec e w = some w1)
    (d : α) (c : ChanId) (hc : (w.dl d).cancel = some c) (hset : ∀ t, e ≠ .set d t) :
    w1.dl d = w.dl d ∧
      ((∀ i, (w.dl d).timer = some i → e ≠ .callback i) → w1.closed c = w.closed c) ∧
      (∀ i, (w.dl d).timer = some i → e ≠ .expire i → e ≠ .callback i →
        w1.timers i = w.timers i) := by
  cases e with
  | init d1 =>
    simp only [exec] at h
    split_ifs at h with hz
    cases h
    have hne : d ≠ d1 := by
      intro he
      subst he
      rw [hz] at hc
      cases hc
    refine ⟨?_, ?_, ?_⟩
    · simp only [PipeDeadline.init]
      rw [setCancel_dl_other _ _ _ _ hne]
      rfl
    · intro _
      have : c ≠ w.nextChan := Nat.ne_of_lt (hw.chan_lt d c hc)
      simp [PipeDeadline.init, makeChan, Function.update_noteq this]
    · intro i _ _ _
      rfl
  | set d1 t =>
    simp only [exec] at h
    split_ifs at h with hz
    have hne : d1 ≠ d := by
      intro he
      subst he
      exact hset t rfl
    cases hs : PipeDeadline.Set d1 t w with
    | error e => simp [hs] at h
    | ok w2 =>
      rw [hs] at h
      cases h
      obtain ⟨g1, g2, g3⟩ := Set_frame hw d1 t hs hz d c hc hne
      exact ⟨g1, fun _ => g2, fun i hi _ _ => g3 i hi⟩
  | wait d1 =>
    simp only [exec, PipeDeadline.Wait] at h
    cases h
    exact ⟨rfl, fun _ => rfl, fun _ _ _ _ => rfl⟩
  | advance dt =>
    simp only [exec] at h
    cases h
    exact ⟨rfl, fun _ => rfl, fun _ _ _ _ => rfl⟩
  | expire i1 =>
    simp only [exec, expire] at h
    cases htm : w.timers i1 with
    | none => simp [htm] at h
    | some tm =>
      simp only [htm] at h
      split_ifs at h with hp
      cases h
      refine ⟨rfl, fun _ => rfl, ?_⟩
      intro i _ hne _
      have : i ≠ i1 := fun he => hne (by rw [he])
      simp [Function.update_noteq this]
  | callback i1 =>
    simp only [exec] at h
    cases htm : w.timers i1 with
    | none => simp [htm] at h
    | some tm =>
      simp only [htm] at h
      split_ifs at h with hr
      obtain ⟨c1, g1, g2, g3⟩ := runCallback_running hw i1 tm htm hr
      rw [g3] at h
      cases h
      refine ⟨rfl, ?_, ?_⟩
      · intro hcb
        have hcc : c ≠ c1 := by
          intro he
          subst he
          have hd := hw.chan_inj _ _ _ g1 hc
          obtain ⟨k1, -⟩ := hw.live i1 tm htm (Or.inr hr)
          rw [hd] at k1
          exact hcb i1 k1 rfl
        simp [Function.update_noteq hcc]
      · intro i _ _ hne
        have : i ≠ i1 := fun he => hne (by rw [he])
        simp [Function.update_noteq this]

/-- A closed channel stays closed across every transition. -/
theorem exec_closed_mono {w w1 : World α} (hw : Inv w) (e : Event α) (h : exec e w = some w1)
    (c : ChanId) (hc : w.closed c = true) : w1.closed c = true := by
  cases e with
  | init d1 =>
    simp only [exec] at h
    split_ifs at h with hz
    cases h
    have : c ≠ w.nextChan := Nat.ne_of_lt (hw.closed_lt c hc)
    simp [PipeDeadline.init, makeChan, Function.update_noteq this, hc]
  | set d1 t =>
    simp only [exec] at h
    split_ifs at h with hz
    cases hc1 : (w.dl d1).cancel with
    | none => exact absurd hc1 hz
    | some c1 =>
      obtain ⟨w1', w2, -, p1, h2, p2⟩ := Set_post hw d1 t c1 hc1
      rw [h2] at h
      cases h
      exact p2.closed_mono c (p1.closed_mono c hc)
  | wait d1 =>
    simp only [exec, PipeDeadline.Wait] at h
    cases h
    exact hc
  | advance dt =>
    simp only [exec] at h
    cases h
    exact hc
  | expire i1 =>
    simp only [exec, expire] at h
    cases htm : w.timers i1 with
    | none => simp [htm] at h
    | some tm =>
      simp only [htm] at h
      split_ifs at h with hp
      cases h
      exact hc
  | callback i1 =>
    simp only [exec] at h
    cases htm : w.timers i1 with
    | none => simp [htm] at h
    | some tm =>
      simp only [htm] at h
      split_ifs at h with hr
      obtain ⟨c1, g1, g2, g3⟩ := runCallback_running hw i1 tm htm hr
      rw [g3] at h
      cases h
      simp only [Function.update_apply]
      split_ifs <;> simp [hc]

/-- A stopped timer stays stopped across every transition. -/
theorem exec_stopped {w w1 : World α} (hw : Inv w) (e : Event α) (h : exec e w = some w1)
    (i : TimerId) (tm : Timer α) (htm : w.timers i = some tm) (hs : tm.status = .stopped) :
    w1.timers i = some tm := by
  cases e with
  | init d1 =>
    simp only [exec] at h
    split_ifs at h with hz
    cases h
    exact htm
  | set d1 t =>
    simp only [exec] at h
    split_ifs at h with hz
    cases hc1 : (w.dl d1).cancel with
    | none => exact absurd hc1 hz
    | some c1 =>
      obtain ⟨w1', w2, -, p1, h2, p2⟩ := Set_post hw d1 t c1 hc1
      rw [h2] at h
      cases h
      have hlt := hw.timer_lt i tm htm
      rw [p2.timers_old i (by rw [p1.nextTimer_eq]; exact Nat.ne_of_lt hlt), p1.timers_other, htm]
      intro he
      obtain ⟨tm', g1, -, g3, -⟩ := hw.stored d1 i he
      rw [htm] at g1
      cases g1
      exact g3 hs
  | wait d1 =>
    simp only [exec, PipeDeadline.Wait] at h
    cases h
    exact htm
  | advance dt =>
    simp only [exec] at h
    cases h
    exact htm
  | expire i1 =>
    simp only [exec, expire] at h
    cases htm1 : w.timers i1 with
    | none => simp [htm1] at h
    | some tm1 =>
      simp only [htm1] at h
      split_ifs at h with hp
      cases h
      have : i ≠ i1 := by
        intro he
        subst he
        rw [htm] at htm1
        cases htm1
        rw [hs] at hp
        exact absurd hp.1 (by simp)
      simp [Function.update_noteq this, htm]
  | callback i1 =>
    simp only [exec] at h
    cases htm1 : w.timers i1 with
    | none => simp [htm1] at h
    | some tm1 =>
      simp only [htm1] at h
      split_ifs at h with hr
      obtain ⟨c1, g1, g2, g3⟩ := runCallback_running hw i1 tm1 htm1 hr
      rw [g3] at h
      cases h
      have : i ≠ i1 := by
        intro he
        subst he
        rw [htm] at htm1
        cases htm1
        rw [hs] at hr
        cases hr
      simp [Function.update_noteq this, htm]

/-! ## Locations without a live timer -/

theorem idle_of_timer_none {w : World α} (hw : Inv w) (d : α) (h : (w.dl d).timer = none) :
    Idle w d := by
  intro i tm htm ho
  constructor
  · intro hs
    have := (hw.live i tm htm (Or.inl hs)).1
    rw [ho, h] at this
    cases this
  · intro hs
    have := (hw.live i tm htm (Or.inr hs)).1
    rw [ho, h] at this
    cases this

/-- An open channel of a location that stores no timer stays open, and the
location keeps its fields, until `Set` is called on the location. -/
theorem quiet_replay {w : World α} (hw : Inv w) (d : α) (c : ChanId)
    (hc : (w.dl d).cancel = some c) (ho : w.closed c = false) (ht : (w.dl d).timer = none)
    (h : List (Event α)) (hfree : SetFree d h) (w1 : World α) (hr : replay w h = some w1) :
    Inv w1 ∧ w1.dl d = w.dl d ∧ w1.closed c = false := by
  induction h generalizing w1 with
  | nil =>
    simp only [replay] at hr
    cases hr
    exact ⟨hw, rfl, ho⟩
  | cons e h ih =>
    simp only [replay] at hr
    cases hm : replay w h with
    | none => simp [hm] at hr
    | some wm =>
      rw [hm] at hr
      have hfree1 : SetFree d h := fun t ht => hfree t (List.mem_cons_of_mem _ ht)
      obtain ⟨i1, i2, i3⟩ := ih hfree1 wm hm
      have hcm : (wm.dl d).cancel = some c := by rw [i2]; exact hc
      have htm : (wm.dl d).timer = none := by rw [i2]; exact ht
      obtain ⟨f1, f2, -⟩ := exec_frame i1 e hr d c hcm
        (fun t he => hfree t (by rw [he]; exact List.mem_cons_self _ _))
      refine ⟨exec_inv i1 e hr, f1.trans i2, ?_⟩
      rw [f2 (fun i hi => by rw [htm] at hi; cases hi)]
      exact i3

theorem demo_reachable : Reachable demo :=
  ⟨100, [.init ()], by decide, rfl⟩

theorem demo_ready : Ready demo () := by
  unfold Ready
  decide

/-! ## Claims about `Set` -/

/-- C1: on an initialised location of a reachable world, at any clock value,
`Set(t)` with `t` the zero time completes and leaves no timer stored or live for
the location; `Wait()` then returns an unfired signal, and in every state reached
afterwards without a further `Set` on the location, `Wait()` still returns that
signal, it is still unfired, and no timer of the location is live. -/
theorem Set_zero_never_fires {w : World α} (hw : Reachable w) (d : α) (t : Time)
    (ht : t.IsZero = true) (hd : Ready w d) :
    ∃ w1, PipeDeadline.Set d t w = .ok w1 ∧ (w1.dl d).timer = none ∧ Idle w1 d ∧
      ∃ c, (PipeDeadline.Wait d w1).1 = some c ∧ w1.closed c = false ∧
        ∀ (h : List (Event α)) (w2 : World α), SetFree d h → replay w1 h = some w2 →
          (PipeDeadline.Wait d w2).1 = some c ∧ w2.closed c = false ∧ Idle w2 d := by
  have ht0 : t = 0 := by simpa [Time.IsZero] using ht
  cases hc : (w.dl d).cancel with
  | none => exact absurd hc hd
  | some c0 =>
    obtain ⟨w1, w2, -, p1, h2, p2⟩ := Set_post hw.inv d t c0 hc
    obtain ⟨z1, -, -⟩ := p2.zero ht0
    have hopen : ∃ c, (w2.dl d).cancel = some c ∧ w2.closed c = false := by
      cases hcl : w1.closed c0 with
      | true =>
        obtain ⟨r1, r2, -⟩ := p2.renew (Or.inl ht0) hcl
        exact ⟨_, r1, r2⟩
      | false =>
        obtain ⟨k1, k2, -⟩ := p2.keep (Or.inl ht0) hcl
        exact ⟨c0, k1, by rw [k2]; exact hcl⟩
    obtain ⟨c, hc2, ho2⟩ := hopen
    refine ⟨w2, h2, z1, idle_of_timer_none p2.inv d z1, c, hc2, ho2, ?_⟩
    intro h w3 hfree hr
    obtain ⟨q1, q2, q3⟩ := quiet_replay p2.inv d c hc2 ho2 z1 h hfree w3 hr
    refine ⟨?_, q3, idle_of_timer_none q1 d (by rw [q2]; exact z1)⟩
    simp only [PipeDeadline.Wait]
    rw [q2]
    exact hc2

theorem Set_zero_never_fires_witness :
    Reachable demo ∧ Ready demo () ∧
      ∃ w1, PipeDeadline.Set () 0 demo = .ok w1 ∧ (w1.dl ()).timer = none ∧
        ∃ c, (PipeDeadline.Wait () w1).1 = some c ∧ w1.closed c = false := by
  obtain ⟨w1, h1, h2, -, c, h3, h4, -⟩ :=
    Set_zero_never_fires demo_reachable () 0 rfl demo_ready
  exact ⟨demo_reachable, demo_ready, w1, h1, h2, c, h3, h4⟩

/-- C2: on an initialised location of a reachable world, `Set(t)` with `t`
non-zero and not after the current time completes; immediately afterwards
`Wait()` returns the very signal it returned before the call, that signal is
fired, and no timer is stored or live for the location. -/
theorem Set_past_fires {w : World α} (hw : Reachable w) (d : α) (c0 : ChanId)
    (hc : (PipeDeadline.Wait d w).1 = some c0) (t : Time) (hnz : t.IsZero = false)
    (hle : t ≤ w.now) :
    ∃ w1, PipeDeadline.Set d t w = .ok w1 ∧ (PipeDeadline.Wait d w1).1 = some c0 ∧
      w1.closed c0 = true ∧ (w1.dl d).timer = none ∧ Idle w1 d := by
  have ht0 : t ≠ 0 := by simpa [Time.IsZero] using hnz
  simp only [PipeDeadline.Wait] at hc
  obtain ⟨w1, w2, -, p1, h2, p2⟩ := Set_post hw.inv d t c0 hc
  obtain ⟨a1, a2, a3, -, -, -⟩ := p2.past ht0 (by rw [p1.now_eq]; exact hle)
  exact ⟨w2, h2, a2, a3, a1, idle_of_timer_none p2.inv d a1⟩

theorem Set_past_fires_witness :
    Reachable demo ∧ (PipeDeadline.Wait () demo).1 = some 0 ∧ (100 : Time) ≤ demo.now ∧
      ∃ w1, PipeDeadline.Set () 100 demo = .ok w1 ∧ (PipeDeadline.Wait () w1).1 = some 0 ∧
        w1.closed 0 = true :=
  ⟨demo_reachable, rfl, by decide, by
    obtain ⟨w1, h1, h2, h3, -⟩ :=
      Set_past_fires demo_reachable () 0 rfl 100 rfl (by decide)
    exact ⟨w1, h1, h2, h3⟩⟩

/-! ## Locations with a live timer -/

/-- While no `Set` is called on `d` and the callback of the timer stored in `d`
has not run, the location keeps its fields, its channel stays open and its timer
stays live with the same owner and instant. -/
theorem armed_replay {w : World α} (hw : Inv w) (d : α) (c : ChanId) (i : TimerId)
    (tm0 : Timer α) (hc : (w.dl d).cancel = some c) (ho : w.closed c = false)
    (hi : (w.dl d).timer = some i) (htm : w.timers i = some tm0)
    (hs0 : tm0.status = .pending ∨ tm0.status = .running)
    (h : List (Event α)) (hfree : SetFree d h) (hcb : Event.callback i ∉ h)
    (w1 : World α) (hr : replay w h = some w1) :
    Inv w1 ∧ w1.dl d = w.dl d ∧ w1.closed c = false ∧
      ∃ tm, w1.timers i = some tm ∧ tm.owner = tm0.owner ∧ tm.armedAt = tm0.armedAt ∧
        tm.dur = tm0.dur ∧ (tm.status = .pending ∨ tm.status = .running) := by
  induction h generalizing w1 with
  | nil =>
    simp only [replay] at hr
    cases hr
    exact ⟨hw, rfl, ho, tm0, htm, rfl, rfl, rfl, hs0⟩
  | cons e h ih =>
    simp only [replay] at hr
    cases hm : replay w h with
    | none => simp [hm] at hr
    | some wm =>
      rw [hm] at hr
      have hfree1 : SetFree d h := fun t ht => hfree t (List.mem_cons_of_mem _ ht)
      have hcb1 : Event.callback i ∉ h := fun hmem => hcb (List.mem_cons_of_mem _ hmem)
      obtain ⟨i1, i2, i3, tm, i4, i5, i6, i7, i8⟩ := ih hfree1 hcb1 wm hm
      have hcm : (wm.dl d).cancel = some c := by rw [i2]; exact hc
      have him : (wm.dl d).timer = some i := by rw [i2]; exact hi
      have hecb : e ≠ .callback i := fun he => hcb (by rw [← he]; exact List.mem_cons_self _ _)
      obtain ⟨f1, f2, f3⟩ := exec_frame i1 e hr d c hcm
        (fun t he => hfree t (by rw [he]; exact List.mem_cons_self _ _))
      refine ⟨exec_inv i1 e hr, f1.trans i2, ?_, ?_⟩
      · rw [f2 (fun j hj => by rw [him] at hj; cases hj; exact hecb)]
        exact i3
      · by_cases hex : e = .expire i
        · subst hex
          simp only [exec, expire, Option.some_bind, i4] at hr
          split_ifs at hr with hp
          cases hr
          exact ⟨{ tm with status := .running }, by simp, i5, i6, i7, Or.inr rfl⟩
        · rw [f3 i him hex hecb]
          exact ⟨tm, i4, i5, i6, i7, i8⟩

/-- The callback of the expired timer stored in `d` completes: it closes the
channel of `d`, after which no timer of `d` is live and the timer can neither
expire nor run its callback again. -/
theorem callback_fires {w : World α} (hw : Inv w) (d : α) (c : ChanId) (i : TimerId)
    (tm : Timer α) (hc : (w.dl d).cancel = some c) (hi : (w.dl d).timer = some i)
    (htm : w.timers i = some tm) (hs : tm.status = .running) :
    ∃ w1, exec (.callback i) w = some w1 ∧ runCallback i w = .ok w1 ∧ w1.closed c = true ∧
      w1.dl d = w.dl d ∧ Idle w1 d ∧ fire i w1 = none ∧ exec (.callback i) w1 = none := by
  obtain ⟨c1, g1, g2, g3⟩ := runCallback_running hw i tm htm hs
  obtain ⟨tm', k1, k2, -, -⟩ := hw.stored d i hi
  rw [htm] at k1
  cases k1
  have hcc : c1 = c := by
    rw [k2, hc] at g1
    exact (Option.some.inj g1).symm
  subst hcc
  have hinv := inv_callback hw i tm c1 htm hs g1
  refine ⟨_, by simp [exec, htm, hs, g3], g3, by simp, rfl, ?_, ?_, ?_⟩
  · intro j tj hj hoj
    by_cases hji : j = i
    · subst hji
      simp at hj
      subst hj
      simp
    · constructor
      · intro hp
        have := (hinv.live j tj hj (Or.inl hp)).1
        rw [hoj] at this
        simp only [hi] at this
        exact hji (Option.some.inj this).symm
      · intro hp
        have := (hinv.live j tj hj (Or.inr hp)).1
        rw [hoj] at this
        simp only [hi] at this
        exact hji (Option.some.inj this).symm
  · simp [fire, expire]
  · simp [exec]

/-- The pending timer stored in `d` fires once its instant has come: it expires
and its callback closes the channel of `d`, after which no timer of `d` is live
and the timer can neither expire nor run its callback again. -/
theorem fire_fires {w : World α} (hw : Inv w) (d : α) (c : ChanId) (i : TimerId)
    (tm : Timer α) (hc : (w.dl d).cancel = some c) (hi : (w.dl d).timer = some i)
    (htm : w.timers i = some tm) (hs : tm.status = .pending) (hle : tm.when ≤ w.now) :
    ∃ w1, fire i w = some w1 ∧ w1.closed c = true ∧ w1.dl d = w.dl d ∧ Idle w1 d ∧
      fire i w1 = none ∧ exec (.callback i) w1 = none := by
  have hinv := inv_expire hw i tm htm hs hle
  obtain ⟨w1, -, h2, h3, h4, h5, h6, h7⟩ := callback_fires hinv d c i { tm with status := .running }
    hc hi (by simp) rfl
  refine ⟨w1, ?_, h3, h4, h5, h6, h7⟩
  simp only [fire, expire, htm, hs, hle, and_self, if_true]
  rw [h2]

/-- A pending timer stored in `d`, whose instant is `t`, fires the open signal
of `d` at `t` and not before. -/
theorem firesAt_intro {w1 : World α} (hw1 : Inv w1) (d : α) (t : Time) (c : ChanId)
    (i : TimerId) (tm0 : Timer α) (hc : (w1.dl d).cancel = some c) (ho : w1.closed c = false)
    (hi : (w1.dl d).timer = some i) (htm : w1.timers i = some tm0)
    (hp0 : tm0.status = .pending) (hwhen0 : tm0.when = t) : FiresAt d t c i w1 := by
  intro h w3 hfree hcb hr
  obtain ⟨q1, q2, q3, tm, q4, q5, q6, q7, q8⟩ :=
    armed_replay hw1 d c i tm0 hc ho hi htm (Or.inl hp0) h hfree hcb w3 hr
  have hc3 : (w3.dl d).cancel = some c := by rw [q2]; exact hc
  have hi3 : (w3.dl d).timer = some i := by rw [q2]; exact hi
  have hwhen : tm.when = t := by
    rw [← hwhen0]
    simp only [Timer.when, q6, q7]
  refine ⟨hc3, q3, ?_, ?_⟩
  · intro hlt
    have hp : tm.status = .pending := by
      rcases q8 with hp | hp
      · exact hp
      · have := q1.expired_le _ tm q4 (Or.inl hp)
        rw [hwhen] at this
        exact absurd hlt (not_lt.mpr this)
    constructor
    · simp [fire, expire, q4, hwhen, not_le.mpr hlt]
    · simp [exec, q4, hp]
  · intro hle
    rcases q8 with hp | hp
    · obtain ⟨w4, g1, g2, g3, g4, g5, g6⟩ :=
        fire_fires q1 d c i tm hc3 hi3 q4 hp (by rw [hwhen]; exact hle)
      exact ⟨w4, Or.inl g1, by simp only [PipeDeadline.Wait]; rw [g3]; exact hc3, g2, g4, g5, g6⟩
    · obtain ⟨w4, g1, -, g2, g3, g4, g5, g6⟩ := callback_fires q1 d c i tm hc3 hi3 q4 hp
      exact ⟨w4, Or.inr g1, by simp only [PipeDeadline.Wait]; rw [g3]; exact hc3, g2, g4, g5, g6⟩

/-- The outcome of `Set(t)` with `t` strictly after the current time, on an
initialised location of a well-formed world. -/
theorem Set_future_post {w : World α} (hw : Inv w) (d : α) (t : Time) (c0 : ChanId)
    (hc : (w.dl d).cancel = some c0) (hf : w.now < t) :
    ∃ w1 w2 c, cancelTimer d w = .ok w1 ∧ CancelPost d w w1 ∧
      PipeDeadline.Set d t w = .ok w2 ∧ InstallPost d t c0 w1 w2 ∧
      (w2.dl d).cancel = some c ∧ w2.closed c = false ∧
      (w2.dl d).timer = some w.nextTimer ∧
      w2.timers w.nextTimer =
        some { owner := d, armedAt := w.now, dur := Until t w.now, status := .pending } ∧
      (∀ j tm, w2.timers j = some tm → tm.owner = d → tm.status = .pending →
        j = w.nextTimer) ∧
      FiresAt d (dueAt t w.now) c w.nextTimer w2 := by
  have ht0 : t ≠ 0 := by
    have := hw.clock
    intro he
    rw [he] at hf
    exact absurd hf (not_lt.mpr this)
  obtain ⟨w1, w2, h1, p1, h2, p2⟩ := Set_post hw d t c0 hc
  have hf1 : w1.now < t := by rw [p1.now_eq]; exact hf
  obtain ⟨a1, a2, -⟩ := p2.future hf1 ht0
  rw [p1.now_eq] at a2
  rw [p1.nextTimer_eq] at a1 a2
  have hopen : ∃ c, (w2.dl d).cancel = some c ∧ w2.closed c = false := by
    cases hcl : w1.closed c0 with
    | true =>
      obtain ⟨r1, r2, -⟩ := p2.renew (Or.inr hf1) hcl
      exact ⟨_, r1, r2⟩
    | false =>
      obtain ⟨k1, k2, -⟩ := p2.keep (Or.inr hf1) hcl
      exact ⟨c0, k1, by rw [k2]; exact hcl⟩
  obtain ⟨c, hc2, ho2⟩ := hopen
  refine ⟨w1, w2, c, h1, p1, h2, p2, hc2, ho2, a1, a2, ?_, ?_⟩
  · intro j tm hj hoj hp
    have := (p2.inv.live j tm hj (Or.inl hp)).1
    rw [hoj, a1] at this
    exact (Option.some.inj this).symm
  · exact firesAt_intro p2.inv d (dueAt t w.now) c w.nextTimer _ hc2 ho2 a1 a2 rfl rfl

/-- C3, as stated, fails: `Set(farFuture)` on the initialised location of
`demo`, at clock value 100, arms a timer whose duration is the largest
`time.Duration`, `2^63 - 1` nanoseconds, not `farFuture - now`, and which is due
before `farFuture`. -/
theorem Set_future_arms_counterexample :
    Reachable demo ∧ Ready demo () ∧ demo.now < farFuture ∧
      ∃ w1 tm, PipeDeadline.Set () farFuture demo = .ok w1 ∧ (w1.dl ()).timer = some 0 ∧
        w1.timers 0 = some tm ∧ tm.status = .pending ∧ tm.dur = 2 ^ 63 - 1 ∧
        tm.dur ≠ farFuture - demo.now ∧ tm.when < farFuture :=
  ⟨demo_reachable, demo_ready, by decide, _, _, rfl, rfl, rfl, rfl, by decide, by decide,
    by decide⟩

/-- C3, amended: on an initialised location of a reachable world, `Set(t)` with
`t` strictly after the current time `now` completes; immediately afterwards
`Wait()` returns an unfired signal and the location stores a pending timer,
owned by the location and of duration `time.Until(t)`, which is `t - now` when
that is at most the largest `time.Duration` (and the timer is then due at `t`),
and which is the only pending timer of the location. In every state reached
afterwards with no further `Set` on the location and before the callback of
that timer has run, `Wait()` returns the same signal and it is unfired; the
timer cannot fire while the clock is before its due instant; once the clock has
reached it the timer fires (or, already expired, runs its callback) without
fault, the signal is then fired, no timer of the location is live and the timer
cannot fire again. -/
theorem Set_future_arms {w : World α} (hw : Reachable w) (d : α) (t : Time)
    (hd : Ready w d) (hf : w.now < t) :
    ∃ w1 c i, PipeDeadline.Set d t w = .ok w1 ∧
      (PipeDeadline.Wait d w1).1 = some c ∧ w1.closed c = false ∧
      (w1.dl d).timer = some i ∧
      w1.timers i =
        some { owner := d, armedAt := w.now, dur := Until t w.now, status := .pending } ∧
      (t - w.now ≤ maxDuration → Until t w.now = t - w.now ∧ dueAt t w.now = t) ∧
      (∀ j tm, w1.timers j = some tm → tm.owner = d → tm.status = .pending → j = i) ∧
      ∀ (h : List (Event α)) (w2 : World α), SetFree d h → Event.callback i ∉ h →
        replay w1 h = some w2 →
          (PipeDeadline.Wait d w2).1 = some c ∧ w2.closed c = false ∧
          (w2.now < dueAt t w.now → fire i w2 = none ∧ exec (.callback i) w2 = none) ∧
          (dueAt t w.now ≤ w2.now →
            ∃ w3, (fire i w2 = some w3 ∨ exec (.callback i) w2 = some w3) ∧
              (PipeDeadline.Wait d w3).1 = some c ∧ w3.closed c = true ∧ Idle w3 d ∧
              fire i w3 = none ∧ exec (.callback i) w3 = none) := by
  cases hc : (w.dl d).cancel with
  | none => exact absurd hc hd
  | some c0 =>
    obtain ⟨w1, w2, c, -, -, h2, -, a1, a2, a3, a4, a5, a6⟩ :=
      Set_future_post hw.inv d t c0 hc hf
    refine ⟨w2, c, w.nextTimer, h2, a1, a2, a3, a4, ?_, a5, a6⟩
    intro hcap
    exact ⟨Until_eq_sub t w.now (by unfold minDuration; linarith) hcap,
      dueAt_eq t w.now hf hcap⟩

theorem Set_future_arms_witness :
    Reachable demo ∧ Ready demo () ∧ demo.now < 105 ∧
      ∃ w1 c i, PipeDeadline.Set () 105 demo = .ok w1 ∧
        (PipeDeadline.Wait () w1).1 = some c ∧ w1.closed c = false ∧
        w1.timers i = some { owner := (), armedAt := demo.now, dur := Until 105 demo.now,
                             status := .pending } ∧
        Until 105 demo.now = 105 - demo.now ∧ dueAt 105 demo.now = 105 := by
  obtain ⟨w1, c, i, h1, h2, h3, -, h4, h5, -⟩ :=
    Set_future_arms demo_reachable () 105 demo_ready (by decide)
  obtain ⟨k1, k2⟩ := h5 (by decide)
  exact ⟨demo_reachable, demo_ready, by decide, w1, c, i, h1, h2, h3, h4, k1, k2⟩

/-! ## Re-arming and cancelling -/

/-- The clock never goes back. -/
theorem exec_now_mono {w w1 : World α} (hw : Inv w) (e : Event α) (h : exec e w = some w1) :
    w.now ≤ w1.now := by
  cases e with
  | init d1 =>
    simp only [exec] at h
    split_ifs at h with hz
    cases h
    exact le_refl _
  | set d1 t =>
    simp only [exec] at h
    split_ifs at h with hz
    cases hc1 : (w.dl d1).cancel with
    | none => exact absurd hc1 hz
    | some c1 =>
      obtain ⟨w1', w2, -, p1, h2, p2⟩ := Set_post hw d1 t c1 hc1
      rw [h2] at h
      cases h
      rw [p2.now_eq, p1.now_eq]
  | wait d1 =>
    simp only [exec, PipeDeadline.Wait] at h
    cases h
    exact le_refl _
  | advance dt =>
    simp only [exec] at h
    cases h
    simp
  | expire i1 =>
    simp only [exec, expire] at h
    cases htm : w.timers i1 with
    | none => simp [htm] at h
    | some tm =>
      simp only [htm] at h
      split_ifs at h with hp
      cases h
      exact le_refl _
  | callback i1 =>
    simp only [exec] at h
    cases htm : w.timers i1 with
    | none => simp [htm] at h
    | some tm =>
      simp only [htm] at h
      split_ifs at h with hr
      cases hrc : runCallback i1 w with
      | error e => simp [hrc] at h
      | ok w2 =>
        rw [hrc] at h
        cases h
        simp only [runCallback, htm] at hrc
        cases hcc : closeChan (w.dl tm.owner).cancel w with
        | error e => simp [hcc] at hrc
        | ok w3 =>
          simp only [hcc] at hrc
          cases hrc
          simp only [closeChan] at hcc
          cases hch : (w.dl tm.owner).cancel with
          | none => simp [hch] at hcc
          | some c =>
            simp only [hch] at hcc
            split_ifs at hcc
            cases hcc
            exact le_refl _

/-- While no `Set` is called on `d` and the clock is before the instant of the
pending timer stored in `d`, the location keeps its fields, its channel stays
open and the timer stays pending. -/
theorem pending_replay {w : World α} (hw : Inv w) (d : α) (c : ChanId) (i : TimerId)
    (tm : Timer α) (hc : (w.dl d).cancel = some c) (ho : w.closed c = false)
    (hi : (w.dl d).timer = some i) (htm : w.timers i = some tm) (hp : tm.status = .pending)
    (h : List (Event α)) (hfree : SetFree d h) (w1 : World α) (hr : replay w h = some w1)
    (hlt : w1.now < tm.when) :
    Inv w1 ∧ w1.dl d = w.dl d ∧ w1.closed c = false ∧ w1.timers i = some tm := by
  induction h generalizing w1 with
  | nil =>
    simp only [replay] at hr
    cases hr
    exact ⟨hw, rfl, ho, htm⟩
  | cons e h ih =>
    simp only [replay] at hr
    cases hm : replay w h with
    | none => simp [hm] at hr
    | some wm =>
      rw [hm] at hr
      simp only [Option.some_bind] at hr
      have hfree1 : SetFree d h := fun t ht => hfree t (List.mem_cons_of_mem _ ht)
      have hmono := exec_now_mono (replay_inv hw h hm) e hr
      obtain ⟨i1, i2, i3, i4⟩ := ih hfree1 wm hm (lt_of_le_of_lt hmono hlt)
      have hcm : (wm.dl d).cancel = some c := by rw [i2]; exact hc
      have him : (wm.dl d).timer = some i := by rw [i2]; exact hi
      have hecb : e ≠ .callback i := by
        intro he
        subst he
        simp [exec, i4, hp] at hr
      have hex : e ≠ .expire i := by
        intro he
        subst he
        simp only [exec, expire, i4] at hr
        split_ifs at hr with hg
        exact absurd (lt_of_le_of_lt hg.2 (lt_of_le_of_lt hmono hlt)) (lt_irrefl _)
      obtain ⟨f1, f2, f3⟩ := exec_frame i1 e hr d c hcm
        (fun t he => hfree t (by rw [he]; exact List.mem_cons_self _ _))
      refine ⟨exec_inv i1 e hr, f1.trans i2, ?_, ?_⟩
      · rw [f2 (fun j hj => by rw [him] at hj; cases hj; exact hecb)]
        exact i3
      · rw [f3 i him hex hecb]
        exact i4

/-- A stopped timer stays stopped for ever and can neither fire nor run its
callback. -/
theorem stopped_replay {w : World α} (hw : Inv w) (i : TimerId) (tm : Timer α)
    (htm : w.timers i = some tm) (hs : tm.status = .stopped)
    (h : List (Event α)) (w1 : World α) (hr : replay w h = some w1) :
    w1.timers i = some tm ∧ fire i w1 = none ∧ exec (.callback i) w1 = none := by
  have key : Inv w1 ∧ w1.timers i = some tm := by
    induction h generalizing w1 with
    | nil =>
      simp only [replay] at hr
      cases hr
      exact ⟨hw, htm⟩
    | cons e h ih =>
      simp only [replay] at hr
      cases hm : replay w h with
      | none => simp [hm] at hr
      | some wm =>
        rw [hm] at hr
        simp only [Option.some_bind] at hr
        obtain ⟨i1, i2⟩ := ih wm hm
        exact ⟨exec_inv i1 e hr, exec_stopped i1 e hr i tm i2 hs⟩
  refine ⟨key.2, ?_, ?_⟩
  · simp [fire, expire, key.2, hs]
  · simp [exec, key.2, hs]

/-- C4, as stated, fails: on the initialised location of `demo`, at clock value
100, `Set(105)` followed at once by `Set(farFuture)` leaves one armed timer whose
expiry is not `farFuture`: it is due the largest `time.Duration` after the call,
before `farFuture`. -/
theorem Set_rearm_counterexample :
    Reachable demo ∧ Ready demo () ∧ demo.now < 105 ∧
      ∃ w1 w3 tm, PipeDeadline.Set () 105 demo = .ok w1 ∧ w1.now < 105 ∧
        w1.now < farFuture ∧ PipeDeadline.Set () farFuture w1 = .ok w3 ∧
        (w3.dl ()).timer = some 1 ∧ w3.timers 1 = some tm ∧ tm.status = .pending ∧
        tm.when ≠ farFuture ∧ tm.when < farFuture :=
  ⟨demo_reachable, demo_ready, by decide, _, _, _, rfl, by decide, by decide, rfl, rfl, rfl,
    rfl, by decide, by decide⟩

/-- C4, amended: on an initialised location of a reachable world, after
`Set(t1)` with `t1` in the future, in any state reached without a further `Set`
on the location and with the clock still before the instant at which the timer
armed for `t1` is due, a call `Set(t2)` with `t2` in the future completes and
leaves a pending timer stored in the location, due `time.Until(t2)` after the
call, that is at `t2` when `t2` is at most the largest `time.Duration` ahead,
which is the only pending timer of the location; the timer armed for `t1` is
stopped, and in every later state it is still stopped and can neither fire nor
run its callback; the signal returned by `Wait()` is unfired and is fired by the
new timer at its due instant and not before. -/
theorem Set_rearm {w : World α} (hw : Reachable w) (d : α) (t1 t2 : Time)
    (hd : Ready w d) (hf1 : w.now < t1) :
    ∃ w1 i1, PipeDeadline.Set d t1 w = .ok w1 ∧ (w1.dl d).timer = some i1 ∧
      ∀ (h : List (Event α)) (w2 : World α), SetFree d h → replay w1 h = some w2 →
        w2.now < dueAt t1 w.now → w2.now < t2 →
        ∃ w3 c i2, PipeDeadline.Set d t2 w2 = .ok w3 ∧
          (PipeDeadline.Wait d w3).1 = some c ∧ w3.closed c = false ∧
          (w3.dl d).timer = some i2 ∧ i2 ≠ i1 ∧
          (∃ tm, w3.timers i2 = some tm ∧ tm.owner = d ∧ tm.status = .pending ∧
            tm.when = dueAt t2 w2.now ∧ (t2 - w2.now ≤ maxDuration → tm.when = t2)) ∧
          (∀ j tm, w3.timers j = some tm → tm.owner = d → tm.status = .pending → j = i2) ∧
          (∀ (h1 : List (Event α)) (w4 : World α), replay w3 h1 = some w4 →
            (∃ tm, w4.timers i1 = some tm ∧ tm.status = .stopped) ∧
            fire i1 w4 = none ∧ exec (.callback i1) w4 = none) ∧
          FiresAt d (dueAt t2 w2.now) c i2 w3 := by
  cases hc : (w.dl d).cancel with
  | none => exact absurd hc hd
  | some c0 =>
    obtain ⟨w1', w1, c1, -, -, h2, -, a1, a2, a3, a4, -, -⟩ :=
      Set_future_post hw.inv d t1 c0 hc hf1
    have hinv1 : Inv w1 := exec_inv hw.inv (.set d t1) (by simp [exec, hc, h2])
    refine ⟨w1, w.nextTimer, h2, a3, ?_⟩
    intro h w2 hfree hr hlt1 hlt2
    obtain ⟨q1, q2, q3, q4⟩ := pending_replay hinv1 d c1 w.nextTimer _ a1 a2 a3 a4 rfl h hfree
      w2 hr hlt1
    have hc2 : (w2.dl d).cancel = some c1 := by rw [q2]; exact a1
    have hi2 : (w2.dl d).timer = some w.nextTimer := by rw [q2]; exact a3
    obtain ⟨v1, w3, c, -, p1, g2, p2, b1, b2, b3, b4, b5, b6⟩ :=
      Set_future_post q1 d t2 c1 hc2 hlt2
    have hlt : w.nextTimer < w2.nextTimer := q1.timer_lt _ _ q4
    have hne : w2.nextTimer ≠ w.nextTimer := (Nat.ne_of_lt hlt).symm
    obtain ⟨s, -, hs2, hs3⟩ := p1.timers_old _ _ hi2 q4
    have hst : s = .stopped := hs2.mpr rfl
    subst hst
    have hold : w3.timers w.nextTimer = some
        { owner := d, armedAt := w.now, dur := Until t1 w.now, status := .stopped } := by
      rw [p2.timers_old _ (by rw [p1.nextTimer_eq]; exact hne.symm), hs3]
    refine ⟨w3, c, w2.nextTimer, g2, b1, b2, b3, hne, ⟨_, b4, rfl, rfl, rfl, ?_⟩, b5, ?_, b6⟩
    · intro hcap
      exact dueAt_eq t2 w2.now hlt2 hcap
    · intro h1 w4 hr4
      obtain ⟨s1, s2, s3⟩ := stopped_replay p2.inv w.nextTimer _ hold rfl h1 w4 hr4
      exact ⟨⟨_, s1, rfl⟩, s2, s3⟩

theorem Set_rearm_witness :
    Reachable demo ∧ Ready demo () ∧ demo.now < 105 ∧
      ∃ w1 i1 w3 c i2, PipeDeadline.Set () 105 demo = .ok w1 ∧ (w1.dl ()).timer = some i1 ∧
        w1.now < dueAt 105 demo.now ∧ w1.now < 200 ∧
        PipeDeadline.Set () 200 w1 = .ok w3 ∧
        (PipeDeadline.Wait () w3).1 = some c ∧ w3.closed c = false ∧
        (w3.dl ()).timer = some i2 ∧ i2 ≠ i1 ∧
        (∃ tm, w3.timers i2 = some tm ∧ tm.status = .pending ∧ tm.when = 200) ∧
        ∃ tm, w3.timers i1 = some tm ∧ tm.status = .stopped := by
  obtain ⟨w1, i1, h1, h2, h3⟩ := Set_rearm demo_reachable () 105 200 demo_ready (by decide)
  have hnow : w1.now = 100 := by
    obtain ⟨v1, v2, -, p1, g, p2⟩ := Set_post demo_reachable.inv () 105 0 rfl
    rw [h1] at g
    cases g
    rw [p2.now_eq, p1.now_eq]
    rfl
  have hd1 : w1.now < dueAt 105 demo.now := by rw [hnow]; decide
  have hd2 : w1.now < 200 := by rw [hnow]; decide
  obtain ⟨w3, c, i2, g1, g2, g3, g4, g5, ⟨tm, m1, -, m2, -, m3⟩, -, g6, -⟩ :=
    h3 [] w1 (fun t ht => by cases ht) rfl hd1 hd2
  exact ⟨demo_reachable, demo_ready, by decide, w1, i1, w3, c, i2, h1, h2, hd1, hd2, g1, g2,
    g3, g4, g5, ⟨tm, m1, m2, m3 (by rw [hnow]; decide)⟩, (g6 [] w3 rfl).1⟩

theorem racy_reachable : Reachable racy :=
  ⟨100, [.expire 0, .advance 10, .set () 105, .init ()], by decide, rfl⟩

/-- C5, as stated, fails: in the reachable world `racy` the current signal 0 is
unfired and timer 0 has expired with its callback in flight; `Set(200)` followed
at once by `Set(zero)` waits for that callback, which fires signal 0, and
substitutes signal 1, so `Wait()` no longer returns the signal observers
obtained before, and that signal is fired. -/
theorem Set_cancel_counterexample :
    Reachable racy ∧ (PipeDeadline.Wait () racy).1 = some 0 ∧ racy.closed 0 = false ∧
      racy.now < 200 ∧
      ∃ w1 w2, PipeDeadline.Set () 200 racy = .ok w1 ∧ PipeDeadline.Set () 0 w1 = .ok w2 ∧
        (w2.dl ()).timer = none ∧ (PipeDeadline.Wait () w2).1 = some 1 ∧
        w2.closed 0 = true :=
  ⟨racy_reachable, rfl, rfl, by decide, _, _, rfl, rfl, rfl, rfl, rfl⟩

/-- C5, amended: on an initialised location of a reachable world whose current
signal is unfired and whose stored timer, if any, has not expired, `Set(t)` with
`t` in the future completes; in any state reached afterwards without a further
`Set` on the location and with the clock still before the instant at which the
timer armed for `t` is due (`time.Until(t)` after the call: `t` itself, unless
`t` is more than the largest `time.Duration` ahead), `Set(zero)` completes
and leaves no timer stored or live for the location, and `Wait()` returns the
signal it returned at the start, unfired; in every state reached after that
without a further `Set` on the location, `Wait()` still returns that signal, it
is unfired and no timer of the location is live. -/
theorem Set_cancel_keeps_signal {w : World α} (hw : Reachable w) (d : α) (c0 : ChanId)
    (hc : (PipeDeadline.Wait d w).1 = some c0) (ho : w.closed c0 = false)
    (hp : ∀ i tm, (w.dl d).timer = some i → w.timers i = some tm → tm.status = .pending)
    (t z : Time) (hf : w.now < t) (hz : z.IsZero = true) :
    ∃ w1, PipeDeadline.Set d t w = .ok w1 ∧
      ∀ (h : List (Event α)) (w2 : World α), SetFree d h → replay w1 h = some w2 →
        w2.now < dueAt t w.now →
        ∃ w3, PipeDeadline.Set d z w2 = .ok w3 ∧ (w3.dl d).timer = none ∧ Idle w3 d ∧
          (PipeDeadline.Wait d w3).1 = some c0 ∧ w3.closed c0 = false ∧
          ∀ (h1 : List (Event α)) (w4 : World α), SetFree d h1 → replay w3 h1 = some w4 →
            (PipeDeadline.Wait d w4).1 = some c0 ∧ w4.closed c0 = false ∧ Idle w4 d := by
  have hz0 : z = 0 := by simpa [Time.IsZero] using hz
  simp only [PipeDeadline.Wait] at hc
  obtain ⟨w1', w1, c, -, p1, h2, p2, a1, a2, a3, a4, -, -⟩ :=
    Set_future_post hw.inv d t c0 hc hf
  have hsame : w1'.closed = w.closed := by
    cases hi : (w.dl d).timer with
    | none => exact p1.closed_of_none hi
    | some i =>
      obtain ⟨tm, g1, -, -, -⟩ := hw.inv.stored d i hi
      exact p1.closed_of_pending i tm hi g1 (hp i tm hi g1)
  have ho1 : w1'.closed c0 = false := by rw [hsame]; exact ho
  obtain ⟨k1, -, -⟩ := p2.keep (Or.inr (by rw [p1.now_eq]; exact hf)) ho1
  have hcc : c = c0 := by
    rw [k1] at a1
    exact (Option.some.inj a1).symm
  subst hcc
  refine ⟨w1, h2, ?_⟩
  intro h w2 hfree hr hlt
  obtain ⟨q1, q2, q3, q4⟩ := pending_replay p2.inv d c w.nextTimer _ a1 a2 a3 a4 rfl h hfree
    w2 hr hlt
  have hc2 : (w2.dl d).cancel = some c := by rw [q2]; exact a1
  have hi2 : (w2.dl d).timer = some w.nextTimer := by rw [q2]; exact a3
  obtain ⟨v1, w3, -, r1, g2, r2⟩ := Set_post q1 d z c hc2
  have hsame2 : v1.closed = w2.closed := r1.closed_of_pending _ _ hi2 q4 rfl
  have ho2 : v1.closed c = false := by rw [hsame2]; exact q3
  obtain ⟨m1, m2, -⟩ := r2.keep (Or.inl hz0) ho2
  obtain ⟨z1, -, -⟩ := r2.zero hz0
  have ho3 : w3.closed c = false := by rw [m2]; exact ho2
  refine ⟨w3, g2, z1, idle_of_timer_none r2.inv d z1, m1, ho3, ?_⟩
  intro h1 w4 hfree1 hr1
  obtain ⟨n1, n2, n3⟩ := quiet_replay r2.inv d c m1 ho3 z1 h1 hfree1 w4 hr1
  refine ⟨?_, n3, idle_of_timer_none n1 d (by rw [n2]; exact z1)⟩
  simp only [PipeDeadline.Wait]
  rw [n2]
  exact m1

theorem Set_cancel_keeps_signal_witness :
    Reachable demo ∧ (PipeDeadline.Wait () demo).1 = some 0 ∧ demo.closed 0 = false ∧
      demo.now < 105 ∧
      ∃ w1 w3, PipeDeadline.Set () 105 demo = .ok w1 ∧ w1.now < dueAt 105 demo.now ∧
        PipeDeadline.Set () 0 w1 = .ok w3 ∧
        (w3.dl ()).timer = none ∧ (PipeDeadline.Wait () w3).1 = some 0 ∧
        w3.closed 0 = false := by
  obtain ⟨w1, h1, h3⟩ := Set_cancel_keeps_signal demo_reachable () 0 rfl rfl
    (fun i tm h => by cases h) 105 0 (by decide) rfl
  have hnow : w1.now = 100 := by
    obtain ⟨v1, v2, -, p1, g, p2⟩ := Set_post demo_reachable.inv () 105 0 rfl
    rw [h1] at g
    cases g
    rw [p2.now_eq, p1.now_eq]
    rfl
  have hdue : w1.now < dueAt 105 demo.now := by rw [hnow]; decide
  obtain ⟨w3, g1, g2, -, g3, g4, -⟩ := h3 [] w1 (fun t ht => by cases ht) rfl hdue
  exact ⟨demo_reachable, rfl, rfl, by decide, w1, w3, h1, hdue, g1, g2, g3, g4⟩

/-! ## Signal identities -/

/-- C6: on an initialised location of a reachable world, `Set(t)` completes, and
`Wait()` returns a different signal after the call than before if and only if
the current signal is fired once the old timer is cancelled (the variable
`closed` of line 73) and `t` is zero or strictly after the current time. When
the signal is replaced, the new one was not allocated before and was held by no
location, it is unfired, and the old one is fired; otherwise `Wait()` returns
the same signal as before. -/
theorem Set_replaces_iff {w : World α} (hw : Reachable w) (d : α) (c0 : ChanId)
    (hc : (PipeDeadline.Wait d w).1 = some c0) (t : Time) :
    ∃ w1 w2, cancelTimer d w = .ok w1 ∧ PipeDeadline.Set d t w = .ok w2 ∧
      ((PipeDeadline.Wait d w2).1 ≠ (PipeDeadline.Wait d w).1 ↔
        (isClosedChan (w1.dl d).cancel w1 = true ∧ (t.IsZero = true ∨ w.now < t))) ∧
      ((PipeDeadline.Wait d w2).1 ≠ (PipeDeadline.Wait d w).1 →
        ∃ c1, (PipeDeadline.Wait d w2).1 = some c1 ∧ w.nextChan ≤ c1 ∧
          (∀ d1, (w.dl d1).cancel ≠ some c1) ∧ w2.closed c1 = false ∧
          w2.closed c0 = true) ∧
      (¬ (isClosedChan (w1.dl d).cancel w1 = true ∧ (t.IsZero = true ∨ w.now < t)) →
        (PipeDeadline.Wait d w2).1 = some c0) := by
  simp only [PipeDeadline.Wait] at hc
  obtain ⟨w1, w2, h1, p1, h2, p2⟩ := Set_post hw.inv d t c0 hc
  have hc1 : (w1.dl d).cancel = some c0 := by rw [p1.cancel_eq]; exact hc
  have hz : t.IsZero = true ↔ t = 0 := by simp [Time.IsZero]
  have hlt : c0 < w.nextChan := hw.inv.chan_lt d c0 hc
  -- the two outcomes
  have hcases : ((w2.dl d).cancel = some c0 ∧
        ¬ (w1.closed c0 = true ∧ (t = 0 ∨ w.now < t))) ∨
      ((w2.dl d).cancel = some w.nextChan ∧ w2.closed w.nextChan = false ∧
        w2.closed c0 = true ∧ w1.closed c0 = true ∧ (t = 0 ∨ w.now < t)) := by
    by_cases hb : t = 0 ∨ w.now < t
    · have hb1 : t = 0 ∨ w1.now < t := by rw [p1.now_eq]; exact hb
      cases hcl : w1.closed c0 with
      | true =>
        right
        obtain ⟨r1, r2, -⟩ := p2.renew hb1 hcl
        rw [p1.nextChan_eq] at r1 r2
        exact ⟨r1, r2, p2.closed_mono c0 hcl, rfl, hb⟩
      | false =>
        left
        obtain ⟨k1, -, -⟩ := p2.keep hb1 hcl
        exact ⟨k1, by simp⟩
    · left
      have ht0 : t ≠ 0 := fun he => hb (Or.inl he)
      have hle : t ≤ w1.now := by
        rw [p1.now_eq]
        exact not_lt.mp (fun he => hb (Or.inr he))
      obtain ⟨-, a2, -⟩ := p2.past ht0 hle
      exact ⟨a2, fun hh => hb hh.2⟩
  have hne : some w.nextChan ≠ some c0 := by
    intro he
    rw [Option.some.inj he] at hlt
    exact absurd hlt (Nat.lt_irrefl _)
  refine ⟨w1, w2, h1, h2, ?_, ?_, ?_⟩
  · simp only [PipeDeadline.Wait, hc, hc1, isClosedChan, hz]
    rcases hcases with ⟨e1, e2⟩ | ⟨e1, -, -, e4, e5⟩
    · rw [e1]
      simp only [ne_eq, not_true_eq_false, false_iff]
      exact e2
    · rw [e1]
      exact ⟨fun _ => ⟨e4, e5⟩, fun _ => hne⟩
  · simp only [PipeDeadline.Wait, hc]
    rcases hcases with ⟨e1, -⟩ | ⟨e1, e2, e3, -, -⟩
    · intro hh
      exact absurd e1 hh
    · intro _
      refine ⟨w.nextChan, e1, le_refl _, ?_, e2, e3⟩
      intro d1 hd1
      exact absurd (hw.inv.chan_lt d1 _ hd1) (Nat.lt_irrefl _)
  · simp only [PipeDeadline.Wait, hc1, isClosedChan, hz]
    rcases hcases with ⟨e1, -⟩ | ⟨-, -, -, e4, e5⟩
    · intro _
      exact e1
    · intro hh
      exact absurd ⟨e4, e5⟩ hh

theorem Set_replaces_iff_witness :
    Reachable racy ∧ (PipeDeadline.Wait () racy).1 = some 0 ∧
      ∃ w1 w2, cancelTimer () racy = .ok w1 ∧ PipeDeadline.Set () 0 racy = .ok w2 ∧
        ((PipeDeadline.Wait () w2).1 ≠ (PipeDeadline.Wait () racy).1 ↔
          (isClosedChan (w1.dl ()).cancel w1 = true ∧
            (Time.IsZero 0 = true ∨ racy.now < 0))) := by
  obtain ⟨w1, w2, h1, h2, h3, -⟩ := Set_replaces_iff racy_reachable () 0 rfl 0
  exact ⟨racy_reachable, rfl, w1, w2, h1, h2, h3⟩

/-- C7: in a reachable world a fired signal is fired in every later state,
whatever the transitions; and when a transition takes a location from a state
in which `Wait()` returns a fired signal to one in which it returns an unfired
signal, the transition is a call of `Set` on that location, the unfired signal is
another identity, not allocated before, and the old signal is still fired. -/
theorem fired_stays_fired {w : World α} (hw : Reachable w) :
    (∀ (c : ChanId) (h : List (Event α)) (w1 : World α), w.closed c = true →
      replay w h = some w1 → w1.closed c = true) ∧
    (∀ (d : α) (e : Event α) (w1 : World α) (c c1 : ChanId), exec e w = some w1 →
      (PipeDeadline.Wait d w).1 = some c → w.closed c = true →
      (PipeDeadline.Wait d w1).1 = some c1 → w1.closed c1 = false →
      (∃ t, e = .set d t) ∧ c1 ≠ c ∧ w.nextChan ≤ c1 ∧ w1.closed c = true) := by
  constructor
  · intro c h
    induction h with
    | nil =>
      intro w1 hc hr
      simp only [replay] at hr
      cases hr
      exact hc
    | cons e h ih =>
      intro w1 hc hr
      simp only [replay] at hr
      cases hm : replay w h with
      | none => simp [hm] at hr
      | some wm =>
        rw [hm] at hr
        simp only [Option.some_bind] at hr
        exact exec_closed_mono (replay_inv hw.inv h hm) e hr c (ih wm hc hm)
  · intro d e w1 c c1 he hc hcl hc1 ho1
    simp only [PipeDeadline.Wait] at hc hc1
    have hmono := exec_closed_mono hw.inv e he c hcl
    have hne : c1 ≠ c := by
      intro hh
      rw [hh, hmono] at ho1
      cases ho1
    by_cases hset : ∃ t, e = .set d t
    · obtain ⟨t, rfl⟩ := hset
      refine ⟨⟨t, rfl⟩, hne, ?_, hmono⟩
      simp only [exec, hc] at he
      obtain ⟨v1, w2, -, p1, h2, p2⟩ := Set_post hw.inv d t c hc
      simp only [h2] at he
      cases he
      have hcl1 : v1.closed c = true := p1.closed_mono c hcl
      by_cases hb : t = 0 ∨ v1.now < t
      · obtain ⟨r1, -, -⟩ := p2.renew hb hcl1
        rw [hc1, p1.nextChan_eq] at r1
        rw [Option.some.inj r1]
      · have ht0 : t ≠ 0 := fun h0 => hb (Or.inl h0)
        have hle : t ≤ v1.now := not_lt.mp (fun h0 => hb (Or.inr h0))
        obtain ⟨-, a2, -⟩ := p2.past ht0 hle
        rw [hc1] at a2
        exact absurd (Option.some.inj a2) hne
    · exfalso
      obtain ⟨f1, -, -⟩ := exec_frame hw.inv e he d c hc (fun t h0 => hset ⟨t, h0⟩)
      rw [f1, hc] at hc1
      exact hne (Option.some.inj hc1).symm

theorem spent_reachable : Reachable spent :=
  ⟨100, [.set () 100, .init ()], by decide, rfl⟩

theorem fired_stays_fired_witness :
    Reachable spent ∧ spent.closed 0 = true ∧
      replay spent [.advance 5, .set () 0] = some { spentNext with now := 105 } ∧
      (({ spentNext with now := 105 } : World Unit).closed 0 = true) ∧
      exec (.set () 0) spent = some spentNext ∧
      (PipeDeadline.Wait () spent).1 = some 0 ∧ (PipeDeadline.Wait () spentNext).1 = some 1 ∧
      spentNext.closed 1 = false ∧
      ((∃ t, Event.set () (0 : Time) = .set () t) ∧ 1 ≠ 0 ∧ spent.nextChan ≤ 1 ∧
        spentNext.closed 0 = true) := by
  obtain ⟨h1, h2⟩ := fired_stays_fired spent_reachable
  exact ⟨spent_reachable, rfl, rfl,
    h1 0 [.advance 5, .set () 0] { spentNext with now := 105 } rfl rfl, rfl, rfl, rfl, rfl,
    h2 () (.set () 0) spentNext 0 1 rfl rfl rfl rfl rfl⟩

/-! ## The signal and the most recently set expiry -/

/-- A transition other than `Set` on `d` and the initialisation of `d` leaves the
fields of `d` alone. -/
theorem exec_dl {w w1 : World α} (hw : Inv w) (e : Event α) (h : exec e w = some w1) (d : α)
    (hset : ∀ t, e ≠ .set d t) (hinit : e ≠ .init d) : w1.dl d = w.dl d := by
  cases e with
  | init d1 =>
    simp only [exec] at h
    split_ifs at h with hz
    cases h
    have hne : d ≠ d1 := fun he => hinit (by rw [he])
    simp only [PipeDeadline.init]
    rw [setCancel_dl_other _ _ _ _ hne]
    rfl
  | set d1 t =>
    simp only [exec] at h
    split_ifs at h with hz
    have hne : d ≠ d1 := fun he => hset t (by rw [he])
    cases hc1 : (w.dl d1).cancel with
    | none => exact absurd hc1 hz
    | some c1 =>
      obtain ⟨v1, w2, -, p1, h2, p2⟩ := Set_post hw d1 t c1 hc1
      rw [h2] at h
      cases h
      rw [p2.dl_other d hne]
      exact PipeDeadline.eq_of_fields (p1.timer_other d hne) (p1.cancel_eq d)
  | wait d1 =>
    simp only [exec, PipeDeadline.Wait] at h
    cases h
    rfl
  | advance dt =>
    simp only [exec] at h
    cases h
    rfl
  | expire i1 =>
    simp only [exec, expire] at h
    cases htm : w.timers i1 with
    | none => simp [htm] at h
    | some tm =>
      simp only [htm] at h
      split_ifs at h with hp
      cases h
      rfl
  | callback i1 =>
    simp only [exec] at h
    cases htm : w.timers i1 with
    | none => simp [htm] at h
    | some tm =>
      simp only [htm] at h
      split_ifs at h with hr
      obtain ⟨c1, g1, g2, g3⟩ := runCallback_running hw i1 tm htm hr
      rw [g3] at h
      cases h
      rfl

/-- A transition never changes the instant of an existing timer. -/
theorem exec_timer_when {w w1 : World α} (hw : Inv w) (e : Event α) (h : exec e w = some w1)
    (i : TimerId) (tm : Timer α) (htm : w.timers i = some tm) :
    ∃ tm1, w1.timers i = some tm1 ∧ tm1.when = tm.when := by
  cases e with
  | init d1 =>
    simp only [exec] at h
    split_ifs at h with hz
    cases h
    exact ⟨tm, htm, rfl⟩
  | set d1 t =>
    simp only [exec] at h
    split_ifs at h with hz
    cases hc1 : (w.dl d1).cancel with
    | none => exact absurd hc1 hz
    | some c1 =>
      obtain ⟨v1, w2, -, p1, h2, p2⟩ := Set_post hw d1 t c1 hc1
      rw [h2] at h
      cases h
      have hlt := hw.timer_lt i tm htm
      rw [p2.timers_old i (by rw [p1.nextTimer_eq]; exact Nat.ne_of_lt hlt)]
      by_cases hi : (w.dl d1).timer = some i
      · obtain ⟨s, -, -, hs⟩ := p1.timers_old i tm hi htm
        exact ⟨_, hs, rfl⟩
      · rw [p1.timers_other i hi]
        exact ⟨tm, htm, rfl⟩
  | wait d1 =>
    simp only [exec, PipeDeadline.Wait] at h
    cases h
    exact ⟨tm, htm, rfl⟩
  | advance dt =>
    simp only [exec] at h
    cases h
    exact ⟨tm, htm, rfl⟩
  | expire i1 =>
    simp only [exec, expire] at h
    cases htm1 : w.timers i1 with
    | none => simp [htm1] at h
    | some tm1 =>
      simp only [htm1] at h
      split_ifs at h with hp
      cases h
      by_cases hi : i = i1
      · subst hi
        rw [htm] at htm1
        cases htm1
        exact ⟨{ tm with status := .running }, by simp, rfl⟩
      · exact ⟨tm, by simp [Function.update_noteq hi, htm], rfl⟩
  | callback i1 =>
    simp only [exec] at h
    cases htm1 : w.timers i1 with
    | none => simp [htm1] at h
    | some tm1 =>
      simp only [htm1] at h
      split_ifs at h with hr
      obtain ⟨c1, g1, g2, g3⟩ := runCallback_running hw i1 tm1 htm1 hr
      rw [g3] at h
      cases h
      by_cases hi : i = i1
      · subst hi
        rw [htm] at htm1
        cases htm1
        exact ⟨{ tm with status := .done }, by simp, rfl⟩
      · exact ⟨tm, by simp [Function.update_noteq hi, htm], rfl⟩

theorem lastSetAt_cons_of_ne (d : α) (t0 : Time) (e : Event α) (h : List (Event α))
    (hset : ∀ t, e ≠ .set d t) : lastSetAt d t0 (e :: h) = lastSetAt d t0 h := by
  cases e with
  | set d1 t =>
    have hne : d1 ≠ d := fun he => hset t (by rw [he])
    simp [lastSetAt, hne]
  | init d1 => rfl
  | wait d1 => rfl
  | advance dt => rfl
  | expire i1 => rfl
  | callback i1 => rfl

/-- The expiry recorded with its clock reading is the most recently set one. -/
theorem lastSetAt_fst (d : α) (t0 : Time) (h : List (Event α)) (t n : Time)
    (hl : lastSetAt d t0 h = some (t, n)) : lastSet d h = some t := by
  induction h with
  | nil => simp [lastSetAt] at hl
  | cons e h ih =>
    cases e with
    | set d1 t1 =>
      by_cases hd : d1 = d
      · simp only [lastSetAt, hd, if_true] at hl
        cases hl
        simp [lastSet, hd]
      · simp only [lastSetAt, hd, if_false] at hl
        simp only [lastSet, hd, if_false]
        exact ih hl
    | init d1 => exact ih hl
    | wait d1 => exact ih hl
    | advance dt => exact ih hl
    | expire i1 => exact ih hl
    | callback i1 => exact ih hl

/-- The clock of the world reached by a history is the clock reading of the
history. -/
theorem replay_now (t0 : Time) (h0 : 0 ≤ t0) (h : List (Event α)) (w : World α)
    (hr : replay (World.boot t0) h = some w) : w.now = clockOf t0 h := by
  induction h generalizing w with
  | nil =>
    simp only [replay] at hr
    cases hr
    rfl
  | cons e h ih =>
    simp only [replay] at hr
    cases hm : replay (World.boot t0 : World α) h with
    | none => simp [hm] at hr
    | some wm =>
      rw [hm] at hr
      simp only [Option.some_bind] at hr
      have hinv := replay_inv (inv_boot t0 h0) h hm
      have hwm := ih wm hm
      cases e with
      | init d1 =>
        simp only [exec] at hr
        split_ifs at hr with hz
        cases hr
        exact hwm
      | set d1 t =>
        simp only [exec] at hr
        split_ifs at hr with hz
        cases hc1 : (wm.dl d1).cancel with
        | none => exact absurd hc1 hz
        | some c1 =>
          obtain ⟨v1, w2, -, p1, h2, p2⟩ := Set_post hinv d1 t c1 hc1
          rw [h2] at hr
          cases hr
          rw [p2.now_eq, p1.now_eq]
          exact hwm
      | wait d1 =>
        simp only [exec, PipeDeadline.Wait] at hr
        cases hr
        exact hwm
      | advance dt =>
        simp only [exec] at hr
        cases hr
        simp only [clockOf]
        rw [← hwm]
      | expire i1 =>
        simp only [exec, expire] at hr
        cases htm : wm.timers i1 with
        | none => simp [htm] at hr
        | some tm =>
          simp only [htm] at hr
          split_ifs at hr with hp
          cases hr
          exact hwm
      | callback i1 =>
        simp only [exec] at hr
        cases htm : wm.timers i1 with
        | none => simp [htm] at hr
        | some tm =>
          simp only [htm] at hr
          split_ifs at hr with hrun
          obtain ⟨c1, -, -, g3⟩ := runCallback_running hinv i1 tm htm hrun
          rw [g3] at hr
          cases hr
          exact hwm

/-- A timer armed for a future `t` at clock value `n` is due at `t` or the
largest duration after `n`, whichever comes first. -/
theorem dueAt_eq_min (t n : Time) (h : n < t) : dueAt t n = min t (n + maxDuration) := by
  unfold dueAt Until
  have hmin : (minDuration : Int) < 0 := by unfold minDuration; norm_num
  split_ifs with h1 h2
  · rw [min_eq_right (by linarith)]
  · linarith
  · rw [min_eq_left (by linarith)]
    ring

theorem tracks_set {wm w : World α} (hw : Inv wm) (d : α) (t : Time) (t0 : Time)
    (h : List (Event α)) (hn : wm.now = clockOf t0 h)
    (he : exec (.set d t) wm = some w) : Tracks d t0 (.set d t :: h) w := by
  simp only [exec] at he
  split_ifs at he with hz
  cases hc : (wm.dl d).cancel with
  | none => exact absurd hc hz
  | some c0 =>
    obtain ⟨w1, w2, -, p1, h2, p2⟩ := Set_post hw d t c0 hc
    rw [h2] at he
    cases he
    have hls : lastSetAt d t0 (Event.set d t :: h) = some (t, wm.now) := by
      simp [lastSetAt, hn]
    refine ⟨fun hnone => (by rw [hls] at hnone; cases hnone), ?_⟩
    intro t1 n ht1
    rw [hls] at ht1
    cases ht1
    have hnow : w.now = wm.now := by rw [p2.now_eq, p1.now_eq]
    have hkeep : (t = 0 ∨ w1.now < t) →
        ∃ c, (w.dl d).cancel = some c ∧ w.closed c = false := by
      intro hb
      cases hcl : w1.closed c0 with
      | true =>
        obtain ⟨r1, r2, -⟩ := p2.renew hb hcl
        exact ⟨_, r1, r2⟩
      | false =>
        obtain ⟨k1, k2, -⟩ := p2.keep hb hcl
        exact ⟨c0, k1, by rw [k2]; exact hcl⟩
    refine ⟨?_, le_of_eq hnow.symm, ?_, ?_⟩
    · by_cases hb : t = 0 ∨ w1.now < t
      · obtain ⟨c, g1, -⟩ := hkeep hb
        rw [g1]
        simp
      · have ht0 : t ≠ 0 := fun h0 => hb (Or.inl h0)
        have hle : t ≤ w1.now := not_lt.mp (fun h0 => hb (Or.inr h0))
        obtain ⟨-, a2, -⟩ := p2.past ht0 hle
        rw [a2]
        simp
    · intro ht0
      obtain ⟨c, g1, g2⟩ := hkeep (Or.inl ht0)
      exact ⟨(p2.zero ht0).1, by simp [isClosedChan, g1, g2]⟩
    · intro ht0
      by_cases hf : w1.now < t
      · obtain ⟨a1, a2, -⟩ := p2.future hf ht0
        constructor
        · intro i tm hi htm
          rw [a1] at hi
          cases hi
          rw [a2] at htm
          cases htm
          rw [p1.now_eq] at hf
          rw [← dueAt_eq_min t wm.now hf]
          simp only [Timer.when, dueAt, p1.now_eq]
        · intro hnone
          rw [a1] at hnone
          cases hnone
      · have hle : t ≤ w1.now := not_lt.mp hf
        obtain ⟨a1, a2, a3, -⟩ := p2.past ht0 hle
        constructor
        · intro i tm hi
          rw [a1] at hi
          cases hi
        · intro _
          exact ⟨by simp [isClosedChan, a2, a3], by rw [← p1.now_eq]; exact hle⟩

theorem tracks_other {wm w : World α} (hw : Inv wm) (d : α) (t0 : Time) (e : Event α)
    (h : List (Event α)) (ht : Tracks d t0 h wm) (he : exec e wm = some w)
    (hset : ∀ t, e ≠ .set d t) : Tracks d t0 (e :: h) w := by
  rw [Tracks, lastSetAt_cons_of_ne d t0 e h hset]
  obtain ⟨t1, t2⟩ := ht
  have hinv := exec_inv hw e he
  have hmono := exec_now_mono hw e he
  cases hc : (wm.dl d).cancel with
  | none =>
    have hnone : lastSetAt d t0 h = none := by
      cases hl : lastSetAt d t0 h with
      | none => rfl
      | some x => exact absurd hc (t2 x.1 x.2 hl).1
    refine ⟨fun _ => ?_, fun t n hl => by rw [hnone] at hl; cases hl⟩
    obtain ⟨n1, -⟩ := t1 hnone
    by_cases hinit : e = .init d
    · subst hinit
      simp only [exec] at he
      split_ifs at he with hz
      cases he
      simp [PipeDeadline.init, makeChan, isClosedChan, n1]
    · have hdl := exec_dl hw e he d hset hinit
      rw [hdl]
      exact ⟨n1, by simp [hc, isClosedChan]⟩
  | some c =>
    obtain ⟨f1, f2, f3⟩ := exec_frame hw e he d c hc hset
    have hclosed_none : (wm.dl d).timer = none → w.closed c = wm.closed c :=
      fun hn => f2 (fun i hi => by rw [hn] at hi; cases hi)
    rw [f1]
    constructor
    · intro hl
      obtain ⟨n1, n2⟩ := t1 hl
      refine ⟨n1, ?_⟩
      simp only [hc, isClosedChan] at n2 ⊢
      rw [hclosed_none n1]
      exact n2
    · intro t n hl
      obtain ⟨m1, m0, m2, m3⟩ := t2 t n hl
      refine ⟨m1, le_trans m0 hmono, ?_, ?_⟩
      · intro ht0
        obtain ⟨n1, n2⟩ := m2 ht0
        refine ⟨n1, ?_⟩
        simp only [hc, isClosedChan] at n2 ⊢
        rw [hclosed_none n1]
        exact n2
      · intro ht0
        obtain ⟨n1, n2⟩ := m3 ht0
        constructor
        · intro i tm hi htm
          obtain ⟨tm0, g1, -, -, -⟩ := hw.stored d i hi
          obtain ⟨tm1, g2, g3⟩ := exec_timer_when hw e he i tm0 g1
          rw [htm] at g2
          cases g2
          rw [g3]
          exact n1 i tm0 hi g1
        · intro hn
          obtain ⟨k1, k2⟩ := n2 hn
          simp only [hc, isClosedChan] at k1 ⊢
          exact ⟨exec_closed_mono hw e he c k1, k2⟩

/-- Along every history from the empty world, each location tracks the expiry
most recently set on it. -/
theorem tracks_replay (t0 : Time) (h0 : 0 ≤ t0) (d : α) (h : List (Event α)) (w : World α)
    (hr : replay (World.boot t0) h = some w) : Tracks d t0 h w := by
  induction h generalizing w with
  | nil =>
    simp only [replay] at hr
    cases hr
    refine ⟨fun _ => ⟨rfl, rfl⟩, fun t n hl => ?_⟩
    simp [lastSetAt] at hl
  | cons e h ih =>
    simp only [replay] at hr
    cases hm : replay (World.boot t0 : World α) h with
    | none => simp [hm] at hr
    | some wm =>
      rw [hm] at hr
      simp only [Option.some_bind] at hr
      have hinv := replay_inv (inv_boot t0 h0) h hm
      by_cases hset : ∃ t, e = .set d t
      · obtain ⟨t, rfl⟩ := hset
        exact tracks_set hinv d t t0 h (replay_now t0 h0 h wm hm) hr
      · exact tracks_other hinv d t0 e h (ih wm hm) hr (fun t he => hset ⟨t, he⟩)

/-- C8, as stated, fails: after a deadline is set for clock value 105 and the
clock advances to 110 with the timer not yet fired, the most recently set expiry
is non-zero and has passed, and the signal returned by `Wait()` is unfired. -/
theorem fired_iff_passed_counterexample :
    replay (World.boot 100) overdue = some demoOverdue ∧
      ¬ (isClosedChan (PipeDeadline.Wait () demoOverdue).1 demoOverdue = true ↔
          ∃ t, lastSet () overdue = some t ∧ t ≠ 0 ∧ t ≤ demoOverdue.now) := by
  refine ⟨rfl, ?_⟩
  intro h
  have hf := h.mpr ⟨105, rfl, by decide, by decide⟩
  exact absurd hf (by decide)

/-- C8, amended: in every state reached from the empty world by a history of
initialisations, `Set`, `Wait`, clock advances, timer expiries and timer
callbacks, the signal returned by `Wait()` on a location is fired if and only if
the expiry `t` most recently set on the location is non-zero, the clock has
reached `t` or the instant the largest `time.Duration` after the reading `n` at
which `t` was set, whichever comes first, and no timer of the location is
pending or has its callback in flight. -/
theorem fired_iff_passed_and_idle (t0 : Time) (h0 : 0 ≤ t0) (d : α) (h : List (Event α))
    (w : World α) (hr : replay (World.boot t0) h = some w) :
    isClosedChan (PipeDeadline.Wait d w).1 w = true ↔
      ∃ t n, lastSet d h = some t ∧ lastSetAt d t0 h = some (t, n) ∧ t ≠ 0 ∧
        min t (n + maxDuration) ≤ w.now ∧ Idle w d := by
  have hinv : Inv w := replay_inv (inv_boot t0 h0) h hr
  obtain ⟨t1, t2⟩ := tracks_replay t0 h0 d h w hr
  simp only [PipeDeadline.Wait]
  constructor
  · intro hcl
    cases hl : lastSetAt d t0 h with
    | none =>
      rw [(t1 hl).2] at hcl
      cases hcl
    | some x =>
      obtain ⟨t, n⟩ := x
      obtain ⟨-, m0, m2, m3⟩ := t2 t n hl
      have ht0 : t ≠ 0 := by
        intro he
        rw [(m2 he).2] at hcl
        cases hcl
      have hidle : Idle w d := by
        intro i tm htm ho
        have hopen : ∀ hs : tm.status = .pending ∨ tm.status = .running, False := by
          intro hs
          obtain ⟨-, c, g1, g2⟩ := hinv.live i tm htm hs
          rw [ho] at g1
          simp [isClosedChan, g1, g2] at hcl
        exact ⟨fun hs => hopen (Or.inl hs), fun hs => hopen (Or.inr hs)⟩
      refine ⟨t, n, lastSetAt_fst d t0 h t n hl, rfl, ht0, ?_, hidle⟩
      obtain ⟨n1, n2⟩ := m3 ht0
      cases hi : (w.dl d).timer with
      | none =>
        exact le_trans (min_le_left _ _) (le_trans (n2 hi).2 m0)
      | some i =>
        obtain ⟨tm, g1, g2, g3, -⟩ := hinv.stored d i hi
        have hdone : tm.status = .done := by
          obtain ⟨k1, k2⟩ := hidle i tm g1 g2
          cases hs : tm.status with
          | pending => exact absurd hs k1
          | stopped => exact absurd hs g3
          | running => exact absurd hs k2
          | done => rfl
        rw [← n1 i tm hi g1]
        exact hinv.expired_le i tm g1 (Or.inr hdone)
  · rintro ⟨t, n, -, hl, ht0, -, hidle⟩
    obtain ⟨-, -, -, m3⟩ := t2 t n hl
    obtain ⟨-, n2⟩ := m3 ht0
    cases hi : (w.dl d).timer with
    | none => exact (n2 hi).1
    | some i =>
      obtain ⟨tm, g1, g2, g3, g4⟩ := hinv.stored d i hi
      obtain ⟨k1, k2⟩ := hidle i tm g1 g2
      apply g4
      cases hs : tm.status with
      | pending => exact absurd hs k1
      | stopped => exact absurd hs g3
      | running => exact absurd hs k2
      | done => rfl

theorem fired_iff_passed_and_idle_witness :
    (0 : Time) ≤ 100 ∧
      replay (World.boot 100) (.callback 0 :: .expire 0 :: overdue) = some demoFired ∧
      isClosedChan (PipeDeadline.Wait () demoFired).1 demoFired = true ∧
      (∃ t n, lastSet () (.callback 0 :: .expire 0 :: overdue) = some t ∧
        lastSetAt () 100 (.callback 0 :: .expire 0 :: overdue) = some (t, n) ∧
        t ≠ 0 ∧ min t (n + maxDuration) ≤ demoFired.now ∧ Idle demoFired ()) ∧
      replay (World.boot 100) overdue = some demoOverdue ∧
      isClosedChan (PipeDeadline.Wait () demoOverdue).1 demoOverdue = false ∧
      ¬ (∃ t n, lastSet () overdue = some t ∧ lastSetAt () 100 overdue = some (t, n) ∧
        t ≠ 0 ∧ min t (n + maxDuration) ≤ demoOverdue.now ∧ Idle demoOverdue ()) := by
  have h1 := fired_iff_passed_and_idle 100 (by decide) ()
    (.callback 0 :: .expire 0 :: overdue) demoFired rfl
  have h2 := fired_iff_passed_and_idle 100 (by decide) () overdue demoOverdue rfl
  refine ⟨by decide, rfl, rfl, h1.mp rfl, rfl, rfl, ?_⟩
  intro hx
  exact absurd (h2.mpr hx) (by decide)

/-! ## Timers of a location, and `Wait` -/

/-- C9: in every reachable world at most one timer owned by a location is
pending, and a pending timer owned by the location is the one stored in its
`timer` field; and every `Set` on an initialised location first runs the
cancellation step, after which no timer of the location is pending, before the
installation step arms a new one, so that a timer of the location that was
pending before the call is stopped after it. -/
theorem one_timer_armed {w : World α} (hw : Reachable w) (d : α) :
    (∀ i j ti tj, w.timers i = some ti → w.timers j = some tj → ti.owner = d →
      tj.owner = d → ti.status = .pending → tj.status = .pending → i = j) ∧
    (∀ i tm, w.timers i = some tm → tm.owner = d → tm.status = .pending →
      (w.dl d).timer = some i) ∧
    (∀ t, Ready w d → ∃ w1 w2, cancelTimer d w = .ok w1 ∧ install d t w1 = .ok w2 ∧
      PipeDeadline.Set d t w = .ok w2 ∧
      (∀ j tm, w1.timers j = some tm → tm.owner = d → tm.status ≠ .pending) ∧
      (∀ j tm, w.timers j = some tm → tm.owner = d → tm.status = .pending →
        ∃ tm1, w2.timers j = some tm1 ∧ tm1.status = .stopped)) := by
  have hstored : ∀ i tm, w.timers i = some tm → tm.owner = d → tm.status = .pending →
      (w.dl d).timer = some i := by
    intro i tm htm ho hp
    have := (hw.inv.live i tm htm (Or.inl hp)).1
    rw [ho] at this
    exact this
  refine ⟨?_, hstored, ?_⟩
  · intro i j ti tj hi hj hoi hoj hpi hpj
    have e1 := hstored i ti hi hoi hpi
    have e2 := hstored j tj hj hoj hpj
    rw [e1] at e2
    exact Option.some.inj e2
  · intro t hd
    cases hc : (w.dl d).cancel with
    | none => exact absurd hc hd
    | some c0 =>
      obtain ⟨w1, w2, h1, p1, h2, p2⟩ := Set_post hw.inv d t c0 hc
      have hinst : install d t w1 = .ok w2 := by
        simpa [PipeDeadline.Set, h1] using h2
      refine ⟨w1, w2, h1, hinst, h2, ?_, ?_⟩
      · intro j tm hj ho
        exact (idle_of_timer_none p1.inv d p1.timer_none j tm hj ho).1
      · intro j tm hj ho hp
        have hi := hstored j tm hj ho hp
        obtain ⟨s, -, hs2, hs3⟩ := p1.timers_old j tm hi hj
        have hlt := hw.inv.timer_lt j tm hj
        refine ⟨{ tm with status := s }, ?_, hs2.mpr hp⟩
        rw [p2.timers_old j (by rw [p1.nextTimer_eq]; exact Nat.ne_of_lt hlt)]
        exact hs3

theorem armedDemo_reachable : Reachable armedDemo :=
  ⟨100, [.set () 105, .init ()], by decide, rfl⟩

theorem one_timer_armed_witness :
    Reachable armedDemo ∧
      armedDemo.timers 0 =
        some { owner := (), armedAt := 100, dur := 5, status := .pending } ∧
      (armedDemo.dl ()).timer = some 0 ∧ Ready armedDemo () ∧
      ∃ w1 w2, cancelTimer () armedDemo = .ok w1 ∧ install () 200 w1 = .ok w2 ∧
        PipeDeadline.Set () 200 armedDemo = .ok w2 ∧
        (∀ j tm, w1.timers j = some tm → tm.owner = () → tm.status ≠ .pending) ∧
        ∃ tm1, w2.timers 0 = some tm1 ∧ tm1.status = .stopped := by
  obtain ⟨-, h2, h3⟩ := one_timer_armed armedDemo_reachable ()
  have hready : Ready armedDemo () := by
    unfold Ready
    decide
  obtain ⟨w1, w2, g1, g2, g3, g4, g5⟩ := h3 200 hready
  exact ⟨armedDemo_reachable, rfl, h2 0 _ rfl rfl rfl, hready, w1, w2, g1, g2, g3, g4,
    g5 0 _ rfl rfl rfl⟩

/-- An initialised location stays initialised, and `Wait()` keeps returning the
same signal as long as `Set` is not called on the location. -/
theorem ready_replay {w : World α} (hw : Inv w) (d : α) (hd : Ready w d)
    (h : List (Event α)) (w1 : World α) (hr : replay w h = some w1) :
    Inv w1 ∧ Ready w1 d ∧ (SetFree d h → (w1.dl d).cancel = (w.dl d).cancel) := by
  induction h generalizing w1 with
  | nil =>
    simp only [replay] at hr
    cases hr
    exact ⟨hw, hd, fun _ => rfl⟩
  | cons e h ih =>
    simp only [replay] at hr
    cases hm : replay w h with
    | none => simp [hm] at hr
    | some wm =>
      rw [hm] at hr
      simp only [Option.some_bind] at hr
      obtain ⟨i1, i2, i3⟩ := ih wm hm
      have hinv := exec_inv i1 e hr
      by_cases hset : ∃ t, e = .set d t
      · obtain ⟨t, rfl⟩ := hset
        refine ⟨hinv, ?_, ?_⟩
        · exact ((tracks_set i1 d t wm.now [] rfl hr).2 t wm.now
            (by simp [lastSetAt, clockOf])).1
        · intro hfree
          exact absurd (List.mem_cons_self _ _) (hfree t)
      · cases hc : (wm.dl d).cancel with
        | none => exact absurd hc i2
        | some c =>
          obtain ⟨f1, -, -⟩ := exec_frame i1 e hr d c hc (fun t he => hset ⟨t, he⟩)
          refine ⟨hinv, ?_, ?_⟩
          · unfold Ready
            rw [f1]
            exact i2
          · intro hfree
            rw [f1]
            exact i3 (fun t ht => hfree t (List.mem_cons_of_mem _ ht))

/-- C10: `Wait()` returns the world it was called in, unchanged (timers, signal
identities and fired flags included), so that any number of consecutive calls
return the same signal; on an initialised location of a reachable world it does
not return nil, now or in any later state; and in every later state reached
without a call of `Set` on the location it returns the same signal identity. -/
theorem Wait_pure :
    (∀ (w : World α) (d : α), (PipeDeadline.Wait d w).2 = w) ∧
    (∀ (w : World α) (d : α) (n : Nat),
      (PipeDeadline.Wait d (Nat.iterate (fun v => (PipeDeadline.Wait d v).2) n w)).1 =
        (PipeDeadline.Wait d w).1) ∧
    (∀ (w : World α) (d : α), Reachable w → Ready w d →
      (PipeDeadline.Wait d w).1 ≠ none ∧
      ∀ (h : List (Event α)) (w1 : World α), replay w h = some w1 →
        (PipeDeadline.Wait d w1).1 ≠ none ∧
        (SetFree d h → (PipeDeadline.Wait d w1).1 = (PipeDeadline.Wait d w).1)) := by
  refine ⟨fun _ _ => rfl, ?_, ?_⟩
  · intro w d n
    have hid : (fun v : World α => (PipeDeadline.Wait d v).2) = id := rfl
    rw [hid, Function.iterate_id]
    rfl
  · intro w d hw hd
    refine ⟨hd, ?_⟩
    intro h w1 hr
    obtain ⟨-, r1, r2⟩ := ready_replay hw.inv d hd h w1 hr
    exact ⟨r1, r2⟩

theorem Wait_pure_witness :
    (PipeDeadline.Wait () racy).2 = racy ∧ Reachable racy ∧ Ready racy () ∧
      (PipeDeadline.Wait () racy).1 ≠ none :=
  ⟨(@Wait_pure Unit _).1 racy (), racy_reachable, by unfold Ready; decide,
    ((@Wait_pure Unit _).2.2 racy () racy_reachable (by unfold Ready; decide)).1⟩

/-! ## Claims about `EasyDeadline` -/

theorem init_ready (d : α) (w : World α) : Ready (PipeDeadline.init d w) d := by
  simp [Ready, PipeDeadline.init]

/-- Initialising both fields of a zero-valued `EasyDeadline` in a reachable
world gives a reachable world. -/
theorem InitEasyDeadline_reachable {w : World Field} (hw : Reachable w)
    (hz : w.ed = { readDeadline := { timer := none, cancel := none },
                   writeDeadline := { timer := none, cancel := none } }) :
    Reachable (EasyDeadline.InitEasyDeadline w) := by
  have hr : w.dl .readDeadline = { timer := none, cancel := none } :=
    congrArg EasyDeadline.readDeadline hz
  have hwz : w.dl .writeDeadline = { timer := none, cancel := none } :=
    congrArg EasyDeadline.writeDeadline hz
  have h1 : Reachable (PipeDeadline.init .readDeadline w) :=
    hw.step (.init .readDeadline) (by simp [exec, hr])
  refine h1.step (.init .writeDeadline) ?_
  have : (PipeDeadline.init Field.readDeadline w).dl .writeDeadline =
      { timer := none, cancel := none } := by
    simp only [PipeDeadline.init]
    rw [setCancel_dl_other _ _ _ _ (by decide)]
    exact hwz
  simp [exec, this, EasyDeadline.InitEasyDeadline]

theorem demoEd_reachable : Reachable demoEd :=
  InitEasyDeadline_reachable ⟨100, [], by decide, rfl⟩ rfl

theorem demoEd_ready_read : Ready demoEd .readDeadline := by
  unfold Ready
  decide

theorem demoEd_ready_write : Ready demoEd .writeDeadline := by
  unfold Ready
  decide

/-- C11: in every reachable world of an initialised `EasyDeadline` and for every
`t`, `SetReadDeadline(t)` completes and leaves the write deadline alone: its
fields (timer and signal identity) are the same, `WriteTimeoutChan()` returns the
same signal in the same fired state, and its stored timer is untouched; and
symmetrically `SetWriteDeadline(t)` leaves the read deadline alone. -/
theorem SetDeadline_sides_independent {w : World Field} (hw : Reachable w)
    (hr : Ready w .readDeadline) (hwr : Ready w .writeDeadline) (t : Time) :
    (∃ w1, EasyDeadline.SetReadDeadline t w = .ok (none, w1) ∧
      w1.dl .writeDeadline = w.dl .writeDeadline ∧
      (EasyDeadline.WriteTimeoutChan w1).1 = (EasyDeadline.WriteTimeoutChan w).1 ∧
      isClosedChan (EasyDeadline.WriteTimeoutChan w1).1 w1 =
        isClosedChan (EasyDeadline.WriteTimeoutChan w).1 w ∧
      ∀ i, (w.dl .writeDeadline).timer = some i → w1.timers i = w.timers i) ∧
    (∃ w1, EasyDeadline.SetWriteDeadline t w = .ok (none, w1) ∧
      w1.dl .readDeadline = w.dl .readDeadline ∧
      (EasyDeadline.ReadTimeoutChan w1).1 = (EasyDeadline.ReadTimeoutChan w).1 ∧
      isClosedChan (EasyDeadline.ReadTimeoutChan w1).1 w1 =
        isClosedChan (EasyDeadline.ReadTimeoutChan w).1 w ∧
      ∀ i, (w.dl .readDeadline).timer = some i → w1.timers i = w.timers i) := by
  have key : ∀ d d1 : Field, d1 ≠ d → Ready w d → Ready w d1 →
      ∃ w1, PipeDeadline.Set d1 t w = .ok w1 ∧ w1.dl d = w.dl d ∧
        isClosedChan (w1.dl d).cancel w1 = isClosedChan (w.dl d).cancel w ∧
        ∀ i, (w.dl d).timer = some i → w1.timers i = w.timers i := by
    intro d d1 hne hd hd1
    cases hc1 : (w.dl d1).cancel with
    | none => exact absurd hc1 hd1
    | some c1 =>
      cases hc : (w.dl d).cancel with
      | none => exact absurd hc hd
      | some c =>
        obtain ⟨v1, w2, -, -, h2, -⟩ := Set_post hw.inv d1 t c1 hc1
        obtain ⟨f1, f2, f3⟩ := Set_frame hw.inv d1 t h2 hd1 d c hc hne
        refine ⟨w2, h2, f1, ?_, f3⟩
        rw [f1, hc]
        simp only [isClosedChan]
        exact f2
  constructor
  · obtain ⟨w1, h1, h2, h3, h4⟩ := key .writeDeadline .readDeadline (by decide) hwr hr
    refine ⟨w1, by simp [EasyDeadline.SetReadDeadline, h1], h2, ?_, ?_, h4⟩
    · simp only [EasyDeadline.WriteTimeoutChan, PipeDeadline.Wait]
      rw [h2]
    · simpa [EasyDeadline.WriteTimeoutChan, PipeDeadline.Wait] using h3
  · obtain ⟨w1, h1, h2, h3, h4⟩ := key .readDeadline .writeDeadline (by decide) hr hwr
    refine ⟨w1, by simp [EasyDeadline.SetWriteDeadline, h1], h2, ?_, ?_, h4⟩
    · simp only [EasyDeadline.ReadTimeoutChan, PipeDeadline.Wait]
      rw [h2]
    · simpa [EasyDeadline.ReadTimeoutChan, PipeDeadline.Wait] using h3

theorem SetDeadline_sides_independent_witness :
    Reachable demoEd ∧ Ready demoEd .readDeadline ∧ Ready demoEd .writeDeadline ∧
      ∃ w1, EasyDeadline.SetReadDeadline 100 demoEd = .ok (none, w1) ∧
        (EasyDeadline.WriteTimeoutChan w1).1 = (EasyDeadline.WriteTimeoutChan demoEd).1 ∧
        isClosedChan (EasyDeadline.WriteTimeoutChan w1).1 w1 = false := by
  obtain ⟨w1, h1, -, h2, h3, -⟩ :=
    (SetDeadline_sides_independent demoEd_reachable demoEd_ready_read demoEd_ready_write 100).1
  exact ⟨demoEd_reachable, demoEd_ready_read, demoEd_ready_write, w1, h1, h2, by rw [h3]; rfl⟩

/-- C12: for every state, `t` and clock value, `SetDeadline(t)` yields exactly
what `SetReadDeadline(t)` followed by `SetWriteDeadline(t)` yields; and on an
initialised `EasyDeadline` of a reachable world both calls of `Set` complete,
the error returned is nil, and the read deadline is left by `SetDeadline` in the
state its own `Set(t)` produced (fields, fired state of its signal and stored
timer), the write deadline in the state produced by its own `Set(t)`, run
after it. -/
theorem SetDeadline_sets_both (t : Time) (w : World Field) :
    EasyDeadline.SetDeadline t w = EasyDeadline.setBothSpec t w ∧
    (Reachable w → Ready w .readDeadline → Ready w .writeDeadline →
      ∃ w1 w2, PipeDeadline.Set .readDeadline t w = .ok w1 ∧
        PipeDeadline.Set .writeDeadline t w1 = .ok w2 ∧
        EasyDeadline.SetDeadline t w = .ok (none, w2) ∧
        w2.dl .readDeadline = w1.dl .readDeadline ∧
        isClosedChan (w2.dl .readDeadline).cancel w2 =
          isClosedChan (w1.dl .readDeadline).cancel w1 ∧
        (∀ i, (w1.dl .readDeadline).timer = some i → w2.timers i = w1.timers i)) := by
  constructor
  · simp only [EasyDeadline.SetDeadline, EasyDeadline.setBothSpec,
      EasyDeadline.SetReadDeadline, EasyDeadline.SetWriteDeadline]
    cases PipeDeadline.Set Field.readDeadline t w <;> rfl
  · intro hw hr hwr
    cases hcr : (w.dl .readDeadline).cancel with
    | none => exact absurd hcr hr
    | some cr =>
      obtain ⟨v1, w1, -, -, h1, -⟩ := Set_post hw.inv .readDeadline t cr hcr
      have hw1 : Reachable w1 := hw.step (.set .readDeadline t) (by simp [exec, hcr, h1])
      have hr1 : Ready w1 .readDeadline :=
        (ready_replay hw.inv .readDeadline hr [.set .readDeadline t] w1
          (by simp [replay, exec, hcr, h1])).2.1
      have hwr1 : Ready w1 .writeDeadline :=
        (ready_replay hw.inv .writeDeadline hwr [.set .readDeadline t] w1
          (by simp [replay, exec, hcr, h1])).2.1
      cases hcw : (w1.dl .writeDeadline).cancel with
      | none => exact absurd hcw hwr1
      | some cw =>
        cases hcr1 : (w1.dl .readDeadline).cancel with
        | none => exact absurd hcr1 hr1
        | some cr1 =>
          obtain ⟨v2, w2, -, -, h2, -⟩ := Set_post hw1.inv .writeDeadline t cw hcw
          obtain ⟨f1, f2, f3⟩ := Set_frame hw1.inv .writeDeadline t h2 hwr1 .readDeadline cr1
            hcr1 (by decide)
          refine ⟨w1, w2, h1, h2, by simp [EasyDeadline.SetDeadline, h1, h2], f1, ?_, f3⟩
          rw [f1, hcr1]
          simp only [isClosedChan]
          exact f2

theorem SetDeadline_sets_both_witness :
    Reachable demoEd ∧ Ready demoEd .readDeadline ∧ Ready demoEd .writeDeadline ∧
      EasyDeadline.SetDeadline 105 demoEd = EasyDeadline.setBothSpec 105 demoEd ∧
      ∃ w1 w2, PipeDeadline.Set .readDeadline 105 demoEd = .ok w1 ∧
        PipeDeadline.Set .writeDeadline 105 w1 = .ok w2 ∧
        EasyDeadline.SetDeadline 105 demoEd = .ok (none, w2) := by
  obtain ⟨h0, h⟩ := SetDeadline_sets_both 105 demoEd
  obtain ⟨w1, w2, h1, h2, h3, -⟩ := h demoEd_reachable demoEd_ready_read demoEd_ready_write
  exact ⟨demoEd_reachable, demoEd_ready_read, demoEd_ready_write, h0, w1, w2, h1, h2, h3⟩

/-- C13: after `InitEasyDeadline` on a zero-valued `EasyDeadline` of a reachable
world, `ReadTimeoutChan()` and `WriteTimeoutChan()` return non-nil, unfired
signals of distinct identities, neither deadline stores a timer and neither has
a live timer; and `MakePipeDeadline()` returns a `PipeDeadline` with no timer and
a non-nil signal that is unfired and, in a well-formed world, held by no
location. -/
theorem InitEasyDeadline_fresh :
    (∀ w : World Field, Reachable w →
      w.ed = { readDeadline := { timer := none, cancel := none },
               writeDeadline := { timer := none, cancel := none } } →
      ∃ cr cw, (EasyDeadline.ReadTimeoutChan (EasyDeadline.InitEasyDeadline w)).1 = some cr ∧
        (EasyDeadline.WriteTimeoutChan (EasyDeadline.InitEasyDeadline w)).1 = some cw ∧
        (EasyDeadline.InitEasyDeadline w).closed cr = false ∧
        (EasyDeadline.InitEasyDeadline w).closed cw = false ∧ cr ≠ cw ∧
        ((EasyDeadline.InitEasyDeadline w).dl .readDeadline).timer = none ∧
        ((EasyDeadline.InitEasyDeadline w).dl .writeDeadline).timer = none ∧
        Idle (EasyDeadline.InitEasyDeadline w) .readDeadline ∧
        Idle (EasyDeadline.InitEasyDeadline w) .writeDeadline) ∧
    (∀ v : World α, (MakePipeDeadline v).1.timer = none ∧
      ∃ c, (MakePipeDeadline v).1.cancel = some c ∧ (MakePipeDeadline v).2.closed c = false ∧
        (Inv v → ∀ d, ((MakePipeDeadline v).2.dl d).cancel ≠ some c)) := by
  constructor
  · intro w hw hz
    have hr : w.dl .readDeadline = { timer := none, cancel := none } :=
      congrArg EasyDeadline.readDeadline hz
    have hwz : w.dl .writeDeadline = { timer := none, cancel := none } :=
      congrArg EasyDeadline.writeDeadline hz
    have hreach := InitEasyDeadline_reachable hw hz
    have hne : w.nextChan ≠ w.nextChan + 1 := Nat.ne_of_lt (Nat.lt_succ_self _)
    have ht1 : ((EasyDeadline.InitEasyDeadline w).dl .readDeadline).timer = none := by
      simp [EasyDeadline.InitEasyDeadline, PipeDeadline.init, makeChan, hr]
    have ht2 : ((EasyDeadline.InitEasyDeadline w).dl .writeDeadline).timer = none := by
      simp [EasyDeadline.InitEasyDeadline, PipeDeadline.init, makeChan, hwz]
    refine ⟨w.nextChan, w.nextChan + 1, ?_, ?_, ?_, ?_, hne, ht1, ht2,
      idle_of_timer_none hreach.inv _ ht1, idle_of_timer_none hreach.inv _ ht2⟩
    · simp only [EasyDeadline.ReadTimeoutChan, PipeDeadline.Wait, EasyDeadline.InitEasyDeadline,
        PipeDeadline.init]
      rw [setCancel_dl_other _ _ _ _ (by decide)]
      simp [makeChan]
    · simp [EasyDeadline.WriteTimeoutChan, PipeDeadline.Wait, EasyDeadline.InitEasyDeadline,
        PipeDeadline.init, makeChan]
    · simp [EasyDeadline.InitEasyDeadline, PipeDeadline.init, makeChan,
        Function.update_noteq hne]
    · simp [EasyDeadline.InitEasyDeadline, PipeDeadline.init, makeChan]
  · intro v
    refine ⟨rfl, v.nextChan, rfl, by simp [MakePipeDeadline, makeChan], ?_⟩
    intro hv d hd
    exact absurd (hv.chan_lt d _ hd) (Nat.lt_irrefl _)

theorem InitEasyDeadline_fresh_witness :
    ∃ cr cw, (EasyDeadline.ReadTimeoutChan demoEd).1 = some cr ∧
      (EasyDeadline.WriteTimeoutChan demoEd).1 = some cw ∧ demoEd.closed cr = false ∧
      demoEd.closed cw = false ∧ cr ≠ cw := by
  obtain ⟨cr, cw, h1, h2, h3, h4, h5, -⟩ :=
    (@InitEasyDeadline_fresh Unit _).1 (World.boot 100) ⟨100, [], by decide, rfl⟩ rfl
  exact ⟨cr, cw, h1, h2, h3, h4, h5⟩

/-- C14: on an initialised `EasyDeadline` of a reachable world and for every time
value `t`, each of `SetReadDeadline(t)`, `SetWriteDeadline(t)` and
`SetDeadline(t)` completes and returns a nil error. -/
theorem setters_return_nil {w : World Field} (hw : Reachable w)
    (hr : Ready w .readDeadline) (hwr : Ready w .writeDeadline) (t : Time) :
    (∃ w1, EasyDeadline.SetReadDeadline t w = .ok (none, w1)) ∧
    (∃ w1, EasyDeadline.SetWriteDeadline t w = .ok (none, w1)) ∧
    (∃ w1, EasyDeadline.SetDeadline t w = .ok (none, w1)) := by
  cases hcr : (w.dl .readDeadline).cancel with
  | none => exact absurd hcr hr
  | some cr =>
    cases hcw : (w.dl .writeDeadline).cancel with
    | none => exact absurd hcw hwr
    | some cw =>
      obtain ⟨-, w1, -, -, h1, -⟩ := Set_post hw.inv .readDeadline t cr hcr
      obtain ⟨-, w2, -, -, h2, -⟩ := Set_post hw.inv .writeDeadline t cw hcw
      have hw1 : Reachable w1 := hw.step (.set .readDeadline t) (by simp [exec, hcr, h1])
      have hwr1 : Ready w1 .writeDeadline :=
        (ready_replay hw.inv .writeDeadline hwr [.set .readDeadline t] w1
          (by simp [replay, exec, hcr, h1])).2.1
      cases hcw1 : (w1.dl .writeDeadline).cancel with
      | none => exact absurd hcw1 hwr1
      | some cw1 =>
        obtain ⟨-, w3, -, -, h3, -⟩ := Set_post hw1.inv .writeDeadline t cw1 hcw1
        exact ⟨⟨w1, by simp [EasyDeadline.SetReadDeadline, h1]⟩,
          ⟨w2, by simp [EasyDeadline.SetWriteDeadline, h2]⟩,
          ⟨w3, by simp [EasyDeadline.SetDeadline, h1, h3]⟩⟩

theorem setters_return_nil_witness :
    Reachable demoEd ∧ Ready demoEd .readDeadline ∧ Ready demoEd .writeDeadline ∧
      (∃ w1, EasyDeadline.SetReadDeadline 0 demoEd = .ok (none, w1)) ∧
      (∃ w1, EasyDeadline.SetWriteDeadline 50 demoEd = .ok (none, w1)) ∧
      (∃ w1, EasyDeadline.SetDeadline 200 demoEd = .ok (none, w1)) :=
  ⟨demoEd_reachable, demoEd_ready_read, demoEd_ready_write,
    (setters_return_nil demoEd_reachable demoEd_ready_read demoEd_ready_write 0).1,
    (setters_return_nil demoEd_reachable demoEd_ready_read demoEd_ready_write 50).2.1,
    (setters_return_nil demoEd_reachable demoEd_ready_read demoEd_ready_write 200).2.2⟩

/-! ## The program with the mutex explicit -/

/-- With the mutex free, a call of `Set` either blocks in the receive of line 68,
because the callback of the stored timer is in flight and the channel is open,
leaving the world as it is, or completes with the result of the atomic `Set`. -/
theorem callSet_spec {s : Sys α} (hw : Inv s.world) (d : α) (t : Time) (c0 : ChanId)
    (hc : (s.world.dl d).cancel = some c0) (hl : s.locked d = false) :
    (∃ i tm, (s.world.dl d).timer = some i ∧ s.world.timers i = some tm ∧
      tm.status = .running ∧ s.world.closed c0 = false ∧
      s.callSet d t = some (.ok { world := s.world,
                                  parked := Function.update s.parked d (some (i, t)) })) ∨
    (∃ w2, PipeDeadline.Set d t s.world = .ok w2 ∧
      s.callSet d t = some (.ok { world := w2,
                                  parked := Function.update s.parked d none })) := by
  obtain ⟨v1, w2, h1, -, h2, -⟩ := Set_post hw d t c0 hc
  rcases cancelTimer_cases hw d with ⟨h0, he⟩ | ⟨i, tm, hi, htm, ho, hcase⟩
  · right
    refine ⟨w2, h2, ?_⟩
    simp only [PipeDeadline.Set, he] at h2
    simp [Sys.callSet, hl, h0, Sys.finishSet, h2]
  · rcases hcase with ⟨hs, -, he⟩ | ⟨hs, c, hc', hopen, -⟩ | ⟨hs, hclosed, he⟩
    · right
      refine ⟨w2, h2, ?_⟩
      simp only [PipeDeadline.Set, he] at h2
      simp [Sys.callSet, hl, hi, stopTimer, htm, hs, Sys.finishSet, h2]
    · left
      have hcc : c = c0 := by
        rw [hc] at hc'
        exact (Option.some.inj hc').symm
      subst hcc
      refine ⟨i, tm, hi, htm, hs, hopen, ?_⟩
      simp [Sys.callSet, hl, hi, stopTimer, htm, hs, isClosedChan, hc, hopen]
    · right
      refine ⟨w2, h2, ?_⟩
      simp only [PipeDeadline.Set, he] at h2
      simp [Sys.callSet, hl, hi, stopTimer, htm, hs, hclosed, Sys.finishSet, h2]

/-- A blocked call of `Set` resumes exactly when the channel is closed, and then
completes with the result of the atomic `Set`; while the channel is open the
callback of the timer it waits for is in flight. -/
theorem resumeSet_spec {s : Sys α} (hw : Inv s.world) (d : α) (i : TimerId) (t : Time)
    (tm : Timer α) (hp : s.parked d = some (i, t)) (hi : (s.world.dl d).timer = some i)
    (htm : s.world.timers i = some tm) (hs : tm.status ≠ .pending) :
    (isClosedChan (s.world.dl d).cancel s.world = true ∧
      ∃ w2, PipeDeadline.Set d t s.world = .ok w2 ∧
        s.resumeSet d = some (.ok { world := w2,
                                    parked := Function.update s.parked d none })) ∨
    (isClosedChan (s.world.dl d).cancel s.world = false ∧ tm.status = .running ∧
      s.resumeSet d = none) := by
  obtain ⟨tm', g1, g2, g3, g4⟩ := hw.stored d i hi
  rw [htm] at g1
  cases g1
  cases hst : tm.status with
  | pending => exact absurd hst hs
  | stopped => exact absurd hst g3
  | running =>
    right
    obtain ⟨-, c, k1, k2⟩ := hw.live i tm htm (Or.inr hst)
    rw [g2] at k1
    have hopen : isClosedChan (s.world.dl d).cancel s.world = false := by
      simp [isClosedChan, k1, k2]
    exact ⟨hopen, rfl, by simp [Sys.resumeSet, hp, hopen]⟩
  | done =>
    left
    have hclosed := g4 hst
    refine ⟨hclosed, ?_⟩
    cases hc : (s.world.dl d).cancel with
    | none => simp [hc, isClosedChan] at hclosed
    | some c0 =>
      obtain ⟨v1, w2, h1, -, h2, -⟩ := Set_post hw d t c0 hc
      refine ⟨w2, h2, ?_⟩
      have he : cancelTimer d s.world = .ok (s.world.setTimer d none) := by
        simp [cancelTimer, hi, stopTimer, htm, hst, recvCancel, hclosed]
      simp only [PipeDeadline.Set, he] at h2
      simp [Sys.resumeSet, hp, hclosed, Sys.finishSet, h2]

/-- A transition of the world other than `Set` on `d` keeps the timer stored in
`d` in place and, if it was no longer pending, no longer pending. -/
theorem parked_keep {w w1 : World α} (hw : Inv w) (e : Event α) (h : exec e w = some w1)
    (d : α) (i : TimerId) (tm : Timer α) (hset : ∀ t, e ≠ .set d t)
    (hi : (w.dl d).timer = some i) (htm : w.timers i = some tm) (hs : tm.status ≠ .pending) :
    (w1.dl d).timer = some i ∧ ∃ tm1, w1.timers i = some tm1 ∧ tm1.status ≠ .pending := by
  obtain ⟨tm', g1, g2, g3, g4⟩ := hw.stored d i hi
  rw [htm] at g1
  cases g1
  have hcs : ∃ c, (w.dl d).cancel = some c := by
    cases hst : tm.status with
    | pending => exact absurd hst hs
    | stopped => exact absurd hst g3
    | running =>
      obtain ⟨-, c, k1, -⟩ := hw.live i tm htm (Or.inr hst)
      rw [g2] at k1
      exact ⟨c, k1⟩
    | done =>
      have := g4 hst
      cases hc : (w.dl d).cancel with
      | none => simp [hc, isClosedChan] at this
      | some c => exact ⟨c, rfl⟩
  obtain ⟨c, hc⟩ := hcs
  obtain ⟨f1, -, f3⟩ := exec_frame hw e h d c hc hset
  refine ⟨by rw [f1]; exact hi, ?_⟩
  by_cases hex : e = .expire i
  · subst hex
    simp only [exec, expire, htm] at h
    split_ifs at h with hp
    exact absurd hp.1 hs
  · by_cases hcb : e = .callback i
    · subst hcb
      simp only [exec, htm] at h
      split_ifs at h with hr
      obtain ⟨c1, -, -, k3⟩ := runCallback_running hw i tm htm hr
      rw [k3] at h
      cases h
      exact ⟨{ tm with status := .done }, by simp, by simp⟩
    · rw [f3 i hi hex hcb]
      exact ⟨tm, htm, hs⟩

/-- A transition of the world keeps the invariant of the program with the mutex
explicit, provided no call of `Set` stays blocked that was not blocked before
and none stays blocked on the location the transition calls `Set` on. -/
theorem sysInv_step {s : Sys α} (hs : SysInv s) (e : Event α) (w1 : World α)
    (h : exec e s.world = some w1) (p : α → Option (TimerId × Time))
    (hp : ∀ d x, p d = some x → s.parked d = some x)
    (hset : ∀ d t, e = .set d t → p d = none) :
    SysInv { world := w1, parked := p } := by
  obtain ⟨hr, hpk⟩ := hs
  refine ⟨hr.step e h, ?_⟩
  intro d i t hd
  obtain ⟨g1, tm, g2, g3⟩ := hpk d i t (hp d _ hd)
  refine parked_keep hr.inv e h d i tm ?_ g1 g2 g3
  intro t1 he
  have hd1 : p d = some (i, t) := hd
  rw [hset d t1 he] at hd1
  cases hd1

theorem update_none_sub (p : α → Option (TimerId × Time)) (d : α) :
    ∀ d1 x, Function.update p d none d1 = some x → p d1 = some x := by
  intro d1 x h
  by_cases hd : d1 = d
  · subst hd
    simp at h
  · rwa [Function.update_noteq hd] at h

/-- Every enabled transition of the program with the mutex explicit completes
without panic and keeps the invariant. -/
theorem sysExec_ok {s : Sys α} (hs : SysInv s) (e : SysEvent α) (r : Except Fault (Sys α))
    (h : sysExec e s = some r) : ∃ s1, r = .ok s1 ∧ SysInv s1 := by
  have hinv : Inv s.world := hs.1.inv
  have hsame : ∀ (ev : Event α) (w1 : World α), exec ev s.world = some w1 →
      (∀ d t, ev ≠ .set d t) → SysInv { s with world := w1 } := by
    intro ev w1 hev hne
    exact sysInv_step hs ev w1 hev s.parked (fun _ _ hx => hx)
      (fun d t he => absurd he (hne d t))
  have hdone : ∀ (d1 : α) (t : Time) (w2 : World α), (s.world.dl d1).cancel ≠ none →
      PipeDeadline.Set d1 t s.world = .ok w2 →
      SysInv { world := w2, parked := Function.update s.parked d1 none } := by
    intro d1 t w2 hc h2
    refine sysInv_step hs (.set d1 t) w2 (by simp [exec, hc, h2]) _
      (update_none_sub s.parked d1) ?_
    intro d t1 he
    cases he
    simp
  cases e with
  | init d1 =>
    simp only [sysExec] at h
    cases he : exec (.init d1) s.world with
    | none => simp [he] at h
    | some w1 =>
      simp only [he, Option.map_some'] at h
      cases h
      exact ⟨_, rfl, hsame _ w1 he (fun _ _ hx => by cases hx)⟩
  | callSet d1 t =>
    simp only [sysExec] at h
    split_ifs at h with hz
    cases hc : (s.world.dl d1).cancel with
    | none => exact absurd hc hz
    | some c0 =>
      cases hl : s.locked d1 with
      | true => simp [Sys.callSet, hl] at h
      | false =>
        rcases callSet_spec hinv d1 t c0 hc hl with
          ⟨i, tm, g1, g2, g3, -, g5⟩ | ⟨w2, g1, g2⟩
        · rw [g5] at h
          cases h
          refine ⟨_, rfl, hs.1, ?_⟩
          intro d i1 t1 hd
          by_cases hdd : d = d1
          · subst hdd
            simp at hd
            obtain ⟨rfl, rfl⟩ := hd
            exact ⟨g1, tm, g2, by simp [g3]⟩
          · simp only [Function.update_noteq hdd] at hd
            exact hs.2 d i1 t1 hd
        · rw [g2] at h
          cases h
          exact ⟨_, rfl, hdone d1 t w2 hz g1⟩
  | resumeSet d1 =>
    simp only [sysExec] at h
    cases hp : s.parked d1 with
    | none => simp [Sys.resumeSet, hp] at h
    | some x =>
      obtain ⟨i, t⟩ := x
      obtain ⟨g1, tm, g2, g3⟩ := hs.2 d1 i t hp
      rcases resumeSet_spec hinv d1 i t tm hp g1 g2 g3 with ⟨k1, w2, k2, k3⟩ | ⟨-, -, k3⟩
      · rw [k3] at h
        cases h
        have hz : (s.world.dl d1).cancel ≠ none := by
          intro hn
          simp [hn, isClosedChan] at k1
        exact ⟨_, rfl, hdone d1 t w2 hz k2⟩
      · rw [k3] at h
        cases h
  | wait d1 =>
    simp only [sysExec] at h
    split_ifs at h with hl
    cases h
    exact ⟨_, rfl, hs⟩
  | advance dt =>
    simp only [sysExec] at h
    cases he : exec (.advance dt) s.world with
    | none => simp [he] at h
    | some w1 =>
      simp only [he, Option.map_some'] at h
      cases h
      exact ⟨_, rfl, hsame _ w1 he (fun _ _ hx => by cases hx)⟩
  | expire i =>
    simp only [sysExec] at h
    cases he : exec (.expire i) s.world with
    | none => simp [he] at h
    | some w1 =>
      simp only [he, Option.map_some'] at h
      cases h
      exact ⟨_, rfl, hsame _ w1 he (fun _ _ hx => by cases hx)⟩
  | callback i =>
    simp only [sysExec, Sys.timerCallback] at h
    cases htm : s.world.timers i with
    | none => simp [htm] at h
    | some tm =>
      simp only [htm] at h
      split_ifs at h with hr
      obtain ⟨c1, -, -, k3⟩ := runCallback_running hinv i tm htm hr
      rw [k3] at h
      cases h
      refine ⟨_, rfl, hsame (.callback i) _ ?_ (fun _ _ hx => by cases hx)⟩
      simp [exec, htm, hr, k3]

theorem sysInv_boot (t0 : Time) (h0 : 0 ≤ t0) : SysInv (Sys.boot t0 : Sys α) :=
  ⟨⟨t0, [], h0, rfl⟩, fun d i t h => by simp [Sys.boot] at h⟩

theorem sysReplay_inv {s s1 : Sys α} (hs : SysInv s) (h : List (SysEvent α))
    (hr : sysReplay s h = some s1) : SysInv s1 := by
  induction h generalizing s1 with
  | nil =>
    simp only [sysReplay] at hr
    cases hr
    exact hs
  | cons e h ih =>
    simp only [sysReplay] at hr
    cases hm : sysReplay s h with
    | none => simp [hm] at hr
    | some sm =>
      rw [hm] at hr
      simp only [Option.some_bind] at hr
      cases he : sysExec e sm with
      | none => simp [he] at hr
      | some r =>
        obtain ⟨s2, rfl, h2⟩ := sysExec_ok (ih hm) e r he
        simp only [he] at hr
        cases hr
        exact h2

/-- Every reachable state of the program with the mutex explicit satisfies the
invariant; in particular its world is reachable with atomic `Set`. -/
theorem sysReachable_sysInv {s : Sys α} (hs : SysReachable s) : SysInv s := by
  obtain ⟨t0, h, h0, hr⟩ := hs
  exact sysReplay_inv (sysInv_boot t0 h0) h hr

theorem racySys_reachable : SysReachable racySys :=
  ⟨100, racyHistory, by decide, rfl⟩

/-- C15: in every reachable state of the program with the mutex explicit (any
number of callers entering `Set`, the mutex admitting one at a time, interleaved
with timer expiries and callbacks), no enabled transition panics; a caller that
finds the mutex free on an initialised location proceeds without panic; a call
of `Set` that holds the mutex and is blocked in the receive of line 68 is never
stuck: it resumes at once, or the callback it waits for runs and then it resumes,
and it completes and releases the mutex; and at most one timer owned by a
location is armed. -/
theorem concurrent_Set_safe {s : Sys α} (hs : SysReachable s) :
    (∀ (e : SysEvent α) (r : Except Fault (Sys α)), sysExec e s = some r → ∃ s1, r = .ok s1) ∧
    (∀ d t, Ready s.world d → s.locked d = false → ∃ s1, s.callSet d t = some (.ok s1)) ∧
    (∀ d i t, s.parked d = some (i, t) →
      (∃ s2, s.resumeSet d = some (.ok s2) ∧ s2.locked d = false) ∨
      (∃ s1 s2, s.timerCallback i = some (.ok s1) ∧ s1.resumeSet d = some (.ok s2) ∧
        s2.locked d = false)) ∧
    (∀ d i j ti tj, s.world.timers i = some ti → s.world.timers j = some tj →
      ti.owner = d → tj.owner = d → ti.status = .pending → tj.status = .pending → i = j) := by
  have hinv := sysReachable_sysInv hs
  have hw : Inv s.world := hinv.1.inv
  refine ⟨?_, ?_, ?_, ?_⟩
  · intro e r he
    obtain ⟨s1, h1, -⟩ := sysExec_ok hinv e r he
    exact ⟨s1, h1⟩
  · intro d t hd hl
    cases hc : (s.world.dl d).cancel with
    | none => exact absurd hc hd
    | some c0 =>
      rcases callSet_spec hw d t c0 hc hl with ⟨i, tm, -, -, -, -, g⟩ | ⟨w2, -, g⟩
      · exact ⟨_, g⟩
      · exact ⟨_, g⟩
  · intro d i t hp
    obtain ⟨g1, tm, g2, g3⟩ := hinv.2 d i t hp
    rcases resumeSet_spec hw d i t tm hp g1 g2 g3 with ⟨-, w2, -, k3⟩ | ⟨-, k2, -⟩
    · left
      exact ⟨_, k3, by simp [Sys.locked]⟩
    · right
      obtain ⟨c1, -, -, r3⟩ := runCallback_running hw i tm g2 k2
      have hcb : s.timerCallback i = some (.ok { s with world :=
          { s.world with closed := Function.update s.world.closed c1 true,
                         timers := Function.update s.world.timers i
                           (some { tm with status := .done }) } }) := by
        simp [Sys.timerCallback, g2, k2, r3]
      obtain ⟨s1, e1, hinv1⟩ := sysExec_ok hinv (.callback i) _ hcb
      cases e1
      have hp1 : ({ s with world :=
          { s.world with closed := Function.update s.world.closed c1 true,
                         timers := Function.update s.world.timers i
                           (some { tm with status := .done }) } } : Sys α).parked d =
          some (i, t) := hp
      obtain ⟨m1, tm1, m2, m3⟩ := hinv1.2 d i t hp1
      rcases resumeSet_spec hinv1.1.inv d i t tm1 hp1 m1 m2 m3 with ⟨-, w2, -, k3⟩ | ⟨-, k2', -⟩
      · exact ⟨_, _, hcb, k3, by simp [Sys.locked]⟩
      · simp at m2
        subst m2
        simp at k2'
  · intro d i j ti tj hi hj hoi hoj hpi hpj
    have e1 := (hw.live i ti hi (Or.inl hpi)).1
    have e2 := (hw.live j tj hj (Or.inl hpj)).1
    rw [hoi] at e1
    rw [hoj, e1] at e2
    exact Option.some.inj e2

theorem concurrent_Set_safe_witness :
    SysReachable racySys ∧ Ready racySys.world () ∧ racySys.locked () = false ∧
      ∃ s1, racySys.callSet () 200 = some (.ok s1) :=
  ⟨racySys_reachable, by unfold Ready; decide, rfl,
    (concurrent_Set_safe racySys_reachable).2.1 () 200 (by unfold Ready; decide) rfl⟩

/-- C16: the code at the failing input. In the reachable state `racySys` timer 0
has expired and its callback is in flight; a call `Set(200)` takes the mutex,
fails to stop the timer and blocks in the receive of line 68, mutex held; the
callback of timer 0 then runs, reads `d.cancel` and fires signal 0 while that
call holds the mutex, and leaves the mutex held by it. The callback does not
fire the signal inside a critical section of its own. -/
theorem callback_runs_while_Set_holds_mutex :
    SysReachable racySys ∧ racySys.locked () = false ∧
      ∃ s1 s2, racySys.callSet () 200 = some (.ok s1) ∧ s1.locked () = true ∧
        s1.parked () = some (0, 200) ∧ s1.world.closed 0 = false ∧
        sysExec (.callSet () 300) s1 = none ∧ sysExec (.wait ()) s1 = none ∧
        s1.timerCallback 0 = some (.ok s2) ∧
        s2.locked () = true ∧ s2.parked () = some (0, 200) ∧ s2.world.closed 0 = true :=
  ⟨racySys_reachable, rfl, _, _, rfl, rfl, rfl, rfl, rfl, rfl, rfl, rfl, rfl, rfl⟩

/-! ## Rendezvous, absence of double close, idempotence -/

/-- A timer whose callback is done stays done across every transition. -/
theorem exec_done {w w1 : World α} (hw : Inv w) (e : Event α) (h : exec e w = some w1)
    (i : TimerId) (tm : Timer α) (htm : w.timers i = some tm) (hs : tm.status = .done) :
    w1.timers i = some tm := by
  cases e with
  | init d1 =>
    simp only [exec] at h
    split_ifs at h with hz
    cases h
    exact htm
  | set d1 t =>
    simp only [exec] at h
    split_ifs at h with hz
    cases hc1 : (w.dl d1).cancel with
    | none => exact absurd hc1 hz
    | some c1 =>
      obtain ⟨v1, w2, -, p1, h2, p2⟩ := Set_post hw d1 t c1 hc1
      rw [h2] at h
      cases h
      have hlt := hw.timer_lt i tm htm
      rw [p2.timers_old i (by rw [p1.nextTimer_eq]; exact Nat.ne_of_lt hlt)]
      by_cases hi : (w.dl d1).timer = some i
      · obtain ⟨st, hst1, hst2, hst3⟩ := p1.timers_old i tm hi htm
        have hdone : st = .done := by
          rcases hst1 with h0 | h0
          · have := hst2.mp h0
            rw [hs] at this
            cases this
          · exact h0
        rw [hst3, hdone]
        congr 1
        cases tm
        simp_all
      · rw [p1.timers_other i hi, htm]
  | wait d1 =>
    simp only [exec, PipeDeadline.Wait] at h
    cases h
    exact htm
  | advance dt =>
    simp only [exec] at h
    cases h
    exact htm
  | expire i1 =>
    simp only [exec, expire] at h
    cases htm1 : w.timers i1 with
    | none => simp [htm1] at h
    | some tm1 =>
      simp only [htm1] at h
      split_ifs at h with hp
      cases h
      have : i ≠ i1 := by
        intro he
        subst he
        rw [htm] at htm1
        cases htm1
        rw [hs] at hp
        exact absurd hp.1 (by simp)
      simp [Function.update_noteq this, htm]
  | callback i1 =>
    simp only [exec] at h
    cases htm1 : w.timers i1 with
    | none => simp [htm1] at h
    | some tm1 =>
      simp only [htm1] at h
      split_ifs at h with hr
      obtain ⟨c1, g1, g2, g3⟩ := runCallback_running hw i1 tm1 htm1 hr
      rw [g3] at h
      cases h
      have : i ≠ i1 := by
        intro he
        subst he
        rw [htm] at htm1
        cases htm1
        rw [hs] at hr
        cases hr
      simp [Function.update_noteq this, htm]

/-- A timer whose callback is done stays done for ever and can neither fire nor
run its callback again. -/
theorem done_replay {w : World α} (hw : Inv w) (i : TimerId) (tm : Timer α)
    (htm : w.timers i = some tm) (hs : tm.status = .done)
    (h : List (Event α)) (w1 : World α) (hr : replay w h = some w1) :
    w1.timers i = some tm ∧ fire i w1 = none ∧ exec (.callback i) w1 = none := by
  have key : Inv w1 ∧ w1.timers i = some tm := by
    induction h generalizing w1 with
    | nil =>
      simp only [replay] at hr
      cases hr
      exact ⟨hw, htm⟩
    | cons e h ih =>
      simp only [replay] at hr
      cases hm : replay w h with
      | none => simp [hm] at hr
      | some wm =>
        rw [hm] at hr
        simp only [Option.some_bind] at hr
        obtain ⟨i1, i2⟩ := ih wm hm
        exact ⟨exec_inv i1 e hr, exec_done i1 e hr i tm i2 hs⟩
  refine ⟨key.2, ?_, ?_⟩
  · simp [fire, expire, key.2, hs]
  · simp [exec, key.2, hs]

/-- C17: in a reachable world where a location stores a timer on which `Stop`
fails (its callback has started or finished), `Set(t)` gets past the cancellation
step in a state where the previously current signal is fired, and it completes;
after `Set` that signal is fired for every `t`; and for `t` zero or after the
current time `Wait()` returns another identity, not allocated before and
unfired, and in every later state the stale timer is done and can neither fire
nor run its callback. -/
theorem Set_rendezvous {w : World α} (hw : Reachable w) (d : α) (i : TimerId) (c0 : ChanId)
    (hi : (w.dl d).timer = some i) (hc : (PipeDeadline.Wait d w).1 = some c0)
    (hstop : (stopTimer i w).1 = false) (t : Time) :
    ∃ w1 w2, cancelTimer d w = .ok w1 ∧ (w1.dl d).cancel = some c0 ∧ w1.closed c0 = true ∧
      PipeDeadline.Set d t w = .ok w2 ∧ w2.closed c0 = true ∧
      ((t.IsZero = true ∨ w.now < t) →
        ∃ c1, (PipeDeadline.Wait d w2).1 = some c1 ∧ c1 ≠ c0 ∧ w.nextChan ≤ c1 ∧
          w2.closed c1 = false ∧
          ∀ (h : List (Event α)) (w3 : World α), replay w2 h = some w3 →
            (∃ tm, w3.timers i = some tm ∧ tm.status = .done) ∧ fire i w3 = none ∧
            exec (.callback i) w3 = none) := by
  simp only [PipeDeadline.Wait] at hc
  obtain ⟨tm, g1, g2, g3, g4⟩ := hw.inv.stored d i hi
  have hnp : tm.status ≠ .pending := by
    intro hp
    simp [stopTimer, g1, hp] at hstop
  obtain ⟨w1, w2, h1, p1, h2, p2⟩ := Set_post hw.inv d t c0 hc
  have hc1 : (w1.dl d).cancel = some c0 := by rw [p1.cancel_eq]; exact hc
  have hcl1 : w1.closed c0 = true := by
    have := p1.rendezvous i tm hi g1 hnp
    simpa [hc, isClosedChan] using this
  refine ⟨w1, w2, h1, hc1, hcl1, h2, p2.closed_mono c0 hcl1, ?_⟩
  intro hb
  have hb1 : t = 0 ∨ w1.now < t := by
    rw [p1.now_eq]
    rcases hb with hb | hb
    · left
      simpa [Time.IsZero] using hb
    · exact Or.inr hb
  obtain ⟨r1, r2, -⟩ := p2.renew hb1 hcl1
  rw [p1.nextChan_eq] at r1 r2
  have hlt : c0 < w.nextChan := hw.inv.chan_lt d c0 hc
  refine ⟨w.nextChan, r1, (Nat.ne_of_lt hlt).symm, le_refl _, r2, ?_⟩
  intro h w3 hr
  obtain ⟨st, hst1, hst2, hst3⟩ := p1.timers_old i tm hi g1
  have hdone : st = .done := by
    rcases hst1 with h0 | h0
    · exact absurd (hst2.mp h0) hnp
    · exact h0
  subst hdone
  have hltt := hw.inv.timer_lt i tm g1
  have hold : w2.timers i = some { tm with status := .done } := by
    rw [p2.timers_old i (by rw [p1.nextTimer_eq]; exact Nat.ne_of_lt hltt), hst3]
  obtain ⟨s1, s2, s3⟩ := done_replay p2.inv i _ hold rfl h w3 hr
  exact ⟨⟨_, s1, rfl⟩, s2, s3⟩

theorem Set_rendezvous_witness :
    Reachable racy ∧ (racy.dl ()).timer = some 0 ∧ (PipeDeadline.Wait () racy).1 = some 0 ∧
      (stopTimer 0 racy).1 = false ∧
      ∃ w1 w2, cancelTimer () racy = .ok w1 ∧ w1.closed 0 = true ∧
        PipeDeadline.Set () 0 racy = .ok w2 ∧ w2.closed 0 = true ∧
        ∃ c1, (PipeDeadline.Wait () w2).1 = some c1 ∧ c1 ≠ 0 ∧ w2.closed c1 = false := by
  obtain ⟨w1, w2, h1, -, h2, h3, h4, h5⟩ :=
    Set_rendezvous racy_reachable () 0 0 rfl rfl rfl 0
  obtain ⟨c1, k1, k2, -, k3, -⟩ := h5 (Or.inl rfl)
  exact ⟨racy_reachable, rfl, rfl, rfl, w1, w2, h1, h2, h3, h4, c1, k1, k2, k3⟩

/-- C18: in every reachable world an armed timer is the one stored in its owner,
and the signal of its owner, which its callback closes, is non-nil and unfired;
the firing of a due armed timer and the callback of an expired timer complete
without panic; and `Set` on an initialised location completes without panic, its
immediate close (line 94), when reached, being applied to a non-nil, unfired
signal. -/
theorem no_double_close {w : World α} (hw : Reachable w) :
    (∀ i tm, w.timers i = some tm → tm.status = .pending →
      (w.dl tm.owner).timer = some i ∧
      ∃ c, (PipeDeadline.Wait tm.owner w).1 = some c ∧ w.closed c = false) ∧
    (∀ i tm, w.timers i = some tm → tm.status = .pending → tm.when ≤ w.now →
      ∃ w1, fire i w = some w1) ∧
    (∀ i tm, w.timers i = some tm → tm.status = .running → ∃ w1, runCallback i w = .ok w1) ∧
    (∀ d t, Ready w d → ∃ w1 w2, cancelTimer d w = .ok w1 ∧ install d t w1 = .ok w2 ∧
      PipeDeadline.Set d t w = .ok w2 ∧
      (t.IsZero = false → ¬ (Until t w1.now > 0) → isClosedChan (w1.dl d).cancel w1 = false →
        ∃ c, (w1.dl d).cancel = some c ∧ w1.closed c = false ∧
          closeChan (w1.dl d).cancel w1 = .ok w2)) := by
  refine ⟨?_, ?_, ?_, ?_⟩
  · intro i tm htm hp
    exact hw.inv.live i tm htm (Or.inl hp)
  · intro i tm htm hp hle
    obtain ⟨g1, c, g2, -⟩ := hw.inv.live i tm htm (Or.inl hp)
    obtain ⟨w1, h1, -⟩ := fire_fires hw.inv tm.owner c i tm g2 g1 htm hp hle
    exact ⟨w1, h1⟩
  · intro i tm htm hr
    obtain ⟨c, -, -, h3⟩ := runCallback_running hw.inv i tm htm hr
    exact ⟨_, h3⟩
  · intro d t hd
    cases hc : (w.dl d).cancel with
    | none => exact absurd hc hd
    | some c0 =>
      obtain ⟨w1, w2, h1, p1, h2, p2⟩ := Set_post hw.inv d t c0 hc
      have hinst : install d t w1 = .ok w2 := by
        simpa [PipeDeadline.Set, h1] using h2
      have hc1 : (w1.dl d).cancel = some c0 := by rw [p1.cancel_eq]; exact hc
      refine ⟨w1, w2, h1, hinst, h2, ?_⟩
      intro hz hnf hopen
      refine ⟨c0, hc1, by simpa [hc1, isClosedChan] using hopen, ?_⟩
      rw [← hinst]
      simp [install, hz, hnf, hopen]

theorem no_double_close_witness :
    Reachable demo ∧ Ready demo () ∧
      ∃ w1 w2, cancelTimer () demo = .ok w1 ∧ install () 100 w1 = .ok w2 ∧
        PipeDeadline.Set () 100 demo = .ok w2 := by
  obtain ⟨w1, w2, h1, h2, h3, -⟩ := (no_double_close demo_reachable).2.2.2 () 100 demo_ready
  exact ⟨demo_reachable, demo_ready, w1, w2, h1, h2, h3⟩

theorem world_eq_of_fields {a b : World α} (h1 : a.now = b.now) (h2 : a.closed = b.closed)
    (h3 : a.nextChan = b.nextChan) (h4 : a.timers = b.timers)
    (h5 : a.nextTimer = b.nextTimer) (h6 : a.dl = b.dl) : a = b := by
  cases a
  cases b
  simp_all

/-- C19: on an initialised location of a reachable world, `Set(t)` performed
twice in a row at the same clock reading completes both times, and the second
call changes nothing that can be observed: `Wait()` returns the same signal
identity, every signal has the same fired state, no channel is allocated, other
locations are untouched, every timer but the one stored in the location is
untouched, and the location stores no timer after the second call exactly when
it stored none after the first, in which case the two states are equal. When the
location stores a timer after the first call, the second call stops that timer
and stores another one, pending, owned by the location and with the same
instant; after the second call a pending timer of the location is the stored
one, so exactly one timer is armed after either call. -/
theorem Set_idempotent {w : World α} (hw : Reachable w) (d : α) (hd : Ready w d) (t : Time) :
    ∃ w1 w2, PipeDeadline.Set d t w = .ok w1 ∧ PipeDeadline.Set d t w1 = .ok w2 ∧
      w1.now = w.now ∧ w2.now = w1.now ∧
      (PipeDeadline.Wait d w2).1 = (PipeDeadline.Wait d w1).1 ∧
      w2.closed = w1.closed ∧ w2.nextChan = w1.nextChan ∧
      (∀ d1, d1 ≠ d → w2.dl d1 = w1.dl d1) ∧
      (∀ i tm, w1.timers i = some tm → (w1.dl d).timer ≠ some i → w2.timers i = some tm) ∧
      (∀ j tm, w2.timers j = some tm → tm.owner = d → tm.status = .pending →
        (w2.dl d).timer = some j) ∧
      ((w2.dl d).timer = none ↔ (w1.dl d).timer = none) ∧
      ((w1.dl d).timer = none → w2 = w1) ∧
      (∀ i1 tm1, (w1.dl d).timer = some i1 → w1.timers i1 = some tm1 →
        ∃ i2 tm2, (w2.dl d).timer = some i2 ∧ w2.timers i2 = some tm2 ∧ i2 ≠ i1 ∧
          tm2.when = tm1.when ∧ tm2.owner = tm1.owner ∧
          tm1.status = .pending ∧ tm2.status = .pending ∧
          w2.timers i1 = some { tm1 with status := .stopped }) := by
  cases hc : (w.dl d).cancel with
  | none => exact absurd hc hd
  | some c0 =>
    obtain ⟨v1, w1, -, p1, h1, p2⟩ := Set_post hw.inv d t c0 hc
    have hnow1 : w1.now = w.now := by rw [p2.now_eq, p1.now_eq]
    have hrd1 : Ready w1 d :=
      (ready_replay hw.inv d hd [.set d t] w1 (by simp [replay, exec, hc, h1])).2.1
    cases hc1 : (w1.dl d).cancel with
    | none => exact absurd hc1 hrd1
    | some c =>
      obtain ⟨v2, w2, -, q1, h2, q2⟩ := Set_post p2.inv d t c hc1
      have hnow2 : w2.now = w1.now := by rw [q2.now_eq, q1.now_eq]
      have hothers : ∀ d1, d1 ≠ d → w2.dl d1 = w1.dl d1 := by
        intro d1 hd1
        rw [q2.dl_other d1 hd1]
        exact PipeDeadline.eq_of_fields (q1.timer_other d1 hd1) (q1.cancel_eq d1)
      have htimers : ∀ i tm, w1.timers i = some tm → (w1.dl d).timer ≠ some i →
          w2.timers i = some tm := by
        intro i tm htm hne
        have hlt := p2.inv.timer_lt i tm htm
        rw [q2.timers_old i (by rw [q1.nextTimer_eq]; exact Nat.ne_of_lt hlt),
          q1.timers_other i hne, htm]
      have hunique : ∀ j tm, w2.timers j = some tm → tm.owner = d → tm.status = .pending →
          (w2.dl d).timer = some j := by
        intro j tm hj ho hp
        have := (q2.inv.live j tm hj (Or.inl hp)).1
        rw [ho] at this
        exact this
      have hwait : (w2.dl d).cancel = some c → (PipeDeadline.Wait d w2).1 =
          (PipeDeadline.Wait d w1).1 := by
        intro hk
        simp only [PipeDeadline.Wait]
        rw [hk, hc1]
      -- the state is unchanged when no timer is stored
      have hequal : (w1.dl d).timer = none → (w2.dl d).timer = none →
          (w2.dl d).cancel = some c → w2.closed = w1.closed → w2.nextChan = w1.nextChan →
          w2.timers = v2.timers → w2.nextTimer = v2.nextTimer → w2 = w1 := by
        intro z1 y1 k1 k2 k3 k4 k5
        refine world_eq_of_fields hnow2 k2 k3 ?_ (by rw [k5, q1.nextTimer_eq]) ?_
        · rw [k4]
          funext i
          exact q1.timers_other i (by rw [z1]; simp)
        · funext d1
          by_cases hd1 : d1 = d
          · subst hd1
            exact PipeDeadline.eq_of_fields (by rw [y1, z1]) (by rw [k1, hc1])
          · exact hothers d1 hd1
      by_cases ht0 : t = 0
      · -- no deadline
        obtain ⟨z1, -, -⟩ := p2.zero ht0
        have ho1 : w1.closed c = false := by
          cases hcl : v1.closed c0 with
          | true =>
            obtain ⟨r1, r2, -⟩ := p2.renew (Or.inl ht0) hcl
            rw [hc1] at r1
            rw [Option.some.inj r1]
            exact r2
          | false =>
            obtain ⟨k1, k2, -⟩ := p2.keep (Or.inl ht0) hcl
            rw [hc1] at k1
            rw [Option.some.inj k1, k2]
            exact hcl
        have hsame : v2.closed = w1.closed := q1.closed_of_none z1
        obtain ⟨k1, k2, k3⟩ := q2.keep (Or.inl ht0) (by rw [hsame]; exact ho1)
        obtain ⟨y1, y2, y3⟩ := q2.zero ht0
        have hcl : w2.closed = w1.closed := by rw [k2, hsame]
        have hnc : w2.nextChan = w1.nextChan := by rw [k3, q1.nextChan_eq]
        refine ⟨w1, w2, h1, h2, hnow1, hnow2, hwait k1, hcl, hnc, hothers, htimers, hunique,
          by simp [z1, y1], fun _ => hequal z1 y1 k1 hcl hnc y2 y3, ?_⟩
        intro i1 tm1 hi1
        rw [z1] at hi1
        cases hi1
      · by_cases hf : w.now < t
        · -- deadline in the future
          have hf1 : v1.now < t := by rw [p1.now_eq]; exact hf
          obtain ⟨a1, a2, -⟩ := p2.future hf1 ht0
          have ho1 : w1.closed c = false := by
            cases hcl : v1.closed c0 with
            | true =>
              obtain ⟨r1, r2, -⟩ := p2.renew (Or.inr hf1) hcl
              rw [hc1] at r1
              rw [Option.some.inj r1]
              exact r2
            | false =>
              obtain ⟨k1, k2, -⟩ := p2.keep (Or.inr hf1) hcl
              rw [hc1] at k1
              rw [Option.some.inj k1, k2]
              exact hcl
          have hsame : v2.closed = w1.closed := q1.closed_of_pending _ _ a1 a2 rfl
          have hf2 : v2.now < t := by rw [q1.now_eq, hnow1]; exact hf
          obtain ⟨k1, k2, k3⟩ := q2.keep (Or.inr hf2) (by rw [hsame]; exact ho1)
          obtain ⟨b1, b2, -⟩ := q2.future hf2 ht0
          refine ⟨w1, w2, h1, h2, hnow1, hnow2, hwait k1, by rw [k2, hsame],
            by rw [k3, q1.nextChan_eq], hothers, htimers, hunique, by simp [a1, b1], ?_, ?_⟩
          · intro hn
            rw [a1] at hn
            cases hn
          · intro i1 tm1 hi1 htm1
            rw [a1] at hi1
            cases hi1
            rw [a2] at htm1
            cases htm1
            have hlt := p2.inv.timer_lt _ _ a2
            have hne : v2.nextTimer ≠ v1.nextTimer := by
              rw [q1.nextTimer_eq]
              exact (Nat.ne_of_lt hlt).symm
            obtain ⟨st, -, hst2, hst3⟩ := q1.timers_old _ _ a1 a2
            have hstop : st = .stopped := hst2.mpr rfl
            subst hstop
            refine ⟨_, _, b1, b2, hne, ?_, rfl, rfl, rfl, ?_⟩
            · simp only [Timer.when, q1.now_eq, p2.now_eq]
            · rw [q2.timers_old _ hne.symm, hst3]
        · -- deadline now or in the past
          have hle1 : t ≤ v1.now := by rw [p1.now_eq]; exact not_lt.mp hf
          obtain ⟨a1, a2, a3, -, -, -⟩ := p2.past ht0 hle1
          have hcc : c = c0 := by
            rw [hc1] at a2
            exact Option.some.inj a2
          subst hcc
          have hsame : v2.closed = w1.closed := q1.closed_of_none a1
          have hle2 : t ≤ v2.now := by rw [q1.now_eq, hnow1]; exact not_lt.mp hf
          obtain ⟨b1, b2, b3, b4, b5, b6⟩ := q2.past ht0 hle2
          have hcl : w2.closed = w1.closed := by
            funext c1
            by_cases hcc : c1 = c
            · rw [hcc, b3, a3]
            · rw [q2.closed_other c1 hcc, hsame]
          have hnc : w2.nextChan = w1.nextChan := by rw [b6, q1.nextChan_eq]
          refine ⟨w1, w2, h1, h2, hnow1, hnow2, hwait b2, hcl, hnc, hothers, htimers, hunique,
            by simp [a1, b1], fun _ => hequal a1 b1 b2 hcl hnc b4 b5, ?_⟩
          intro i1 tm1 hi1
          rw [a1] at hi1
          cases hi1

theorem Set_idempotent_witness :
    Reachable demo ∧ Ready demo () ∧
      (∃ w1 w2, PipeDeadline.Set () 105 demo = .ok w1 ∧ PipeDeadline.Set () 105 w1 = .ok w2 ∧
        (PipeDeadline.Wait () w2).1 = (PipeDeadline.Wait () w1).1 ∧ w2.closed = w1.closed ∧
        (w1.dl ()).timer = some 0 ∧
        w1.timers 0 = some { owner := (), armedAt := 100, dur := 5, status := .pending } ∧
        ∃ i2 tm2, (w2.dl ()).timer = some i2 ∧ w2.timers i2 = some tm2 ∧ i2 ≠ 0 ∧
          tm2.when = 105 ∧ tm2.status = .pending ∧
          w2.timers 0 = some { owner := (), armedAt := 100, dur := 5, status := .stopped }) ∧
      (∃ w1 w2, PipeDeadline.Set () 100 demo = .ok w1 ∧ PipeDeadline.Set () 100 w1 = .ok w2 ∧
        (w1.dl ()).timer = none ∧ w2 = w1) := by
  obtain ⟨w1, w2, h1, h2, -, -, h3, h4, -, -, -, -, -, -, h5⟩ :=
    Set_idempotent demo_reachable () demo_ready 105
  obtain ⟨v1, v2, g1, g2, -, -, -, -, -, -, -, -, -, g3, -⟩ :=
    Set_idempotent demo_reachable () demo_ready 100
  have e1 : PipeDeadline.Set () 105 demo = .ok armedDemo := rfl
  rw [e1] at h1
  cases h1
  have e2 : PipeDeadline.Set () 100 demo = .ok spent := rfl
  rw [e2] at g1
  cases g1
  obtain ⟨i2, tm2, k1, k2, k3, k4, -, -, k5, k6⟩ := h5 0 _ rfl rfl
  exact ⟨demo_reachable, demo_ready,
    ⟨armedDemo, w2, rfl, h2, h3, h4, rfl, rfl, i2, tm2, k1, k2, k3, k4, k5, k6⟩,
    ⟨spent, v2, rfl, g2, rfl, g3 rfl⟩⟩

end netLayer
